import Mathlib

/-!
# A shallow embedding of the `stv_model` STV counting engine

This file embeds `src/stv_model/model.py` in Lean 4 and proves properties of
the embedding.  Conventions of the embedding:

* Python `Decimal` values are modelled as exact rationals (`ℚ`).  The spec
  (§9, design notes) requires exact arithmetic; every quantity appearing in
  the scenarios is exactly representable in both systems.  The single place
  where the code rounds on purpose — `quantize`, used for the tolerant
  tied-at-minimum comparison — is modelled faithfully with round-half-even
  to 6 decimal places, `Decimal.quantize`'s default rounding mode.
* Python `dict` is modelled as an insertion-ordered association list
  (`Dict` below): writing an existing key updates it in place, writing a
  fresh key appends, iteration follows the list order.
* Python `assert` failures and the unreachable `KeyError`/`TypeError`
  paths are modelled with `Option` (a raising operation returns `none`)
  or, where a claim never exercises them, by an inert branch with a
  comment marking the Python behaviour.
* `logger.info` / `logger.warning` calls carry no state and are not
  modelled.  `self.log_event(...)` appends a line to
  `event_logs[round_no - 1]`; the embedding records the occurrence of each
  event (a per-round counter) since no property depends on the message
  text.  `time.sleep` / `os.system` in `run_count` are presentation-only
  (spec §5) and are not modelled.
-/

/-- Insertion-ordered association list modelling a Python `dict`. -/
def Dict (K V : Type) : Type := List (K × V)

namespace Dict

def empty {K V : Type} : Dict K V := []

def entries {K V : Type} (d : Dict K V) : List (K × V) := d

/-- `d[k]` as an `Option`: first entry whose key is `k`. -/
def lookup {K V : Type} [DecidableEq K] (d : Dict K V) (k : K) : Option V :=
  match d with
  | [] => none
  | p :: ps => if p.1 = k then some p.2 else lookup ps k

/-- `d[k] = v`: update the existing entry in place, else append (Python
dict insertion order). -/
def set {K V : Type} [DecidableEq K] (d : Dict K V) (k : K) (v : V) : Dict K V :=
  match d with
  | [] => [(k, v)]
  | p :: ps => if p.1 = k then (k, v) :: ps else p :: set ps k v

def values {K V : Type} (d : Dict K V) : List V := d.map (fun p => p.2)

def keys {K V : Type} (d : Dict K V) : List K := d.map (fun p => p.1)

/-- `d.setdefault(k, []).append(x)`. -/
def pushEntry {K A : Type} [DecidableEq K] (d : Dict K (List A)) (k : K) (x : A) :
    Dict K (List A) :=
  match lookup d k with
  | some l => set d k (l ++ [x])
  | none => set d k [x]

/-- `d.setdefault(k, v)`. -/
def setdefaultD {K V : Type} [DecidableEq K] (d : Dict K V) (k : K) (v : V) : Dict K V :=
  match lookup d k with
  | some _ => d
  | none => set d k v

instance {K V : Type} [DecidableEq K] [DecidableEq V] : DecidableEq (Dict K V) :=
  inferInstanceAs (DecidableEq (List (K × V)))

instance {K V : Type} [Repr K] [Repr V] : Repr (Dict K V) :=
  inferInstanceAs (Repr (List (K × V)))

end Dict

/-- Python `int(x)` on a `Decimal`: truncation toward zero
(`Int.tdiv` is truncating division). -/
def truncInt (q : ℚ) : ℤ := Int.tdiv q.num (q.den : ℤ)

/-- Round-half-even to the nearest integer, the default `Decimal` rounding. -/
def roundHalfEven (q : ℚ) : ℤ :=
  let f : ℤ := ⌊q⌋
  if q - f < 1/2 then f
  else if q - f > 1/2 then f + 1
  else if f % 2 = 0 then f else f + 1

/-- `quantize(value, places=6)` from `model.py`: rounds a decimal value to 6
decimal places (the only call sites use the default `places`). -/
def quantize (value : ℚ) : ℚ := (roundHalfEven (value * 1000000) : ℚ) / 1000000

/-- `Reason = Literal["elected", "eliminated"]`. -/
inductive Reason : Type
  | elected
  | eliminated
deriving DecidableEq, Repr

/-- Candidate status literals. -/
inductive Status : Type
  | running
  | elected
  | eliminated
deriving DecidableEq, Repr

/-- `Ballot`: immutable ranked preference list plus a strength. -/
structure Ballot : Type where
  id : String
  prefs : List String
  strength : ℚ
deriving DecidableEq, Repr

/-- `Ballot.is_valid`: `strength > 0 and len(prefs) > 0`. -/
def Ballot.is_valid (b : Ballot) : Bool := 0 < b.strength && !b.prefs.isEmpty

/-- `Slice`: a fragment of one ballot's weight attributed to one candidate. -/
structure Slice : Type where
  id : ℕ
  ballot_id : String
  current_idx : ℕ
  weight : ℚ
  assigned_to : Option String
  last_transfer_round : Option ℤ
  last_transfer_reason : Option Reason
deriving DecidableEq, Repr

/-- `Candidate`: mutable per-round status and tally history. -/
structure Candidate : Type where
  id : String
  status : Status
  tallies : List ℚ
  tally_after_first : ℚ
  tally_before_done : ℚ
deriving DecidableEq, Repr

/-- A freshly constructed `Candidate(id=cid)` with the dataclass defaults:
`status="running"`, `tallies=[Decimal("0")]`, zero snapshots. -/
def Candidate.fresh (cid : String) : Candidate :=
  ⟨cid, Status.running, [0], 0, 0⟩

/-- `Candidate.tally`: the last entry of `tallies`, or 0 when empty. -/
def Candidate.tally (c : Candidate) : ℚ :=
  match c.tallies.getLast? with
  | some t => t
  | none => 0

def Candidate.is_elected (c : Candidate) : Bool := c.status == Status.elected

def Candidate.is_running (c : Candidate) : Bool := c.status == Status.running

def Candidate.is_eliminated (c : Candidate) : Bool := c.status == Status.eliminated

/-- `CandidateLog` rows of the per-round transfer-delta table.  The dataclass
defaults `round_no=None`, `status=None`, `transfer=Decimal(0)`. -/
structure CandidateLog : Type where
  id : String
  round_no : Option ℤ
  status : Option Status
  transfer : ℚ
deriving DecidableEq, Repr

/-- `Election.__init__` state.  `event_logs` records, per round index, how
many events `log_event` appended (message text elided, see the header). -/
structure Election : Type where
  num_seats : ℤ
  quota : Option ℤ
  round_idx : ℤ
  num_ballots : Option ℤ
  candidates : Dict String Candidate
  ballots : Dict String Ballot
  slices : Dict ℕ Slice
  ballot_slices : Dict String (List ℕ)
  piles : Dict String (List ℕ)
  event_logs : Dict ℤ ℕ
  candidate_logs : Dict ℤ (Dict String CandidateLog)
  slice_id : ℕ
deriving DecidableEq, Repr

namespace Election

/-- `Election(num_seats=n)` with no candidates registered yet:
`_round_idx = -1`, `_slice_id = 1`, everything else empty/None. -/
def init (num_seats : ℤ) : Election :=
  ⟨num_seats, none, -1, none, Dict.empty, Dict.empty, Dict.empty,
    Dict.empty, Dict.empty, Dict.empty, Dict.empty, 1⟩

/-- `round_no` property: `_round_idx + 1`. -/
def round_no (e : Election) : ℤ := e.round_idx + 1

/-- `num_elected` property. -/
def num_elected (e : Election) : ℕ :=
  (e.candidates.values.filter (fun c => c.status == Status.elected)).length

/-- `num_to_elect` property (`num_seats - num_elected`, a Python `int`). -/
def num_to_elect (e : Election) : ℤ := e.num_seats - (e.num_elected : ℤ)

/-- `num_running` property. -/
def num_running (e : Election) : ℕ :=
  (e.candidates.values.filter (fun c => c.status == Status.running)).length

/-- `log_event`: appends one event line to `event_logs[round_no - 1]`.
Python indexes an existing key (a missing key would raise `KeyError`;
during a count `_do_run_round` has always created it); the embedding
counts the event. -/
def log_event (e : Election) : Election :=
  let n : ℕ := (e.event_logs.lookup (e.round_no - 1)).getD 0
  { e with event_logs := e.event_logs.set (e.round_no - 1) (n + 1) }

/-- Python `self.quota` where it is read as a number.  Before round 1 the
field is `None` and any Python comparison/subtraction with it would raise
`TypeError`; the count always sets it first, so the default 0 is inert. -/
def quotaQ (e : Election) : ℚ := match e.quota with
  | some q => (q : ℚ)
  | none => 0

/-- `_create_slice(ballot)`: a valid ballot seeds one slice of weight
`ballot.strength` at preference index 0 into `prefs[0]`'s pile; an invalid
ballot creates nothing.  (The returned slice is ignored by every caller.) -/
def create_slice (e : Election) (ballot : Ballot) : Election :=
  match ballot.prefs with
  | [] => e  -- invalid ballot: no slice
  | first_pref :: _ =>
    if ballot.strength ≤ 0 then e  -- invalid ballot: no slice
    else
      let s : Slice := ⟨e.slice_id, ballot.id, 0, ballot.strength, some first_pref, none, none⟩
      { e with
          slices := e.slices.set s.id s,
          ballot_slices := e.ballot_slices.pushEntry ballot.id s.id,
          piles := e.piles.pushEntry first_pref s.id,
          slice_id := e.slice_id + 1 }

/-- `register_candidate`: `assert candidate.id not in self.candidates`. -/
def register_candidate (e : Election) (c : Candidate) : Option Election :=
  if (e.candidates.lookup c.id).isSome then none
  else some { e with candidates := e.candidates.set c.id c }

/-- `register_ballot`: asserts the id is fresh in both `ballots` and
`ballot_slices`, then stores the ballot and creates its initial slice. -/
def register_ballot (e : Election) (b : Ballot) : Option Election :=
  if (e.ballots.lookup b.id).isSome then none
  else if (e.ballot_slices.lookup b.id).isSome then none
  else some (create_slice { e with ballots := e.ballots.set b.id b } b)

/-- The eligibility test of `_build_next_slice`'s scan:
`candidate.status == "running" and candidate.tally < self.quota`.
(Python raises `KeyError` on an unregistered preference; modelled as
ineligible — every claim concerns fully registered elections.) -/
def eligible (e : Election) (cid : String) : Bool :=
  match e.candidates.lookup cid with
  | some c => c.status == Status.running && decide (c.tally < e.quotaQ)
  | none => false

/-- The body of the `while next_idx < len(ballot.prefs)` scan of
`_build_next_slice` over the remaining `(index, preference)` pairs. -/
def scan_list (e : Election) : List (ℕ × String) → Option (ℕ × String)
  | [] => none
  | p :: rest => if eligible e p.2 then some p else scan_list e rest

/-- The `while` scan of `_build_next_slice`: the first index `≥ j` whose
candidate is running and below quota (`prefs.enum.drop j` is exactly the
sequence of `(index, preference)` pairs the Python loop visits). -/
def scan_prefs (e : Election) (prefs : List String) (j : ℕ) : Option (ℕ × String) :=
  scan_list e (prefs.enum.drop j)

/-- `_build_next_slice(slice, weight, reason)`: resolve the first eligible
preference strictly after `slice.current_idx`; on success create the
successor slice there (logging one transfer event), else change nothing. -/
def build_next_slice (e : Election) (s : Slice) (weight : ℚ) (reason : Reason) :
    Election × Option Slice :=
  match e.ballots.lookup s.ballot_id with
  | none => (e, none)  -- Python: KeyError; slices only reference registered ballots
  | some ballot =>
    match scan_prefs e ballot.prefs (s.current_idx + 1) with
    | none => (e, none)
    | some (j, candidate_id) =>
      let next_slice : Slice :=
        ⟨e.slice_id, ballot.id, j, weight, some candidate_id, some e.round_no, some reason⟩
      let e1 := { e with
          slices := e.slices.set next_slice.id next_slice,
          ballot_slices := e.ballot_slices.pushEntry ballot.id next_slice.id,
          piles := e.piles.pushEntry candidate_id next_slice.id,
          slice_id := e.slice_id + 1 }
      (e1.log_event, some next_slice)

/-- One iteration of the surplus-transfer loop in `elect`: shrink the pile
slice in place to `weight * remaining_quotient` and resolve a successor
slice carrying `transfer_quotient * original_weight`. -/
def elect_loop_step (tq rq : ℚ) (e : Election) (sid : ℕ) : Election :=
  match e.slices.lookup sid with
  | none => e  -- Python: KeyError; pile entries always exist in `slices`
  | some s =>
    let original_weight := s.weight
    let s2 := { s with weight := s.weight * rq }
    let e2 := { e with slices := e.slices.set sid s2 }
    (build_next_slice e2 s2 (tq * original_weight) Reason.elected).1

/-- The entry portion of `elect`, run unconditionally: mark the candidate
elected, log the election event and snapshot `tally_before_done`. -/
def elect_entry (e : Election) (candidate_id : String) : Election :=
  match e.candidates.lookup candidate_id with
  | none => e  -- Python: KeyError
  | some c =>
    let c2 := { c with status := Status.elected, tally_before_done := c.tally }
    (log_event { e with candidates := e.candidates.set candidate_id c2 })

/-- `elect(candidate_id, transfer_surplus=...)`. -/
def elect (e : Election) (candidate_id : String) (transfer_surplus : Bool) : Election :=
  match e.candidates.lookup candidate_id with
  | none => e  -- Python: KeyError
  | some c =>
    let surplus : ℚ := c.tally - e.quotaQ
    let e1 := elect_entry e candidate_id
    if !transfer_surplus || surplus ≤ 0 then e1
    else
      let transfer_quotient := surplus / c.tally
      let remaining_quotient := 1 - transfer_quotient
      let e2 := e1.log_event  -- "Pārdales koeficients" event
      let pile := (e2.piles.lookup candidate_id).getD []
      pile.foldl (elect_loop_step transfer_quotient remaining_quotient) e2

/-- One iteration of the elimination-transfer loop: zero the source slice
and resolve a successor carrying its entire transfer value. -/
def elim_loop_step (e : Election) (sid : ℕ) : Election :=
  match e.slices.lookup sid with
  | none => e  -- Python: KeyError; pile entries always exist in `slices`
  | some s =>
    let transfer_value := s.weight
    let s2 := { s with weight := 0 }
    let e2 := { e with slices := e.slices.set sid s2 }
    (build_next_slice e2 s2 transfer_value Reason.eliminated).1

/-- `eliminate(candidate_id, transfer_surplus=...)`: log, mark eliminated,
snapshot the pile, clear it completely, then (unless transfer is off)
transfer every snapshot slice's weight onward. -/
def eliminate (e : Election) (candidate_id : String) (transfer_surplus : Bool) : Election :=
  let e0 := e.log_event
  match e0.candidates.lookup candidate_id with
  | none => e0  -- Python: KeyError (raised after the event was logged)
  | some c =>
    let c2 := { c with status := Status.eliminated }
    let e1 := { e0 with candidates := e0.candidates.set candidate_id c2 }
    let pile := (e1.piles.lookup candidate_id).getD []
    let e2 := { e1 with piles := e1.piles.set candidate_id [] }
    if !transfer_surplus then e2
    else pile.foldl elim_loop_step e2

/-- `Decimal(0) + sum(self.slices[slice_id].weight for slice_id in pile)`.
(A missing slice id would raise `KeyError` in Python; unreachable.) -/
def pileSum (slices : Dict ℕ Slice) (pile : List ℕ) : ℚ :=
  pile.foldl (fun acc sid => acc + (match slices.lookup sid with
    | some s => s.weight
    | none => 0)) 0

/-- Python `lst[i] = v` with a possibly negative index (`-1` = last).
`List.set` out of range is a no-op where Python would raise `IndexError`;
the count only ever writes in range. -/
def pySetIdx (l : List ℚ) (i : ℤ) (v : ℚ) : List ℚ :=
  if 0 ≤ i then l.set i.toNat v else l.set (l.length - (-i).toNat) v

/-- The per-candidate update of `run_tally`: append when the history is
shorter than the current round number, else overwrite `tallies[_round_idx]`. -/
def tallyUpd (rnd_no rnd_idx : ℤ) (t : ℚ) (c : Candidate) : Candidate :=
  if c.tallies.isEmpty || (c.tallies.length : ℤ) < rnd_no then
    { c with tallies := c.tallies ++ [t] }
  else
    { c with tallies := pySetIdx c.tallies rnd_idx t }

/-- One iteration of `run_tally`'s loop over `piles.items()`. -/
def tally_step (e : Election) (p : String × List ℕ) : Election :=
  match e.candidates.lookup p.1 with
  | none => e  -- Python: KeyError; pile keys are registered candidates
  | some c =>
    let t := pileSum e.slices p.2
    { e with candidates := e.candidates.set p.1 (tallyUpd e.round_no e.round_idx t c) }

/-- `run_tally()`: recompute every pile-owning candidate's current tally. -/
def run_tally (e : Election) : Election :=
  e.piles.foldl tally_step e

/-- `_calc_num_ballots()`: the valid-ballot strengths summed and truncated
to an integer with Python `int(...)`. -/
def validStrengthSum (e : Election) : ℚ :=
  ((e.ballots.values.filter (fun b => b.is_valid)).map (fun b => b.strength)).sum

def calc_num_ballots (e : Election) : Election :=
  { e with num_ballots := some (truncInt e.validStrengthSum) }

/-- `_calc_quota()`: Droop quota `floor(num_ballots / (num_seats + 1)) + 1`
(`math.floor` of the exact quotient; the Python float intermediate is exact
at these magnitudes). -/
def calc_quota (e : Election) : Election :=
  { e with quota := some (Int.fdiv ((e.num_ballots).getD 0) (e.num_seats + 1) + 1) }

end Election

/-- `[-1 * t for t in reversed(candidate.tallies)]`. -/
def negRev (l : List ℚ) : List ℚ := l.reverse.map (fun t => -t)

/-- Python list `<` on decimal lists: elementwise comparison, a strict
prefix is smaller. -/
def listLtB : List ℚ → List ℚ → Bool
  | [], [] => false
  | [], _ :: _ => true
  | _ :: _, [] => false
  | x :: xs, y :: ys => if x < y then true else if y < x then false else listLtB xs ys

namespace Key

/-- The comparison `Key.by_tally_desc_then_id` induces between two
candidates: Python compares the tuple
`([-t for t in reversed(tallies)], id)` lexicographically. -/
def keyLtB (a b : Candidate) : Bool :=
  if listLtB (negRev a.tallies) (negRev b.tallies) then true
  else if listLtB (negRev b.tallies) (negRev a.tallies) then false
  else decide (a.id < b.id)

/-- The non-strict version used for sorting (total because `keyLtB` is
asymmetric). -/
def keyLeB (a b : Candidate) : Bool := !keyLtB b a

/-- The sorting relation as a `Prop`. -/
def keyLe (a b : Candidate) : Prop := keyLeB a b = true

instance : DecidableRel keyLe := fun a b => inferInstanceAs (Decidable (keyLeB a b = true))

end Key

namespace Election

/-- `_get_candidates_by_tally()`: `sorted(self.candidates.values(),
key=Key.by_tally_desc_then_id)`.  The `itertools.groupby` re-yield in the
source iterates the sorted list unchanged, so the generator is exactly the
sorted list.  Python's sort is stable and the key (ending in the unique
candidate id) is injective, so the stable insertion sort below produces the
same list. -/
def get_candidates_by_tally (e : Election) : List Candidate :=
  List.insertionSort Key.keyLe e.candidates.values

/-- The `running`-filtered ranking computed at the top of each round. -/
def ranked_candidates (e : Election) : List Candidate :=
  (e.get_candidates_by_tally).filter (fun c => c.is_running)

/-- Python `lst[:n]` for a possibly negative `int` bound. -/
def pyTake {α : Type} (n : ℤ) (l : List α) : List α :=
  if 0 ≤ n then l.take n.toNat else l.take ((l.length : ℤ) + n).toNat

/-- `_finish_run()`: when open seats equal the running count, elect every
remaining running candidate without transfer (checking `is_running` at
iteration time, as the Python loop over the live dict view does), then
retally.  (`_log_counts` only writes to the logger.) -/
def finish_run (e : Election) : Election :=
  let e1 :=
    if e.num_to_elect = (e.num_running : ℤ) then
      e.candidates.keys.foldl (fun acc cid =>
        match acc.candidates.lookup cid with
        | some c => if c.is_running then acc.elect cid false else acc
        | none => acc) e
    else e
  e1.run_tally

/-- The batch status flip `candidates[cid].status = "elected"` performed
before any surplus transfer. -/
def mark_elected (e : Election) (cid : String) : Election :=
  match e.candidates.lookup cid with
  | some c => { e with candidates := e.candidates.set cid { c with status := Status.elected } }
  | none => e  -- Python: KeyError

/-- The round-1 initialisation of `_do_run_round`: ballot count, quota,
initial tally, then the `tally_after_first` snapshot for every candidate. -/
def round1_init (ei : Election) : Election :=
  let ea := ei.calc_num_ballots.calc_quota.run_tally
  let snap := ea.candidates.entries.map
    (fun p => (p.1, { p.2 with tally_after_first := p.2.tally }))
  { ea with candidates := snap }

/-- The election/elimination core of `_do_run_round`, run on the state `e`
after the round counter, event log and (in round 1) the initialisation have
been handled; `none` models the `AssertionError` raised when no candidate is
left running. -/
def round_body (e : Election) : Option Election :=
  let ranked := e.ranked_candidates
  match ranked.getLast? with
  | none => none  -- `assert ranked_candidates`
  | some worst =>
    let elected := (ranked.filter
      (fun c => c.is_running && decide (e.quotaQ ≤ c.tally))).map (fun c => c.id)
    if elected.isEmpty then
      -- somebody must be eliminated
      if e.num_to_elect = (e.num_running : ℤ) - 1 then
        some ((e.eliminate worst.id false).finish_run)
      else if e.num_to_elect = (e.num_running : ℤ) then
        some e.finish_run
      else
        let smallest_tally := worst.tally
        let eliminable := (ranked.reverse.filter
          (fun c => quantize c.tally == quantize smallest_tally)).map (fun c => c.id)
        let eC := (pyTake ((e.num_running : ℤ) - e.num_to_elect) eliminable).foldl
          (fun acc cid => acc.eliminate cid true) e
        if eC.num_to_elect = (eC.num_running : ℤ) then some eC.finish_run
        else some eC.run_tally
    else
      -- flip the whole batch first, then transfer each surplus in order
      let eA := elected.foldl mark_elected e
      let eB := elected.foldl (fun acc cid => acc.elect cid true) eA
      if eB.num_to_elect = (eB.num_running : ℤ) then some eB.finish_run
      else some eB.run_tally

/-- `_do_run_round()`: advance the round counter, seed the event log, stop
early once all seats are assigned, initialise on round 1, then run the
election/elimination core. -/
def do_run_round (e0 : Election) : Option Election :=
  let ei := { e0 with round_idx := e0.round_idx + 1 }
  let ei := { ei with event_logs := ei.event_logs.setdefaultD ei.round_idx 0 }
  if e0.num_seats ≤ (ei.num_elected : ℤ) then some ei  -- all seats assigned: no-op
  else round_body (if ei.round_no = 1 then round1_init ei else ei)

/-- `_collect_round_log()`: per-candidate status and transfer delta for the
just-finished round. -/
def collect_round_log (e : Election) : Election :=
  let d0 := (e.candidate_logs.lookup e.round_idx).getD Dict.empty
  let d2 := e.candidates.entries.foldl (fun d p =>
      let c := p.2
      let prev := (d.lookup p.1).getD ⟨p.1, none, none, 0⟩
      let transfer : ℚ :=
        if c.tallies.length = 0 then 0
        else if c.tallies.length = 1 then c.tally
        else c.tally - ((c.tallies.get? (c.tallies.length - 2)).getD 0)
      let upd := { prev with status := some c.status, round_no := some e.round_no, transfer := transfer }
      d.set p.1 upd) d0
  { e with candidate_logs := e.candidate_logs.set e.round_idx d2 }

/-- `_run_round()`: one counting round plus its log collection. -/
def run_round (e : Election) : Option Election :=
  (e.do_run_round).map collect_round_log

/-- `n` invocations of `_run_round`, short-circuiting on an assertion. -/
def stepsN : ℕ → Election → Option Election
  | 0, e => some e
  | Nat.succ n, e =>
    match e.run_round with
    | some e2 => stepsN n e2
    | none => none

/-- The `while` loop of `run_count`, driven by fuel.  Each successful
`run_round` increases `round_no` by exactly 1, so with initial fuel
`max_rounds - round_no` the fuel is never exhausted while the loop
condition still holds: the recursion is exactly the Python loop. -/
def run_count_loop (max_rounds : ℤ) : ℕ → Election → Option Election
  | 0, e => some e
  | Nat.succ fuel, e =>
    if (e.num_elected : ℤ) < e.num_seats ∧ e.round_no < max_rounds then
      match e.run_round with
      | some e2 => run_count_loop max_rounds fuel e2
      | none => none
    else some e

/-- `run_count(max_rounds=...)`.  `none` models the re-entry
`AssertionError` (`round_no` must be 0).  The final `log_event` is the
"count finished" / "round cap reached" line. -/
def run_count (e : Election) (max_rounds : ℤ) : Option Election :=
  if e.round_no = 0 then
    match run_count_loop max_rounds (max_rounds - e.round_no).toNat e with
    | some e1 => some e1.log_event
    | none => none
  else none

/-- `reset()`: set `_round_idx = 0`, clear quota/ballot count/slices/piles,
return every candidate to `running` with an empty tally history, and reseed
one slice per ballot.  (It does not touch the snapshots
`tally_after_first`/`tally_before_done` nor the logs — faithful to the
source.) -/
def reset (e : Election) : Election :=
  let cand2 := e.candidates.entries.map
    (fun p => (p.1, { p.2 with status := Status.running, tallies := ([] : List ℚ) }))
  let e1 : Election :=
    { e with round_idx := 0, num_ballots := none, quota := none, slices := Dict.empty, ballot_slices := Dict.empty, piles := Dict.empty, slice_id := 1, candidates := cand2 }
  e1.ballots.values.foldl (fun acc b => acc.create_slice b) e1

/-- One vote line of `from_votes`: register every yet-unknown preference as
a fresh candidate, then register the unit-strength ballot (ids are "1",
"2", … as `enumerate(votes, start=1)` produces). -/
def from_votes_step (acc : Option Election) (iv : ℕ × List String) : Option Election :=
  match acc with
  | none => none
  | some e =>
    let withCands := iv.2.foldl (fun acc2 pref =>
      match acc2 with
      | none => none
      | some el =>
        if (el.candidates.lookup pref).isSome then some el
        else el.register_candidate (Candidate.fresh pref)) (some e)
    match withCands with
    | none => none
    | some el2 => el2.register_ballot ⟨toString (iv.1 + 1), iv.2, 1⟩

/-- `Election.from_votes(votes=..., num_seats=...)` over an explicit
preference-list form of the votes. -/
def from_votes (votes : List (List String)) (num_seats : ℤ) : Option Election :=
  votes.enum.foldl from_votes_step (some (init num_seats))

end Election

/-- The total weight currently held by all slices carved from one ballot:
the quantity conserved (up to exhaustion) by the transfer mechanics. -/
def ballotSum (slices : Dict ℕ Slice) (bid : String) : ℚ :=
  ((slices.values.map (fun s => if s.ballot_id = bid then s.weight else 0)).sum)

/-- Well-formedness of an `Election` state.  Established by registration and
preserved by every counting operation; the conservation bound is the last
field. -/
structure ElectionWF (e : Election) : Prop where
  seats_nonneg : 0 ≤ e.num_seats
  quota_nonneg : ∀ q, e.quota = some q → 0 ≤ q
  keys_nodup : e.slices.keys.Nodup
  keys_lt : ∀ p ∈ e.slices.entries, p.1 < e.slice_id
  weights_nonneg : ∀ p ∈ e.slices.entries, 0 ≤ (p.2).weight
  ballot_linked : ∀ p ∈ e.slices.entries, (e.ballot_slices.lookup (p.2).ballot_id).isSome = true
  ballots_keyed : ∀ bid b, e.ballots.lookup bid = some b → b.id = bid
  piles_nodup : ∀ q ∈ e.piles.entries, (q.2).Nodup
  piles_lt : ∀ q ∈ e.piles.entries, ∀ sid ∈ q.2, sid < e.slice_id
  piles_keys_nodup : e.piles.keys.Nodup
  cons : ∀ bid b, e.ballots.lookup bid = some b → b.is_valid = true →
    ballotSum e.slices bid ≤ b.strength

/-- Spec-side history comparison (§4.3(b)): walk the prior-round tallies
from the most recent backward; at the first differing round the larger
tally ranks first. -/
def histBetterB : List ℚ → List ℚ → Bool
  | [], [] => false
  | [], _ :: _ => false
  | _ :: _, [] => true
  | x :: xs, y :: ys => if y < x then true else if x < y then false else histBetterB xs ys

/-- A candidate's prior-round history, most recent round first (current
round excluded). -/
def priorHist (c : Candidate) : List ℚ := c.tallies.dropLast.reverse

/-- The ranking rule §4.3 step 2 spells out, written from the spec's words:
(a) current tally descending, (b) on a tie the prior-round history compared
most recent first, (c) on a full-history tie the identifier ascending. -/
def specRankLt (a b : Candidate) : Prop :=
  b.tally < a.tally ∨
    (a.tally = b.tally ∧
      (histBetterB (priorHist a) (priorHist b) = true ∨
        (priorHist a = priorHist b ∧ a.id < b.id)))

/-- Scenario B's votes (§8): `AB, ABD, AC, ACD, B, BC, BCA, BD`. -/
def sbVotes : List (List String) :=
  [["A", "B"], ["A", "B", "D"], ["A", "C"], ["A", "C", "D"],
   ["B"], ["B", "C"], ["B", "C", "A"], ["B", "D"]]

/-- Scenario B registered with 3 seats. -/
def sbE0 : Election := (Election.from_votes sbVotes 3).getD (Election.init 0)

/-- Scenario B after round 1. -/
def sbE1 : Election := (sbE0.run_round).getD (Election.init 0)

/-- Scenario B after round 2. -/
def sbE2 : Election := (sbE1.run_round).getD (Election.init 0)

/-- A two-candidate, one-seat election used to exercise `run_count`'s
re-entry assertion. -/
def c2E0 : Election := (Election.from_votes [["A"], ["B"]] 1).getD (Election.init 0)

/-- Three seats, votes `AC, AC, AC, B, C`, plus a candidate `Z` that no
ballot ever mentions: `Z` never owns a pile. -/
def z8E0 : Election :=
  (((Election.from_votes [["A", "C"], ["A", "C"], ["A", "C"], ["B"], ["C"]] 3).getD
    (Election.init 0)).register_candidate (Candidate.fresh "Z")).getD (Election.init 0)

/-- The never-piled-candidate election after two completed rounds. -/
def z8E2 : Election := (Election.stepsN 2 z8E0).getD (Election.init 0)

/-- The two states agree on every component of the slice/weight
bookkeeping: operations that only touch candidates, logs or the round
counter relate to their input by `SameCount`. -/
def SameCount (e e2 : Election) : Prop :=
  e2.slices = e.slices ∧ e2.ballots = e.ballots ∧ e2.ballot_slices = e.ballot_slices ∧
  e2.piles = e.piles ∧ e2.quota = e.quota ∧ e2.num_seats = e.num_seats ∧
  e2.num_ballots = e.num_ballots ∧ e2.slice_id = e.slice_id

/-- The two states agree on the registered ballots, the quota, the
valid-ballot count and the seat count — the quantities §4.2 declares
immutable after round 1. -/
def CountFrame (e e2 : Election) : Prop :=
  e2.ballots = e.ballots ∧ e2.quota = e.quota ∧ e2.num_ballots = e.num_ballots ∧
  e2.num_seats = e.num_seats

/-- Scenario B after the raw round-1 step (before log collection). -/
def sbD1 : Election := (Election.do_run_round sbE0).getD (Election.init 0)

/-- A zero-seat election: any round stepped on it is a no-op round. -/
def c10E0 : Election := (Election.from_votes [["A"], ["A", "B"]] 0).getD (Election.init 0)

/-- The zero-seat election after one (no-op) round. -/
def c10E1 : Election := (c10E0.run_round).getD (Election.init 0)

/-- A hand-built mid-count election for exercising `_build_next_slice`:
quota 3, `A` already elected with tally 4, `C` running with tally 1,
and ballot `3` ranking `A` then `C`. -/
def c5E : Election := { Election.init 1 with
    quota := some 3,
    round_idx := 0,
    candidates := [("A", ⟨"A", Status.elected, [4], 0, 4⟩),
                   ("C", ⟨"C", Status.running, [1], 0, 0⟩)],
    ballots := [("3", ⟨"3", ["A", "C"], 1⟩)] }

/-- A slice of ballot `3` sitting at preference index 0 (candidate `A`). -/
def c5S : Slice := ⟨2, "3", 0, 1, some "A", none, none⟩

/-- A hand-built mid-count election for exercising surplus transfer in
`elect`: quota 2, candidate `A` running with tally 4 from the single
strength-4 ballot `1` ranking `A` then `B`, so electing `A` leaves a
surplus of 2 and a transfer quotient of 1/2. -/
def c6E : Election := { Election.init 2 with
    quota := some 2,
    round_idx := 0,
    num_ballots := some 4,
    candidates := [("A", ⟨"A", Status.running, [4], 0, 0⟩),
                   ("B", ⟨"B", Status.running, [0], 0, 0⟩)],
    ballots := [("1", ⟨"1", ["A", "B"], 4⟩)],
    slices := [(1, ⟨1, "1", 0, 4, some "A", none, none⟩)],
    ballot_slices := [("1", [1])],
    piles := [("A", [1])],
    slice_id := 2 }

/-! ## Association-list (`dict`) lemmas -/

namespace Dict

variable {K V : Type} [DecidableEq K]

theorem entries_def (d : Dict K V) : d.entries = d := rfl

theorem keys_cons (p : K × V) (ps : Dict K V) : keys (p :: ps) = p.1 :: keys ps := rfl

theorem mem_keys {d : Dict K V} {k : K} : k ∈ d.keys ↔ ∃ v, (k, v) ∈ d.entries := by
  induction d with
  | nil => simp [keys, entries]
  | cons p ps ih =>
    constructor
    · intro h
      rcases List.mem_cons.mp h with h | h
      · refine ⟨p.2, List.mem_cons.mpr (Or.inl ?_)⟩
        show (k, p.2) = p
        rw [show (k = p.1) from h]
      · rcases ih.mp h with ⟨v, hv⟩
        exact ⟨v, List.mem_cons_of_mem _ hv⟩
    · rintro ⟨v, hv⟩
      rcases List.mem_cons.mp hv with h | h
      · rw [keys_cons, show p.1 = k from congrArg Prod.fst h.symm]
        exact List.mem_cons_self _ _
      · exact List.mem_cons_of_mem _ (ih.mpr ⟨v, h⟩)

theorem lookup_set_self (d : Dict K V) (k : K) (v : V) : (d.set k v).lookup k = some v := by
  induction d with
  | nil => simp [set, lookup]
  | cons p ps ih =>
    by_cases h : p.1 = k
    · simp [set, lookup, h]
    · simp [set, lookup, h, ih]

theorem lookup_set_ne (d : Dict K V) {k k' : K} (v : V) (h : k' ≠ k) :
    (d.set k v).lookup k' = d.lookup k' := by
  have hk : ¬ (k = k') := fun hh => h hh.symm
  induction d with
  | nil => simp [set, lookup, hk]
  | cons p ps ih =>
    by_cases hp : p.1 = k
    · have hp' : ¬ (p.1 = k') := fun hh => hk (hp.symm.trans hh)
      show Dict.lookup (if p.1 = k then (k, v) :: ps else p :: Dict.set ps k v) k' = _
      rw [if_pos hp]
      show (if k = k' then some v else Dict.lookup ps k') = _
      rw [if_neg hk]
      show _ = (if p.1 = k' then some p.2 else Dict.lookup ps k')
      rw [if_neg hp']
    · show Dict.lookup (if p.1 = k then (k, v) :: ps else p :: Dict.set ps k v) k' = _
      rw [if_neg hp]
      show (if p.1 = k' then some p.2 else Dict.lookup (Dict.set ps k v) k') = _
      show _ = (if p.1 = k' then some p.2 else Dict.lookup ps k')
      rw [ih]

theorem mem_of_lookup {d : Dict K V} {k : K} {v : V} (h : d.lookup k = some v) :
    (k, v) ∈ d.entries := by
  induction d with
  | nil => simp [lookup] at h
  | cons p ps ih =>
    by_cases hp : p.1 = k
    · simp only [lookup, hp, if_pos] at h
      have : (k, v) = p := by
        rcases h with h
        rw [← hp]
        exact Prod.ext rfl (Option.some.inj h).symm
      rw [entries_def, this]
      exact List.mem_cons_self _ _
    · simp only [lookup, hp, if_neg, if_false] at h
      exact List.mem_cons_of_mem _ (ih h)

theorem lookup_eq_none_iff {d : Dict K V} {k : K} :
    d.lookup k = none ↔ k ∉ d.keys := by
  induction d with
  | nil => simp [lookup, keys]
  | cons p ps ih =>
    by_cases hp : p.1 = k
    · simp [lookup, keys, hp]
    · simp only [lookup, hp, if_false, ih, keys_cons]
      constructor
      · intro hh hmem
        rcases List.mem_cons.mp hmem with h1 | h1
        · exact hp h1.symm
        · exact hh h1
      · intro hh h1
        exact hh (List.mem_cons_of_mem _ h1)

theorem lookup_isSome_iff {d : Dict K V} {k : K} :
    (d.lookup k).isSome = true ↔ k ∈ d.keys := by
  rcases h : d.lookup k with _ | v
  · simp only [Option.isSome_none, Bool.false_eq_true, false_iff]
    exact lookup_eq_none_iff.mp h
  · simp only [Option.isSome_some, true_iff]
    rcases mem_keys.mpr ⟨v, mem_of_lookup h⟩ with hh
    exact hh

theorem mem_set {d : Dict K V} {k : K} {v : V} {p : K × V}
    (h : p ∈ (d.set k v).entries) : p = (k, v) ∨ p ∈ d.entries := by
  induction d with
  | nil =>
    rcases List.mem_cons.mp h with h | h
    · exact Or.inl h
    · simp at h
  | cons q qs ih =>
    by_cases hq : q.1 = k
    · rw [entries_def, show Dict.set (q :: qs) k v = (k, v) :: qs from by rw [show Dict.set (q :: qs) k v = if q.1 = k then (k, v) :: qs else q :: Dict.set qs k v from rfl, if_pos hq]] at h
      rcases List.mem_cons.mp h with h | h
      · exact Or.inl h
      · exact Or.inr (List.mem_cons_of_mem _ h)
    · rw [entries_def, show Dict.set (q :: qs) k v = q :: Dict.set qs k v from by rw [show Dict.set (q :: qs) k v = if q.1 = k then (k, v) :: qs else q :: Dict.set qs k v from rfl, if_neg hq]] at h
      rcases List.mem_cons.mp h with h | h
      · refine Or.inr ?_
        rw [entries_def, h]
        exact List.mem_cons_self _ _
      · rcases ih h with h' | h'
        · exact Or.inl h'
        · exact Or.inr (List.mem_cons_of_mem _ h')

theorem keys_set_of_mem {d : Dict K V} {k : K} (v : V) (h : k ∈ d.keys) :
    (d.set k v).keys = d.keys := by
  induction d with
  | nil => simp [keys] at h
  | cons p ps ih =>
    by_cases hp : p.1 = k
    · simp [set, keys, hp]
    · have h' : k ∈ keys ps := by
        rcases List.mem_cons.mp h with h | h
        · exact absurd h.symm hp
        · exact h
      simp only [set, hp, if_false, keys_cons, ih h']

theorem keys_set_of_not_mem {d : Dict K V} {k : K} (v : V) (h : k ∉ d.keys) :
    (d.set k v).keys = d.keys ++ [k] := by
  induction d with
  | nil => simp [set, keys]
  | cons p ps ih =>
    have hp : ¬ p.1 = k := fun hh => h (by rw [keys_cons, hh]; exact List.mem_cons_self _ _)
    have h' : k ∉ keys ps := fun hh => h (by rw [keys_cons]; exact List.mem_cons_of_mem _ hh)
    simp only [set, hp, if_false, keys_cons, ih h', List.cons_append]

theorem keys_nodup_set {d : Dict K V} {k : K} (v : V) (h : d.keys.Nodup) :
    (d.set k v).keys.Nodup := by
  by_cases hk : k ∈ d.keys
  · rw [keys_set_of_mem v hk]; exact h
  · rw [keys_set_of_not_mem v hk]
    rw [List.nodup_append]
    refine ⟨h, List.nodup_singleton k, ?_⟩
    intro a ha hak
    rw [List.mem_singleton] at hak
    exact hk (hak ▸ ha)

theorem set_lookup_self {d : Dict K V} {k : K} {v : V} (h : d.lookup k = some v) :
    d.set k v = d := by
  induction d with
  | nil => simp [lookup] at h
  | cons p ps ih =>
    by_cases hp : p.1 = k
    · simp only [lookup, hp, if_pos] at h
      have hv : v = p.2 := (Option.some.inj h).symm
      show (if p.1 = k then (k, v) :: ps else p :: set ps k v) = p :: ps
      rw [if_pos hp, hv, ← hp]
    · simp only [lookup, hp, if_neg, if_false] at h
      show (if p.1 = k then (k, v) :: ps else p :: set ps k v) = p :: ps
      rw [if_neg hp, ih h]

end Dict

namespace Dict

theorem lookup_pushEntry_self {K A : Type} [DecidableEq K] (d : Dict K (List A)) (k : K) (x : A) :
    (d.pushEntry k x).lookup k = some ((d.lookup k).getD [] ++ [x]) := by
  unfold pushEntry
  rcases h : d.lookup k with _ | l
  · simp [lookup_set_self]
  · simp [lookup_set_self]

theorem lookup_pushEntry_ne {K A : Type} [DecidableEq K] (d : Dict K (List A)) {k k' : K}
    (x : A) (h : k' ≠ k) : (d.pushEntry k x).lookup k' = d.lookup k' := by
  unfold pushEntry
  rcases hl : d.lookup k with _ | l
  · exact lookup_set_ne d _ h
  · exact lookup_set_ne d _ h

theorem keys_nodup_pushEntry {K A : Type} [DecidableEq K] (d : Dict K (List A)) (k : K) (x : A)
    (h : d.keys.Nodup) : (d.pushEntry k x).keys.Nodup := by
  unfold pushEntry
  rcases d.lookup k with _ | l
  · exact keys_nodup_set _ h
  · exact keys_nodup_set _ h

theorem mem_pushEntry {K A : Type} [DecidableEq K] {d : Dict K (List A)} {k : K} {x : A}
    {q : K × List A} (h : q ∈ (d.pushEntry k x).entries) :
    q.2 = (d.lookup k).getD [] ++ [x] ∨ q ∈ d.entries := by
  unfold pushEntry at h
  rcases hl : d.lookup k with _ | l
  · rw [hl] at h
    rcases mem_set h with h' | h'
    · left
      subst h'
      simp [hl]
    · exact Or.inr h'
  · rw [hl] at h
    rcases mem_set h with h' | h'
    · left
      subst h'
      simp [hl]
    · exact Or.inr h'

theorem lookup_isSome_pushEntry {K A : Type} [DecidableEq K] (d : Dict K (List A))
    {k' : K} (k : K) (x : A) (h : (d.lookup k').isSome = true) :
    ((d.pushEntry k x).lookup k').isSome = true := by
  by_cases hk : k' = k
  · subst hk
    rw [lookup_pushEntry_self]
    rfl
  · rw [lookup_pushEntry_ne d x hk]
    exact h

end Dict

/-! ## `ballotSum` bookkeeping lemmas -/

theorem ballotSum_cons (p : ℕ × Slice) (ps : Dict ℕ Slice) (bid : String) :
    ballotSum (p :: ps) bid =
      (if (p.2).ballot_id = bid then (p.2).weight else 0) + ballotSum ps bid := by
  simp [ballotSum, Dict.values]

theorem ballotSum_set_fresh {d : Dict ℕ Slice} {sid : ℕ} (s : Slice)
    (h : d.lookup sid = none) (bid : String) :
    ballotSum (d.set sid s) bid =
      ballotSum d bid + (if s.ballot_id = bid then s.weight else 0) := by
  induction d with
  | nil => simp [ballotSum, Dict.set, Dict.values, add_comm]
  | cons p ps ih =>
    have hp : ¬ p.1 = sid := by
      intro hh
      simp [Dict.lookup, hh] at h
    have h' : Dict.lookup ps sid = none := by
      simpa [Dict.lookup, hp] using h
    show ballotSum (if p.1 = sid then (sid, s) :: ps else p :: Dict.set ps sid s) bid = _
    rw [if_neg hp, ballotSum_cons, ballotSum_cons, ih h', add_assoc]

theorem ballotSum_set_existing {d : Dict ℕ Slice} {sid : ℕ} {s0 : Slice} (s : Slice)
    (hnd : d.keys.Nodup) (h : d.lookup sid = some s0) (bid : String) :
    ballotSum (d.set sid s) bid + (if s0.ballot_id = bid then s0.weight else 0) =
      ballotSum d bid + (if s.ballot_id = bid then s.weight else 0) := by
  induction d with
  | nil => simp [Dict.lookup] at h
  | cons p ps ih =>
    by_cases hp : p.1 = sid
    · have hs0 : p.2 = s0 := by
        have := h
        rw [show Dict.lookup (p :: ps) sid = if p.1 = sid then some p.2 else Dict.lookup ps sid from rfl, if_pos hp] at this
        exact Option.some.inj this
      show ballotSum (if p.1 = sid then (sid, s) :: ps else p :: Dict.set ps sid s) bid + _ = _
      rw [if_pos hp, ballotSum_cons, ballotSum_cons, hs0]
      ring
    · have h' : Dict.lookup ps sid = some s0 := by
        have := h
        rw [show Dict.lookup (p :: ps) sid = if p.1 = sid then some p.2 else Dict.lookup ps sid from rfl, if_neg hp] at this
        exact this
      have hnd' : (Dict.keys ps).Nodup := (List.nodup_cons.mp hnd).2
      show ballotSum (if p.1 = sid then (sid, s) :: ps else p :: Dict.set ps sid s) bid + _ = _
      rw [if_neg hp, ballotSum_cons, ballotSum_cons, add_assoc, ih hnd' h', ← add_assoc]

theorem ballotSum_zero_of_no_ballot {d : Dict ℕ Slice} {bid : String}
    (h : ∀ p ∈ d.entries, (p.2).ballot_id ≠ bid) : ballotSum d bid = 0 := by
  induction d with
  | nil => rfl
  | cons p ps ih =>
    rw [ballotSum_cons, if_neg (h p (List.mem_cons_self _ _)),
      ih (fun q hq => h q (List.mem_cons_of_mem _ hq)), add_zero]

/-! ## Frame lemmas: which state components each operation can touch -/

namespace Election

theorem log_event_frame (e : Election) :
    (e.log_event).candidates = e.candidates ∧ (e.log_event).ballots = e.ballots ∧
    (e.log_event).slices = e.slices ∧ (e.log_event).ballot_slices = e.ballot_slices ∧
    (e.log_event).piles = e.piles ∧ (e.log_event).quota = e.quota ∧
    (e.log_event).num_ballots = e.num_ballots ∧ (e.log_event).num_seats = e.num_seats ∧
    (e.log_event).round_idx = e.round_idx ∧ (e.log_event).slice_id = e.slice_id ∧
    (e.log_event).candidate_logs = e.candidate_logs := by
  unfold log_event
  exact ⟨rfl, rfl, rfl, rfl, rfl, rfl, rfl, rfl, rfl, rfl, rfl⟩

/-- `_build_next_slice` either changes nothing (exhaustion) or creates
exactly the successor slice at the first eligible preference. -/
theorem build_next_slice_spec (e : Election) (s : Slice) (w : ℚ) (r : Reason) :
    ((build_next_slice e s w r).1 = e ∧ (build_next_slice e s w r).2 = none ∧
      ∀ ballot, e.ballots.lookup s.ballot_id = some ballot →
        scan_prefs e ballot.prefs (s.current_idx + 1) = none)
    ∨ (∃ ballot j cid,
        e.ballots.lookup s.ballot_id = some ballot ∧
        scan_prefs e ballot.prefs (s.current_idx + 1) = some (j, cid) ∧
        (build_next_slice e s w r).2 =
          some ⟨e.slice_id, ballot.id, j, w, some cid, some e.round_no, some r⟩ ∧
        (build_next_slice e s w r).1 = Election.log_event { e with
          slices := e.slices.set e.slice_id
            ⟨e.slice_id, ballot.id, j, w, some cid, some e.round_no, some r⟩,
          ballot_slices := e.ballot_slices.pushEntry ballot.id e.slice_id,
          piles := e.piles.pushEntry cid e.slice_id,
          slice_id := e.slice_id + 1 }) := by
  unfold build_next_slice
  split
  · next hb =>
      refine Or.inl ⟨rfl, rfl, ?_⟩
      intro b hb'
      rw [hb] at hb'
      cases hb'
  · next ballot hb =>
      split
      · next hs =>
          refine Or.inl ⟨rfl, rfl, ?_⟩
          intro b hb'
          rw [hb] at hb'
          cases hb'
          exact hs
      · next j cid hs =>
          exact Or.inr ⟨ballot, j, cid, hb, hs, rfl, rfl⟩

theorem build_next_slice_frame (e : Election) (s : Slice) (w : ℚ) (r : Reason) :
    ((build_next_slice e s w r).1).candidates = e.candidates ∧
    ((build_next_slice e s w r).1).ballots = e.ballots ∧
    ((build_next_slice e s w r).1).quota = e.quota ∧
    ((build_next_slice e s w r).1).num_ballots = e.num_ballots ∧
    ((build_next_slice e s w r).1).num_seats = e.num_seats ∧
    ((build_next_slice e s w r).1).round_idx = e.round_idx ∧
    ((build_next_slice e s w r).1).candidate_logs = e.candidate_logs := by
  rcases build_next_slice_spec e s w r with ⟨h1, _, _⟩ | ⟨b, j, cid, _, _, _, h1⟩
  · rw [h1]
    exact ⟨rfl, rfl, rfl, rfl, rfl, rfl, rfl⟩
  · rw [h1]
    unfold log_event
    exact ⟨rfl, rfl, rfl, rfl, rfl, rfl, rfl⟩

/-! ## Well-formedness preservation -/

theorem lookup_slice_id_none {e : Election} (h : ElectionWF e) :
    e.slices.lookup e.slice_id = none := by
  rw [Dict.lookup_eq_none_iff]
  intro hmem
  rcases Dict.mem_keys.mp hmem with ⟨v, hv⟩
  exact lt_irrefl _ (h.keys_lt _ hv)

/-- Shrinking one existing slice's weight in place (to a smaller
nonnegative value) preserves well-formedness, and the owning ballot's
slice-weight sum drops by exactly the difference. -/
theorem wf_shrink {e : Election} {sid : ℕ} {s : Slice} (w2 : ℚ)
    (h : ElectionWF e) (hl : e.slices.lookup sid = some s)
    (h0 : 0 ≤ w2) (hle : w2 ≤ s.weight) :
    ElectionWF { e with slices := e.slices.set sid { s with weight := w2 } } ∧
    (∀ bid, ballotSum (e.slices.set sid { s with weight := w2 }) bid +
      (if s.ballot_id = bid then s.weight else 0) =
      ballotSum e.slices bid + (if s.ballot_id = bid then w2 else 0)) := by
  have hsum : ∀ bid, ballotSum (e.slices.set sid { s with weight := w2 }) bid +
      (if s.ballot_id = bid then s.weight else 0) =
      ballotSum e.slices bid + (if s.ballot_id = bid then w2 else 0) := by
    intro bid
    exact ballotSum_set_existing _ h.keys_nodup hl bid
  refine ⟨⟨h.seats_nonneg, h.quota_nonneg, Dict.keys_nodup_set _ h.keys_nodup, ?_, ?_, ?_,
    h.ballots_keyed, h.piles_nodup, h.piles_lt, h.piles_keys_nodup, ?_⟩, hsum⟩
  · intro p hp
    rcases Dict.mem_set hp with hp' | hp'
    · rw [hp']
      exact h.keys_lt (sid, s) (Dict.mem_of_lookup hl)
    · exact h.keys_lt _ hp'
  · intro p hp
    rcases Dict.mem_set hp with hp' | hp'
    · rw [hp']
      exact h0
    · exact h.weights_nonneg _ hp'
  · intro p hp
    rcases Dict.mem_set hp with hp' | hp'
    · rw [hp']
      exact h.ballot_linked (sid, s) (Dict.mem_of_lookup hl)
    · exact h.ballot_linked _ hp'
  · intro bid b hb hv
    have hs := hsum bid
    have hcons := h.cons bid b hb hv
    by_cases hbid : s.ballot_id = bid
    · rw [if_pos hbid, if_pos hbid] at hs
      have : ballotSum (e.slices.set sid { s with weight := w2 }) bid =
          ballotSum e.slices bid + w2 - s.weight := by linarith
      rw [this]
      linarith
    · rw [if_neg hbid, if_neg hbid, add_zero, add_zero] at hs
      rw [hs]
      exact hcons

/-- `_build_next_slice` preserves every well-formedness field except that
the owning ballot's slice sum may grow by (at most) the carried weight;
everything else it might have touched is itemised. -/
theorem wf_build {e : Election} (s : Slice) (w : ℚ) (r : Reason) (hw : 0 ≤ w)
    (h : ElectionWF e) :
    (0 ≤ ((build_next_slice e s w r).1).num_seats) ∧
    (∀ q, ((build_next_slice e s w r).1).quota = some q → 0 ≤ q) ∧
    ((build_next_slice e s w r).1).slices.keys.Nodup ∧
    (∀ p ∈ ((build_next_slice e s w r).1).slices.entries,
      p.1 < ((build_next_slice e s w r).1).slice_id) ∧
    (∀ p ∈ ((build_next_slice e s w r).1).slices.entries, 0 ≤ (p.2).weight) ∧
    (∀ p ∈ ((build_next_slice e s w r).1).slices.entries,
      (((build_next_slice e s w r).1).ballot_slices.lookup (p.2).ballot_id).isSome = true) ∧
    (∀ bid b, ((build_next_slice e s w r).1).ballots.lookup bid = some b → b.id = bid) ∧
    (∀ q ∈ ((build_next_slice e s w r).1).piles.entries, (q.2).Nodup) ∧
    (∀ q ∈ ((build_next_slice e s w r).1).piles.entries, ∀ sid ∈ q.2,
      sid < ((build_next_slice e s w r).1).slice_id) ∧
    ((build_next_slice e s w r).1).piles.keys.Nodup ∧
    ((build_next_slice e s w r).1).ballots = e.ballots ∧
    (∀ bid, ballotSum ((build_next_slice e s w r).1).slices bid ≤
      ballotSum e.slices bid + (if s.ballot_id = bid then w else 0)) := by
  rcases build_next_slice_spec e s w r with ⟨h1, _, _⟩ | ⟨ballot, j, cid, hb, hs, _, h1⟩
  · rw [h1]
    refine ⟨h.seats_nonneg, h.quota_nonneg, h.keys_nodup, h.keys_lt, h.weights_nonneg,
      h.ballot_linked, h.ballots_keyed, h.piles_nodup, h.piles_lt, h.piles_keys_nodup, rfl, ?_⟩
    intro bid
    by_cases hbid : s.ballot_id = bid
    · rw [if_pos hbid]
      linarith [le_refl (ballotSum e.slices bid)]
    · rw [if_neg hbid, add_zero]
  · have hbid_eq : ballot.id = s.ballot_id := h.ballots_keyed _ _ hb
    rw [h1]
    unfold Election.log_event
    refine ⟨h.seats_nonneg, h.quota_nonneg, ?_, ?_, ?_, ?_, h.ballots_keyed, ?_, ?_, ?_, rfl, ?_⟩
    · exact Dict.keys_nodup_set _ h.keys_nodup
    · intro p hp
      rcases Dict.mem_set hp with hp' | hp'
      · rw [hp']
        exact Nat.lt_succ_self _
      · exact Nat.lt_succ_of_lt (h.keys_lt _ hp')
    · intro p hp
      rcases Dict.mem_set hp with hp' | hp'
      · rw [hp']
        exact hw
      · exact h.weights_nonneg _ hp'
    · intro p hp
      rcases Dict.mem_set hp with hp' | hp'
      · rw [hp']
        rw [show (⟨e.slice_id, ballot.id, j, w, some cid, some e.round_no, some r⟩ : Slice).ballot_id = ballot.id from rfl]
        rw [Dict.lookup_pushEntry_self]
        rfl
      · exact Dict.lookup_isSome_pushEntry _ _ _ (h.ballot_linked _ hp')
    · intro q hq
      rcases Dict.mem_pushEntry hq with hq' | hq'
      · rw [hq']
        rcases hql : e.piles.lookup cid with _ | l
        · simp
        · have hmem := Dict.mem_of_lookup hql
          have hnd := h.piles_nodup _ hmem
          have hlt := h.piles_lt _ hmem
          rw [Option.getD_some]
          rw [List.nodup_append]
          refine ⟨hnd, List.nodup_singleton _, ?_⟩
          intro a ha hae
          rw [List.mem_singleton] at hae
          exact absurd (hae ▸ (hlt a ha)) (lt_irrefl _)
      · exact h.piles_nodup _ hq'
    · intro q hq sid hsid
      rcases Dict.mem_pushEntry hq with hq' | hq'
      · rw [hq'] at hsid
        rcases List.mem_append.mp hsid with hs' | hs'
        · rcases hql : e.piles.lookup cid with _ | l
          · rw [hql] at hs'
            simp at hs'
          · rw [hql, Option.getD_some] at hs'
            exact Nat.lt_succ_of_lt (h.piles_lt _ (Dict.mem_of_lookup hql) sid hs')
        · rw [List.mem_singleton] at hs'
          rw [hs']
          exact Nat.lt_succ_self _
      · exact Nat.lt_succ_of_lt (h.piles_lt _ hq' sid hsid)
    · exact Dict.keys_nodup_pushEntry _ _ _ h.piles_keys_nodup
    · intro bid
      rw [ballotSum_set_fresh _ (lookup_slice_id_none h) bid]
      rw [show (⟨e.slice_id, ballot.id, j, w, some cid, some e.round_no, some r⟩ : Slice).ballot_id = ballot.id from rfl]
      rw [hbid_eq]

/-- One surplus-transfer iteration preserves well-formedness and never
increases any ballot's slice-weight sum (`rq = 1 - tq`, `0 ≤ tq ≤ 1`). -/
theorem wf_elect_loop_step {e : Election} (tq : ℚ) (sid : ℕ) (h : ElectionWF e)
    (h0 : 0 ≤ tq) (h1 : tq ≤ 1) :
    ElectionWF (Election.elect_loop_step tq (1 - tq) e sid) ∧
    (Election.elect_loop_step tq (1 - tq) e sid).ballots = e.ballots ∧
    (∀ bid, ballotSum (Election.elect_loop_step tq (1 - tq) e sid).slices bid ≤
      ballotSum e.slices bid) := by
  unfold Election.elect_loop_step
  split
  · exact ⟨h, rfl, fun bid => le_refl _⟩
  · next s hl =>
    have hw : 0 ≤ s.weight := h.weights_nonneg (sid, s) (Dict.mem_of_lookup hl)
    have hrq0 : 0 ≤ 1 - tq := by linarith
    have h0' : 0 ≤ s.weight * (1 - tq) := mul_nonneg hw hrq0
    have hle : s.weight * (1 - tq) ≤ s.weight := by nlinarith
    rcases wf_shrink (s.weight * (1 - tq)) h hl h0' hle with ⟨hWFmid, hsum_mid⟩
    rcases wf_build { s with weight := s.weight * (1 - tq) } (tq * s.weight)
      Reason.elected (mul_nonneg h0 hw) hWFmid with
      ⟨c1, c2, c3, c4, c5, c6, c7, c8, c9, c10, c11, c12⟩
    have hballots : ({ e with slices := e.slices.set sid { s with weight := s.weight * (1 - tq) } } : Election).ballots = e.ballots := rfl
    have hmono : ∀ bid, ballotSum ((Election.build_next_slice
        { e with slices := e.slices.set sid { s with weight := s.weight * (1 - tq) } }
        { s with weight := s.weight * (1 - tq) } (tq * s.weight) Reason.elected).1).slices bid ≤
        ballotSum e.slices bid := by
      intro bid
      have hb := c12 bid
      have hm := hsum_mid bid
      rw [show ({ e with slices := e.slices.set sid { s with weight := s.weight * (1 - tq) } } : Election).slices = e.slices.set sid { s with weight := s.weight * (1 - tq) } from rfl] at hb
      rw [show ({ s with weight := s.weight * (1 - tq) } : Slice).ballot_id = s.ballot_id from rfl] at hb
      by_cases hbid : s.ballot_id = bid
      · simp only [if_pos hbid] at hb hm
        linarith
      · simp only [if_neg hbid, add_zero] at hb hm
        linarith
    refine ⟨⟨c1, c2, c3, c4, c5, c6, c7, c8, c9, c10, ?_⟩, by rw [c11], hmono⟩
    intro bid b hb hv
    rw [c11] at hb
    exact le_trans (hmono bid) (h.cons bid b hb hv)

/-- One elimination-transfer iteration preserves well-formedness and never
increases any ballot's slice-weight sum. -/
theorem wf_elim_loop_step {e : Election} (sid : ℕ) (h : ElectionWF e) :
    ElectionWF (Election.elim_loop_step e sid) ∧
    (Election.elim_loop_step e sid).ballots = e.ballots ∧
    (∀ bid, ballotSum (Election.elim_loop_step e sid).slices bid ≤
      ballotSum e.slices bid) := by
  unfold Election.elim_loop_step
  split
  · exact ⟨h, rfl, fun bid => le_refl _⟩
  · next s hl =>
    have hw : 0 ≤ s.weight := h.weights_nonneg (sid, s) (Dict.mem_of_lookup hl)
    rcases wf_shrink 0 h hl (le_refl 0) hw with ⟨hWFmid, hsum_mid⟩
    rcases wf_build { s with weight := 0 } s.weight Reason.eliminated hw hWFmid with
      ⟨c1, c2, c3, c4, c5, c6, c7, c8, c9, c10, c11, c12⟩
    have hmono : ∀ bid, ballotSum ((Election.build_next_slice
        { e with slices := e.slices.set sid { s with weight := 0 } }
        { s with weight := 0 } s.weight Reason.eliminated).1).slices bid ≤
        ballotSum e.slices bid := by
      intro bid
      have hb := c12 bid
      have hm := hsum_mid bid
      rw [show ({ e with slices := e.slices.set sid { s with weight := 0 } } : Election).slices = e.slices.set sid { s with weight := 0 } from rfl] at hb
      rw [show ({ s with weight := 0 } : Slice).ballot_id = s.ballot_id from rfl] at hb
      by_cases hbid : s.ballot_id = bid
      · simp only [if_pos hbid] at hb hm
        linarith
      · simp only [if_neg hbid, add_zero] at hb hm
        linarith
    refine ⟨⟨c1, c2, c3, c4, c5, c6, c7, c8, c9, c10, ?_⟩, by rw [c11], hmono⟩
    intro bid b hb hv
    rw [c11] at hb
    exact le_trans (hmono bid) (h.cons bid b hb hv)

/-- Folding well-formedness- and sum-preserving steps preserves both. -/
theorem wf_foldl {α : Type} {f : Election → α → Election}
    (hf : ∀ e x, ElectionWF e → ElectionWF (f e x) ∧ (f e x).ballots = e.ballots ∧
      (∀ bid, ballotSum (f e x).slices bid ≤ ballotSum e.slices bid)) :
    ∀ (l : List α) (e : Election), ElectionWF e →
      ElectionWF (l.foldl f e) ∧ (l.foldl f e).ballots = e.ballots ∧
      (∀ bid, ballotSum (l.foldl f e).slices bid ≤ ballotSum e.slices bid) := by
  intro l
  induction l with
  | nil => exact fun e he => ⟨he, rfl, fun _ => le_refl _⟩
  | cons x xs ih =>
    intro e he
    rcases hf e x he with ⟨h1, h2, h3⟩
    rcases ih (f e x) h1 with ⟨g1, g2, g3⟩
    exact ⟨g1, g2.trans h2, fun bid => le_trans (g3 bid) (h3 bid)⟩

/-- A state change that leaves the counting components untouched
preserves well-formedness. -/
theorem wf_of_sameCount {e e2 : Election} (h : ElectionWF e) (hs : SameCount e e2) :
    ElectionWF e2 := by
  rcases hs with ⟨h1, h2, h3, h4, h5, h6, h7, h8⟩
  refine ⟨?_, ?_, ?_, ?_, ?_, ?_, ?_, ?_, ?_, ?_, ?_⟩
  · rw [h6]; exact h.seats_nonneg
  · rw [h5]; exact h.quota_nonneg
  · rw [h1]; exact h.keys_nodup
  · rw [h1, h8]; exact h.keys_lt
  · rw [h1]; exact h.weights_nonneg
  · rw [h1, h3]; exact h.ballot_linked
  · rw [h2]; exact h.ballots_keyed
  · rw [h4]; exact h.piles_nodup
  · rw [h4, h8]; exact h.piles_lt
  · rw [h4]; exact h.piles_keys_nodup
  · rw [h2, h1]; exact h.cons

theorem sameCount_refl (e : Election) : SameCount e e :=
  ⟨rfl, rfl, rfl, rfl, rfl, rfl, rfl, rfl⟩

theorem sameCount_trans {e e2 e3 : Election} (h : SameCount e e2) (h2 : SameCount e2 e3) :
    SameCount e e3 := by
  rcases h with ⟨a1, a2, a3, a4, a5, a6, a7, a8⟩
  rcases h2 with ⟨b1, b2, b3, b4, b5, b6, b7, b8⟩
  exact ⟨b1.trans a1, b2.trans a2, b3.trans a3, b4.trans a4, b5.trans a5,
    b6.trans a6, b7.trans a7, b8.trans a8⟩

theorem sameCount_log_event (e : Election) : SameCount e e.log_event :=
  ⟨rfl, rfl, rfl, rfl, rfl, rfl, rfl, rfl⟩

theorem sameCount_tally_step (e : Election) (p : String × List ℕ) :
    SameCount e (Election.tally_step e p) := by
  unfold Election.tally_step
  split
  · exact sameCount_refl e
  · exact ⟨rfl, rfl, rfl, rfl, rfl, rfl, rfl, rfl⟩

theorem sameCount_foldl {α : Type} {f : Election → α → Election}
    (hf : ∀ e x, SameCount e (f e x)) :
    ∀ (l : List α) (e : Election), SameCount e (l.foldl f e) := by
  intro l
  induction l with
  | nil => exact fun e => sameCount_refl e
  | cons x xs ih => exact fun e => sameCount_trans (hf e x) (ih (f e x))

theorem sameCount_run_tally (e : Election) : SameCount e e.run_tally := by
  unfold Election.run_tally
  exact sameCount_foldl sameCount_tally_step e.piles e

theorem sameCount_mark_elected (e : Election) (cid : String) :
    SameCount e (e.mark_elected cid) := by
  unfold Election.mark_elected
  split
  · exact ⟨rfl, rfl, rfl, rfl, rfl, rfl, rfl, rfl⟩
  · exact sameCount_refl e

theorem sameCount_elect_entry (e : Election) (cid : String) :
    SameCount e (Election.elect_entry e cid) := by
  unfold Election.elect_entry
  split
  · exact sameCount_refl e
  · next c hc =>
    refine sameCount_trans ?_ (sameCount_log_event _)
    exact ⟨rfl, rfl, rfl, rfl, rfl, rfl, rfl, rfl⟩

theorem sameCount_collect (e : Election) : SameCount e (Election.collect_round_log e) := by
  unfold Election.collect_round_log
  exact ⟨rfl, rfl, rfl, rfl, rfl, rfl, rfl, rfl⟩

theorem quotaQ_nonneg {e : Election} (h : ElectionWF e) : 0 ≤ e.quotaQ := by
  unfold Election.quotaQ
  split
  · next q hq => exact_mod_cast h.quota_nonneg q hq
  · exact le_refl 0

/-- `elect` preserves well-formedness and never increases any ballot's
slice-weight sum. -/
theorem wf_elect {e : Election} (cid : String) (t : Bool) (h : ElectionWF e) :
    ElectionWF (e.elect cid t) ∧ (e.elect cid t).ballots = e.ballots ∧
    (∀ bid, ballotSum (e.elect cid t).slices bid ≤ ballotSum e.slices bid) := by
  unfold Election.elect
  split
  · exact ⟨h, rfl, fun bid => le_refl _⟩
  · next c hc =>
    have hentry : SameCount e (Election.elect_entry e cid) := sameCount_elect_entry e cid
    have hWF1 : ElectionWF (Election.elect_entry e cid) := wf_of_sameCount h hentry
    dsimp only
    split
    · exact ⟨hWF1, hentry.2.1, fun bid => le_of_eq (by rw [hentry.1])⟩
    · next hcond =>
      have hsp : 0 < c.tally - e.quotaQ := by
        by_contra hle
        push_neg at hle
        simp [hle] at hcond
      have htally : 0 < c.tally := lt_of_lt_of_le hsp (by linarith [quotaQ_nonneg h])
      have h0 : 0 ≤ (c.tally - e.quotaQ) / c.tally :=
        div_nonneg (le_of_lt hsp) (le_of_lt htally)
      have h1 : (c.tally - e.quotaQ) / c.tally ≤ 1 := by
        rw [div_le_one htally]
        linarith [quotaQ_nonneg h]
      have hlog : SameCount e ((Election.elect_entry e cid).log_event) :=
        sameCount_trans hentry (sameCount_log_event _)
      have hWF2 : ElectionWF ((Election.elect_entry e cid).log_event) :=
        wf_of_sameCount h hlog
      rcases wf_foldl (fun e2 x he2 => wf_elect_loop_step ((c.tally - e.quotaQ) / c.tally) x he2 h0 h1)
        (((Election.elect_entry e cid).log_event.piles.lookup cid).getD [])
        ((Election.elect_entry e cid).log_event) hWF2 with ⟨g1, g2, g3⟩
      refine ⟨g1, g2.trans hlog.2.1, fun bid => ?_⟩
      have := g3 bid
      rw [hlog.1] at this
      exact this

/-- `eliminate` preserves well-formedness and never increases any ballot's
slice-weight sum. -/
theorem wf_eliminate {e : Election} (cid : String) (t : Bool) (h : ElectionWF e) :
    ElectionWF (e.eliminate cid t) ∧ (e.eliminate cid t).ballots = e.ballots ∧
    (∀ bid, ballotSum (e.eliminate cid t).slices bid ≤ ballotSum e.slices bid) := by
  unfold Election.eliminate
  have hlog : SameCount e e.log_event := sameCount_log_event e
  have hWF0 : ElectionWF e.log_event := wf_of_sameCount h hlog
  dsimp only
  split
  · exact ⟨hWF0, hlog.2.1, fun bid => le_of_eq (by rw [hlog.1])⟩
  · next c hc =>
    have hmark : SameCount e.log_event
        (Election.mk e.log_event.num_seats e.log_event.quota e.log_event.round_idx
          e.log_event.num_ballots
          (e.log_event.candidates.set cid { c with status := Status.eliminated })
          e.log_event.ballots e.log_event.slices e.log_event.ballot_slices
          e.log_event.piles e.log_event.event_logs e.log_event.candidate_logs
          e.log_event.slice_id) := ⟨rfl, rfl, rfl, rfl, rfl, rfl, rfl, rfl⟩
    have hWF1 := wf_of_sameCount hWF0 hmark
    have hWF2 : ElectionWF
        (Election.mk e.log_event.num_seats e.log_event.quota e.log_event.round_idx
          e.log_event.num_ballots
          (e.log_event.candidates.set cid { c with status := Status.eliminated })
          e.log_event.ballots e.log_event.slices e.log_event.ballot_slices
          (e.log_event.piles.set cid []) e.log_event.event_logs e.log_event.candidate_logs
          e.log_event.slice_id) := by
      refine ⟨hWF1.seats_nonneg, hWF1.quota_nonneg, hWF1.keys_nodup, hWF1.keys_lt,
        hWF1.weights_nonneg, hWF1.ballot_linked, hWF1.ballots_keyed, ?_, ?_, ?_, hWF1.cons⟩
      · intro q hq
        rcases Dict.mem_set hq with hq' | hq'
        · rw [hq']
          exact List.nodup_nil
        · exact hWF1.piles_nodup _ hq'
      · intro q hq sid hsid
        rcases Dict.mem_set hq with hq' | hq'
        · rw [hq'] at hsid
          simp at hsid
        · exact hWF1.piles_lt _ hq' sid hsid
      · exact Dict.keys_nodup_set _ hWF1.piles_keys_nodup
    split
    · exact ⟨hWF2, hlog.2.1, fun bid => le_of_eq (by rw [hlog.1])⟩
    · rcases wf_foldl (fun e2 x he2 => wf_elim_loop_step x he2)
        ((e.log_event.piles.lookup cid).getD [])
        (Election.mk e.log_event.num_seats e.log_event.quota e.log_event.round_idx
          e.log_event.num_ballots
          (e.log_event.candidates.set cid { c with status := Status.eliminated })
          e.log_event.ballots e.log_event.slices e.log_event.ballot_slices
          (e.log_event.piles.set cid []) e.log_event.event_logs e.log_event.candidate_logs
          e.log_event.slice_id) hWF2 with ⟨g1, g2, g3⟩
      refine ⟨g1, g2.trans hlog.2.1, fun bid => ?_⟩
      have := g3 bid
      rw [show (e.log_event).slices = e.slices from hlog.1] at this
      exact this

/-! ## Count-frame lemmas: quota, ballot count, seats, ballots are
untouched by the transfer operations -/

theorem countFrame_refl (e : Election) : CountFrame e e := ⟨rfl, rfl, rfl, rfl⟩

theorem countFrame_trans {e e2 e3 : Election} (h : CountFrame e e2)
    (h2 : CountFrame e2 e3) : CountFrame e e3 :=
  ⟨h2.1.trans h.1, h2.2.1.trans h.2.1, h2.2.2.1.trans h.2.2.1, h2.2.2.2.trans h.2.2.2⟩

theorem countFrame_of_sameCount {e e2 : Election} (h : SameCount e e2) : CountFrame e e2 :=
  ⟨h.2.1, h.2.2.2.2.1, h.2.2.2.2.2.2.1, h.2.2.2.2.2.1⟩

theorem countFrame_build (e : Election) (s : Slice) (w : ℚ) (r : Reason) :
    CountFrame e ((Election.build_next_slice e s w r).1) ∧
    ((Election.build_next_slice e s w r).1).round_idx = e.round_idx ∧
    ((Election.build_next_slice e s w r).1).candidates = e.candidates := by
  rcases Election.build_next_slice_frame e s w r with ⟨h1, h2, h3, h4, h5, h6, h7⟩
  exact ⟨⟨h2, h3, h4, h5⟩, h6, h1⟩

theorem countFrame_elect_loop_step (tq rq : ℚ) (e : Election) (sid : ℕ) :
    CountFrame e (Election.elect_loop_step tq rq e sid) ∧
    (Election.elect_loop_step tq rq e sid).round_idx = e.round_idx ∧
    (Election.elect_loop_step tq rq e sid).candidates = e.candidates := by
  unfold Election.elect_loop_step
  split
  · exact ⟨countFrame_refl e, rfl, rfl⟩
  · next s hl =>
    rcases countFrame_build { e with slices := e.slices.set sid { s with weight := s.weight * rq } }
      { s with weight := s.weight * rq } (tq * s.weight) Reason.elected with ⟨h1, h2, h3⟩
    exact ⟨h1, h2, h3⟩

theorem countFrame_elim_loop_step (e : Election) (sid : ℕ) :
    CountFrame e (Election.elim_loop_step e sid) ∧
    (Election.elim_loop_step e sid).round_idx = e.round_idx ∧
    (Election.elim_loop_step e sid).candidates = e.candidates := by
  unfold Election.elim_loop_step
  split
  · exact ⟨countFrame_refl e, rfl, rfl⟩
  · next s hl =>
    rcases countFrame_build { e with slices := e.slices.set sid { s with weight := 0 } }
      { s with weight := 0 } s.weight Reason.eliminated with ⟨h1, h2, h3⟩
    exact ⟨h1, h2, h3⟩

theorem countFrame_foldl {α : Type} {f : Election → α → Election}
    (hf : ∀ e x, CountFrame e (f e x) ∧ (f e x).round_idx = e.round_idx) :
    ∀ (l : List α) (e : Election),
      CountFrame e (l.foldl f e) ∧ (l.foldl f e).round_idx = e.round_idx := by
  intro l
  induction l with
  | nil => exact fun e => ⟨countFrame_refl e, rfl⟩
  | cons x xs ih =>
    intro e
    rcases hf e x with ⟨h1, h2⟩
    rcases ih (f e x) with ⟨g1, g2⟩
    exact ⟨countFrame_trans h1 g1, g2.trans h2⟩

theorem sameCount_round_idx_log_event (e : Election) : (e.log_event).round_idx = e.round_idx := rfl

theorem countFrame_elect (e : Election) (cid : String) (t : Bool) :
    CountFrame e (e.elect cid t) ∧ (e.elect cid t).round_idx = e.round_idx := by
  unfold Election.elect
  split
  · exact ⟨countFrame_refl e, rfl⟩
  · next c hc =>
    have hentry : CountFrame e (Election.elect_entry e cid) ∧
        (Election.elect_entry e cid).round_idx = e.round_idx := by
      unfold Election.elect_entry
      split
      · exact ⟨countFrame_refl e, rfl⟩
      · exact ⟨countFrame_of_sameCount
          (sameCount_trans ⟨rfl, rfl, rfl, rfl, rfl, rfl, rfl, rfl⟩ (sameCount_log_event _)), rfl⟩
    dsimp only
    split
    · exact hentry
    · rcases countFrame_foldl (fun e2 x =>
        ⟨(countFrame_elect_loop_step _ _ e2 x).1, (countFrame_elect_loop_step _ _ e2 x).2.1⟩)
        (((Election.elect_entry e cid).log_event.piles.lookup cid).getD [])
        ((Election.elect_entry e cid).log_event) with ⟨g1, g2⟩
      refine ⟨countFrame_trans (countFrame_trans hentry.1
        (countFrame_of_sameCount (sameCount_log_event _))) g1, ?_⟩
      rw [g2]
      exact hentry.2

theorem countFrame_eliminate (e : Election) (cid : String) (t : Bool) :
    CountFrame e (e.eliminate cid t) ∧ (e.eliminate cid t).round_idx = e.round_idx := by
  unfold Election.eliminate
  dsimp only
  have hlog : CountFrame e e.log_event :=
    countFrame_of_sameCount (sameCount_log_event e)
  split
  · exact ⟨hlog, rfl⟩
  · next c hc =>
    have hclear : CountFrame e
        (Election.mk e.log_event.num_seats e.log_event.quota e.log_event.round_idx
          e.log_event.num_ballots
          (e.log_event.candidates.set cid { c with status := Status.eliminated })
          e.log_event.ballots e.log_event.slices e.log_event.ballot_slices
          (e.log_event.piles.set cid []) e.log_event.event_logs e.log_event.candidate_logs
          e.log_event.slice_id) := ⟨hlog.1, hlog.2.1, hlog.2.2.1, hlog.2.2.2⟩
    split
    · exact ⟨hclear, rfl⟩
    · rcases countFrame_foldl (fun e2 x =>
        ⟨(countFrame_elim_loop_step e2 x).1, (countFrame_elim_loop_step e2 x).2.1⟩)
        ((e.log_event.piles.lookup cid).getD [])
        (Election.mk e.log_event.num_seats e.log_event.quota e.log_event.round_idx
          e.log_event.num_ballots
          (e.log_event.candidates.set cid { c with status := Status.eliminated })
          e.log_event.ballots e.log_event.slices e.log_event.ballot_slices
          (e.log_event.piles.set cid []) e.log_event.event_logs e.log_event.candidate_logs
          e.log_event.slice_id) with ⟨g1, g2⟩
      exact ⟨countFrame_trans hclear g1, g2⟩

theorem round_idx_tally_step (e : Election) (p : String × List ℕ) :
    (Election.tally_step e p).round_idx = e.round_idx := by
  unfold Election.tally_step
  split
  · rfl
  · rfl

theorem countFrame_run_tally (e : Election) :
    CountFrame e e.run_tally ∧ (e.run_tally).round_idx = e.round_idx := by
  constructor
  · exact countFrame_of_sameCount (sameCount_run_tally e)
  · unfold Election.run_tally
    exact (countFrame_foldl (fun e3 p => ⟨countFrame_of_sameCount (sameCount_tally_step e3 p),
      round_idx_tally_step e3 p⟩) e.piles e).2

theorem countFrame_finish_run (e : Election) :
    CountFrame e (Election.finish_run e) ∧ (Election.finish_run e).round_idx = e.round_idx := by
  unfold Election.finish_run
  dsimp only
  have htally := countFrame_run_tally
  have hstep : ∀ (e2 : Election) (cid : String),
      CountFrame e2 (match e2.candidates.lookup cid with
        | some c => if c.is_running then e2.elect cid false else e2
        | none => e2) ∧
      (match e2.candidates.lookup cid with
        | some c => if c.is_running then e2.elect cid false else e2
        | none => e2).round_idx = e2.round_idx := by
    intro e2 cid
    rcases h3 : e2.candidates.lookup cid with _ | c
    · exact ⟨countFrame_refl e2, rfl⟩
    · dsimp only
      by_cases hr : c.is_running
      · rw [if_pos hr]
        exact countFrame_elect e2 cid false
      · rw [if_neg hr]
        exact ⟨countFrame_refl e2, rfl⟩
  split
  · rcases countFrame_foldl hstep e.candidates.keys e with ⟨g1, g2⟩
    rcases htally (e.candidates.keys.foldl _ e) with ⟨t1, t2⟩
    exact ⟨countFrame_trans g1 t1, t2.trans g2⟩
  · rcases htally e with ⟨t1, t2⟩
    exact ⟨t1, t2⟩

theorem is_valid_iff {b : Ballot} : b.is_valid = true ↔ 0 < b.strength ∧ b.prefs ≠ [] := by
  unfold Ballot.is_valid
  rw [Bool.and_eq_true, decide_eq_true_eq, Bool.not_eq_true']
  rw [List.isEmpty_eq_false_iff_exists_mem]
  constructor
  · rintro ⟨h1, ⟨x, hx⟩⟩
    exact ⟨h1, fun hnil => by rw [hnil] at hx; cases hx⟩
  · rintro ⟨h1, h2⟩
    rcases List.exists_mem_of_ne_nil _ h2 with ⟨x, hx⟩
    exact ⟨h1, ⟨x, hx⟩⟩

theorem validStrengthSum_nonneg (e : Election) : 0 ≤ Election.validStrengthSum e := by
  unfold Election.validStrengthSum
  apply List.sum_nonneg
  intro x hx
  rcases List.mem_map.mp hx with ⟨b, hb, hxb⟩
  rcases List.mem_filter.mp hb with ⟨_, hvalid⟩
  rw [← hxb]
  exact le_of_lt (is_valid_iff.mp hvalid).1

theorem truncInt_nonneg {q : ℚ} (h : 0 ≤ q) : 0 ≤ truncInt q := by
  unfold truncInt
  apply Int.tdiv_nonneg
  · exact Rat.num_nonneg.mpr h
  · exact Int.ofNat_nonneg q.den

theorem wf_calc_num_ballots {e : Election} (h : ElectionWF e) :
    ElectionWF e.calc_num_ballots :=
  ⟨h.seats_nonneg, h.quota_nonneg, h.keys_nodup, h.keys_lt, h.weights_nonneg,
    h.ballot_linked, h.ballots_keyed, h.piles_nodup, h.piles_lt, h.piles_keys_nodup, h.cons⟩

theorem wf_calc_quota {e : Election} (h : ElectionWF e)
    (hnb : 0 ≤ (e.num_ballots).getD 0) : ElectionWF e.calc_quota := by
  refine ⟨h.seats_nonneg, ?_, h.keys_nodup, h.keys_lt, h.weights_nonneg,
    h.ballot_linked, h.ballots_keyed, h.piles_nodup, h.piles_lt, h.piles_keys_nodup, h.cons⟩
  intro q hq
  have hq' : Int.fdiv ((e.num_ballots).getD 0) (e.num_seats + 1) + 1 = q := Option.some.inj hq
  rw [← hq']
  have : 0 ≤ Int.fdiv ((e.num_ballots).getD 0) (e.num_seats + 1) :=
    Int.fdiv_nonneg hnb (by linarith [h.seats_nonneg])
  linarith

/-- `_finish_run` preserves well-formedness and the per-ballot sums. -/
theorem wf_finish_run {e : Election} (h : ElectionWF e) :
    ElectionWF (Election.finish_run e) ∧ (Election.finish_run e).ballots = e.ballots ∧
    (∀ bid, ballotSum (Election.finish_run e).slices bid ≤ ballotSum e.slices bid) := by
  unfold Election.finish_run
  dsimp only
  have hstep : ∀ (e2 : Election) (cid : String), ElectionWF e2 →
      ElectionWF (match e2.candidates.lookup cid with
        | some c => if c.is_running then e2.elect cid false else e2
        | none => e2) ∧
      (match e2.candidates.lookup cid with
        | some c => if c.is_running then e2.elect cid false else e2
        | none => e2).ballots = e2.ballots ∧
      (∀ bid, ballotSum (match e2.candidates.lookup cid with
        | some c => if c.is_running then e2.elect cid false else e2
        | none => e2).slices bid ≤ ballotSum e2.slices bid) := by
    intro e2 cid h2
    rcases h3 : e2.candidates.lookup cid with _ | c
    · exact ⟨h2, rfl, fun bid => le_refl _⟩
    · dsimp only
      by_cases hr : c.is_running
      · rw [if_pos hr]
        exact wf_elect cid false h2
      · rw [if_neg hr]
        exact ⟨h2, rfl, fun bid => le_refl _⟩
  have htally : ∀ e2 : Election, ElectionWF e2 →
      ElectionWF e2.run_tally ∧ (e2.run_tally).ballots = e2.ballots ∧
      (∀ bid, ballotSum (e2.run_tally).slices bid ≤ ballotSum e2.slices bid) := by
    intro e2 h2
    have hs := sameCount_run_tally e2
    exact ⟨wf_of_sameCount h2 hs, hs.2.1, fun bid => le_of_eq (by rw [hs.1])⟩
  split
  · rcases wf_foldl hstep e.candidates.keys e h with ⟨g1, g2, g3⟩
    rcases htally _ g1 with ⟨t1, t2, t3⟩
    exact ⟨t1, t2.trans g2, fun bid => le_trans (t3 bid) (g3 bid)⟩
  · exact htally e h


/-- The round-1 initialisation preserves well-formedness and leaves
ballots and slices untouched. -/
theorem wf_round1_init {x : Election} (h : ElectionWF x) :
    ElectionWF (Election.round1_init x) ∧
    (Election.round1_init x).ballots = x.ballots ∧
    (Election.round1_init x).slices = x.slices := by
  have h1 : ElectionWF x.calc_num_ballots := wf_calc_num_ballots h
  have h2 : ElectionWF x.calc_num_ballots.calc_quota := by
    apply wf_calc_quota h1
    rw [show (x.calc_num_ballots).num_ballots = some (truncInt x.validStrengthSum) from rfl]
    exact truncInt_nonneg (validStrengthSum_nonneg x)
  have hs3 : SameCount x.calc_num_ballots.calc_quota x.calc_num_ballots.calc_quota.run_tally :=
    sameCount_run_tally _
  have h3 : ElectionWF x.calc_num_ballots.calc_quota.run_tally := wf_of_sameCount h2 hs3
  have hs4 : SameCount x.calc_num_ballots.calc_quota.run_tally (Election.round1_init x) := by
    unfold Election.round1_init
    exact ⟨rfl, rfl, rfl, rfl, rfl, rfl, rfl, rfl⟩
  refine ⟨wf_of_sameCount h3 hs4, ?_, ?_⟩
  · rw [hs4.2.1, hs3.2.1]
    rfl
  · rw [hs4.1, hs3.1]
    rfl

/-- The election/elimination core preserves well-formedness, ballots, and
the per-ballot sum bound. -/
theorem wf_round_body {em e2 : Election} (h : ElectionWF em)
    (hrun : Election.round_body em = some e2) :
    ElectionWF e2 ∧ e2.ballots = em.ballots ∧
    (∀ bid, ballotSum e2.slices bid ≤ ballotSum em.slices bid) := by
  have trans3 : ∀ {a b c : Election},
      (ElectionWF b ∧ b.ballots = a.ballots ∧
        (∀ bid, ballotSum b.slices bid ≤ ballotSum a.slices bid)) →
      (ElectionWF c ∧ c.ballots = b.ballots ∧
        (∀ bid, ballotSum c.slices bid ≤ ballotSum b.slices bid)) →
      (ElectionWF c ∧ c.ballots = a.ballots ∧
        (∀ bid, ballotSum c.slices bid ≤ ballotSum a.slices bid)) :=
    fun h1 h2 => ⟨h2.1, h2.2.1.trans h1.2.1, fun bid => le_trans (h2.2.2 bid) (h1.2.2 bid)⟩
  unfold Election.round_body at hrun
  dsimp only at hrun
  split at hrun
  · cases hrun
  · next worst hworst =>
    split at hrun
    · -- elimination side
      split at hrun
      · -- eliminate the worst without transfer, then finish
        rcases Option.some.inj hrun with h'
        rw [← h']
        exact trans3 (wf_eliminate worst.id false h) (wf_finish_run (wf_eliminate worst.id false h).1)
      · split at hrun
        · -- force-finish
          rcases Option.some.inj hrun with h'
          rw [← h']
          exact wf_finish_run h
        · -- eliminate the tied tail with transfer, then finish or retally
          have helim : ∀ (L : List String) (x : Election), ElectionWF x →
              ElectionWF (L.foldl (fun acc cid => acc.eliminate cid true) x) ∧
              (L.foldl (fun acc cid => acc.eliminate cid true) x).ballots = x.ballots ∧
              (∀ bid, ballotSum (L.foldl (fun acc cid => acc.eliminate cid true) x).slices bid ≤ ballotSum x.slices bid) :=
            fun L x hx => wf_foldl (fun eacc cid hacc => wf_eliminate cid true hacc) L x hx
          have t := helim (pyTake ((Election.num_running em : ℤ) - Election.num_to_elect em) (((Election.ranked_candidates em).reverse.filter (fun c => quantize c.tally == quantize worst.tally)).map (fun c => c.id))) em h
          split at hrun
          all_goals rcases Option.some.inj hrun with h'
          · rw [← h']
            exact trans3 t (wf_finish_run t.1)
          · rw [← h']
            have hs := sameCount_run_tally ((pyTake ((Election.num_running em : ℤ) - Election.num_to_elect em) (((Election.ranked_candidates em).reverse.filter (fun c => quantize c.tally == quantize worst.tally)).map (fun c => c.id))).foldl (fun acc cid => acc.eliminate cid true) em)
            exact trans3 t ⟨wf_of_sameCount t.1 hs, hs.2.1, fun bid => le_of_eq (by rw [hs.1])⟩
    · -- election side: batch flip, then surplus transfers
      have helect2 : ∀ (L1 L2 : List String) (x : Election), ElectionWF x →
          ElectionWF (L2.foldl (fun acc cid => acc.elect cid true) (L1.foldl Election.mark_elected x)) ∧
          (L2.foldl (fun acc cid => acc.elect cid true) (L1.foldl Election.mark_elected x)).ballots = x.ballots ∧
          (∀ bid, ballotSum (L2.foldl (fun acc cid => acc.elect cid true) (L1.foldl Election.mark_elected x)).slices bid ≤ ballotSum x.slices bid) := by
        intro L1 L2 x hx
        have hmark := sameCount_foldl (fun eacc cid => sameCount_mark_elected eacc cid) L1 x
        have hmarkWF : ElectionWF (L1.foldl Election.mark_elected x) := wf_of_sameCount hx hmark
        rcases wf_foldl (fun eacc cid hacc => wf_elect cid true hacc) L2
          (L1.foldl Election.mark_elected x) hmarkWF with ⟨g1, g2, g3⟩
        refine ⟨g1, g2.trans hmark.2.1, fun bid => ?_⟩
        refine le_trans (g3 bid) (le_of_eq ?_)
        rw [hmark.1]
      have t := helect2 (((Election.ranked_candidates em).filter (fun c => c.is_running && decide (em.quotaQ ≤ c.tally))).map (fun c => c.id)) (((Election.ranked_candidates em).filter (fun c => c.is_running && decide (em.quotaQ ≤ c.tally))).map (fun c => c.id)) em h
      split at hrun
      all_goals rcases Option.some.inj hrun with h'
      · rw [← h']
        exact trans3 t (wf_finish_run t.1)
      · rw [← h']
        have hs := sameCount_run_tally ((((Election.ranked_candidates em).filter (fun c => c.is_running && decide (em.quotaQ ≤ c.tally))).map (fun c => c.id)).foldl (fun acc cid => acc.elect cid true) ((((Election.ranked_candidates em).filter (fun c => c.is_running && decide (em.quotaQ ≤ c.tally))).map (fun c => c.id)).foldl Election.mark_elected em))
        exact trans3 t ⟨wf_of_sameCount t.1 hs, hs.2.1, fun bid => le_of_eq (by rw [hs.1])⟩

/-- `_do_run_round` preserves well-formedness, ballots, and the per-ballot
sum bound whenever it completes (does not assert). -/
theorem wf_do_run_round {e0 e2 : Election} (h : ElectionWF e0)
    (hrun : Election.do_run_round e0 = some e2) :
    ElectionWF e2 ∧ e2.ballots = e0.ballots ∧
    (∀ bid, ballotSum e2.slices bid ≤ ballotSum e0.slices bid) := by
  unfold Election.do_run_round at hrun
  dsimp only at hrun
  have hWFi : ElectionWF { e0 with round_idx := e0.round_idx + 1, event_logs := Dict.setdefaultD e0.event_logs (e0.round_idx + 1) 0 } :=
    wf_of_sameCount h ⟨rfl, rfl, rfl, rfl, rfl, rfl, rfl, rfl⟩
  split at hrun
  · rcases Option.some.inj hrun with h'
    rw [← h']
    exact ⟨hWFi, rfl, fun _ => le_refl _⟩
  · split at hrun
    · rcases wf_round1_init hWFi with ⟨w1, w2, w3⟩
      rcases wf_round_body w1 hrun with ⟨g1, g2, g3⟩
      refine ⟨g1, g2.trans w2, fun bid => le_of_le_of_eq (g3 bid) (by rw [w3])⟩
    · rcases wf_round_body hWFi hrun with ⟨g1, g2, g3⟩
      exact ⟨g1, g2, g3⟩

/-- `_run_round` (round plus log collection) preserves well-formedness,
ballots, and the per-ballot sum bound. -/
theorem wf_run_round {e0 e2 : Election} (h : ElectionWF e0)
    (hrun : Election.run_round e0 = some e2) :
    ElectionWF e2 ∧ e2.ballots = e0.ballots ∧
    (∀ bid, ballotSum e2.slices bid ≤ ballotSum e0.slices bid) := by
  unfold Election.run_round at hrun
  rcases hdo : Election.do_run_round e0 with _ | emid
  · rw [hdo] at hrun
    cases hrun
  · rw [hdo] at hrun
    rcases Option.some.inj hrun with h'
    rcases wf_do_run_round h hdo with ⟨g1, g2, g3⟩
    have hs := sameCount_collect emid
    rw [← h']
    refine ⟨wf_of_sameCount g1 hs, hs.2.1.trans g2, fun bid => ?_⟩
    rw [show (Election.collect_round_log emid).slices = emid.slices from hs.1]
    exact g3 bid

/-- Any number of rounds preserves well-formedness, ballots, and the
per-ballot sum bound. -/
theorem wf_stepsN : ∀ (n : ℕ) {e0 e2 : Election}, ElectionWF e0 →
    Election.stepsN n e0 = some e2 →
    ElectionWF e2 ∧ e2.ballots = e0.ballots ∧
    (∀ bid, ballotSum e2.slices bid ≤ ballotSum e0.slices bid) := by
  intro n
  induction n with
  | zero =>
    intro e0 e2 h hrun
    rcases Option.some.inj hrun with h'
    rw [← h']
    exact ⟨h, rfl, fun _ => le_refl _⟩
  | succ m ih =>
    intro e0 e2 h hrun
    unfold Election.stepsN at hrun
    rcases hr : Election.run_round e0 with _ | emid
    · rw [hr] at hrun
      cases hrun
    · rw [hr] at hrun
      rcases wf_run_round h hr with ⟨g1, g2, g3⟩
      rcases ih g1 hrun with ⟨k1, k2, k3⟩
      exact ⟨k1, k2.trans g2, fun bid => le_trans (k3 bid) (g3 bid)⟩

theorem wf_init {ns : ℤ} (h : 0 ≤ ns) : ElectionWF (Election.init ns) := by
  refine ⟨h, ?_, ?_, ?_, ?_, ?_, ?_, ?_, ?_, ?_, ?_⟩
  · intro q hq
    cases hq
  · exact List.nodup_nil
  · intro p hp
    cases hp
  · intro p hp
    cases hp
  · intro p hp
    cases hp
  · intro bid b hb
    cases hb
  · intro q hq
    cases hq
  · intro q hq
    cases hq
  · exact List.nodup_nil
  · intro bid b hb
    cases hb

theorem wf_register_candidate {e e2 : Election} {c : Candidate} (h : ElectionWF e)
    (hreg : Election.register_candidate e c = some e2) : ElectionWF e2 := by
  unfold Election.register_candidate at hreg
  split at hreg
  · cases hreg
  · rcases Option.some.inj hreg with h'
    rw [← h']
    exact wf_of_sameCount h ⟨rfl, rfl, rfl, rfl, rfl, rfl, rfl, rfl⟩

theorem wf_register_ballot {e e2 : Election} {b : Ballot} (h : ElectionWF e)
    (hreg : Election.register_ballot e b = some e2) : ElectionWF e2 := by
  unfold Election.register_ballot at hreg
  split at hreg
  · cases hreg
  · split at hreg
    · cases hreg
    · next hbs2 hbsB =>
      have hbs : e.ballot_slices.lookup b.id = none := by
        rcases hopt : e.ballot_slices.lookup b.id with _ | v
        · rfl
        · rw [hopt] at hbsB
          simp at hbsB
      have hnosl : ∀ p ∈ e.slices.entries, (p.2).ballot_id ≠ b.id := by
        intro p hp heq
        have := h.ballot_linked p hp
        rw [heq, hbs] at this
        cases this
      have hzero : ballotSum e.slices b.id = 0 := ballotSum_zero_of_no_ballot hnosl
      have hWF1 : ElectionWF { e with ballots := e.ballots.set b.id b } := by
        refine ⟨h.seats_nonneg, h.quota_nonneg, h.keys_nodup, h.keys_lt, h.weights_nonneg,
          h.ballot_linked, ?_, h.piles_nodup, h.piles_lt, h.piles_keys_nodup, ?_⟩
        · intro bid b' hb'
          by_cases hbid : bid = b.id
          · subst hbid
            rw [Dict.lookup_set_self] at hb'
            rw [← Option.some.inj hb']
          · rw [Dict.lookup_set_ne _ _ hbid] at hb'
            exact h.ballots_keyed bid b' hb'
        · intro bid b' hb' hv
          by_cases hbid : bid = b.id
          · subst hbid
            rw [Dict.lookup_set_self] at hb'
            have hbb : b = b' := Option.some.inj hb'
            subst hbb
            rw [hzero]
            exact le_of_lt (is_valid_iff.mp hv).1
          · rw [Dict.lookup_set_ne _ _ hbid] at hb'
            exact h.cons bid b' hb' hv
      rcases Option.some.inj hreg with h'
      rw [← h']
      unfold Election.create_slice
      split
      · exact hWF1
      · next first_pref rest hpf =>
        split
        · exact hWF1
        · next hstr =>
          have hstr2 : (0 : ℚ) < b.strength := lt_of_not_ge hstr
          have hfresh : ({ e with ballots := e.ballots.set b.id b } : Election).slices.lookup
              ({ e with ballots := e.ballots.set b.id b } : Election).slice_id = none :=
            lookup_slice_id_none hWF1
          refine ⟨hWF1.seats_nonneg, hWF1.quota_nonneg, Dict.keys_nodup_set _ hWF1.keys_nodup,
            ?_, ?_, ?_, hWF1.ballots_keyed, ?_, ?_, ?_, ?_⟩
          · intro p hp
            rcases Dict.mem_set hp with hp' | hp'
            · rw [hp']
              exact Nat.lt_succ_self _
            · exact Nat.lt_succ_of_lt (hWF1.keys_lt _ hp')
          · intro p hp
            rcases Dict.mem_set hp with hp' | hp'
            · rw [hp']
              exact le_of_lt hstr2
            · exact hWF1.weights_nonneg _ hp'
          · intro p hp
            rcases Dict.mem_set hp with hp' | hp'
            · rw [hp']
              rw [show (⟨e.slice_id, b.id, 0, b.strength, some first_pref, none, none⟩ : Slice).ballot_id = b.id from rfl]
              rw [Dict.lookup_pushEntry_self]
              rfl
            · exact Dict.lookup_isSome_pushEntry _ _ _ (hWF1.ballot_linked _ hp')
          · intro q hq
            rcases Dict.mem_pushEntry hq with hq' | hq'
            · rw [hq']
              rcases hql : e.piles.lookup first_pref with _ | l
              · simp
              · have hmem := Dict.mem_of_lookup hql
                have hnd := h.piles_nodup _ hmem
                have hlt := h.piles_lt _ hmem
                rw [Option.getD_some]
                rw [List.nodup_append]
                refine ⟨hnd, List.nodup_singleton _, ?_⟩
                intro a ha hae
                rw [List.mem_singleton] at hae
                exact absurd (hae ▸ (hlt a ha)) (lt_irrefl _)
            · exact hWF1.piles_nodup _ hq'
          · intro q hq sid hsid
            rcases Dict.mem_pushEntry hq with hq' | hq'
            · rw [hq'] at hsid
              rcases List.mem_append.mp hsid with hs' | hs'
              · rcases hql : e.piles.lookup first_pref with _ | l
                · rw [hql] at hs'
                  simp at hs'
                · rw [hql, Option.getD_some] at hs'
                  exact Nat.lt_succ_of_lt (h.piles_lt _ (Dict.mem_of_lookup hql) sid hs')
              · rw [List.mem_singleton] at hs'
                rw [hs']
                exact Nat.lt_succ_self _
            · exact Nat.lt_succ_of_lt (hWF1.piles_lt _ hq' sid hsid)
          · exact Dict.keys_nodup_pushEntry _ _ _ hWF1.piles_keys_nodup
          · intro bid b' hb' hv
            rw [ballotSum_set_fresh _ hfresh bid]
            rw [show (⟨e.slice_id, b.id, 0, b.strength, some first_pref, none, none⟩ : Slice).ballot_id = b.id from rfl]
            by_cases hbid : bid = b.id
            · subst hbid
              rw [Dict.lookup_set_self] at hb'
              have hbb : b = b' := Option.some.inj hb'
              subst hbb
              rw [if_pos rfl, hzero, zero_add]
            · rw [Dict.lookup_set_ne _ _ hbid] at hb'
              rw [if_neg (fun hh => hbid hh.symm), add_zero]
              exact h.cons bid b' hb' hv

theorem wf_cand_fold : ∀ (prefs : List String) (acc : Option Election),
    (∀ x, acc = some x → ElectionWF x) →
    ∀ x, prefs.foldl (fun acc2 pref =>
      match acc2 with
      | none => none
      | some el =>
        if (el.candidates.lookup pref).isSome then some el
        else el.register_candidate (Candidate.fresh pref)) acc = some x → ElectionWF x := by
  intro prefs
  induction prefs with
  | nil => exact fun acc hacc x hx => hacc x hx
  | cons p ps ih =>
    intro acc hacc x hx
    refine ih _ ?_ x hx
    intro y hy
    rcases acc with _ | el
    · cases hy
    · have hel := hacc el rfl
      dsimp only at hy
      split at hy
      · rcases Option.some.inj hy with h'
        rw [← h']
        exact hel
      · exact wf_register_candidate hel hy

theorem wf_from_votes_fold : ∀ (l : List (ℕ × List String)) (acc : Option Election),
    (∀ x, acc = some x → ElectionWF x) →
    ∀ e2, l.foldl Election.from_votes_step acc = some e2 → ElectionWF e2 := by
  intro l
  induction l with
  | nil => exact fun acc hacc e2 h2 => hacc e2 h2
  | cons iv l ih =>
    intro acc hacc e2 h2
    refine ih _ ?_ e2 h2
    intro y hy
    unfold Election.from_votes_step at hy
    rcases acc with _ | el
    · cases hy
    · have hel := hacc el rfl
      dsimp only at hy
      split at hy
      · cases hy
      · next el2 hel2 =>
        exact wf_register_ballot (wf_cand_fold iv.2 (some el) (fun x hx => by
          rcases Option.some.inj hx with h'; rw [← h']; exact hel) el2 hel2) hy

/-- A `from_votes` registration with a nonnegative seat count yields a
well-formed election. -/
theorem wf_from_votes {votes : List (List String)} {ns : ℤ} {e : Election}
    (hns : 0 ≤ ns) (h : Election.from_votes votes ns = some e) : ElectionWF e := by
  unfold Election.from_votes at h
  refine wf_from_votes_fold votes.enum (some (Election.init ns)) ?_ e h
  intro x hx
  rcases Option.some.inj hx with h'
  rw [← h']
  exact wf_init hns

/-! ## Claim theorems -/

/-- C2: the code contradicts the spec here (code bug).  A full count
succeeds on a freshly constructed instance and fails loudly on a started
one, but `reset` leaves `_round_idx = 0` (so `round_no == 1`), hence
`run_count` after `reset` always raises the re-entry `AssertionError`
("Pilno skaitīšanu var veikt tikai vienu reizi") even though the count has
been reset — the spec (and `reset`'s own docstring) promise a recount. -/
theorem reset_reentry_bug :
    (Election.run_count c2E0 100).isSome = true ∧
    c2E0.round_no = 0 ∧
    (Election.reset c2E0).round_no = 1 ∧
    Election.run_count (Election.reset c2E0) 100 = none := by
  refine ⟨?_, ?_, ?_, ?_⟩
  · with_unfolding_all rfl
  · with_unfolding_all rfl
  · with_unfolding_all rfl
  · with_unfolding_all rfl

/-- C9: Scenario B.  Three seats over the eight unit ballots
`AB, ABD, AC, ACD, B, BC, BCA, BD` give quota 3; round 1 elects A and B
with pre-transfer tally 4 each, the 0.25-quotient transfers leave C at 1.0
and D at 0.5; round 2 force-elects C and D is never elected. -/
theorem scenario_b_run :
    Election.from_votes sbVotes 3 = some sbE0 ∧
    Election.run_round sbE0 = some sbE1 ∧
    sbE1.quota = some 3 ∧
    ((sbE1.candidates.lookup "A").map Candidate.status) = some Status.elected ∧
    ((sbE1.candidates.lookup "B").map Candidate.status) = some Status.elected ∧
    ((sbE1.candidates.lookup "A").map Candidate.tally_before_done) = some 4 ∧
    ((sbE1.candidates.lookup "B").map Candidate.tally_before_done) = some 4 ∧
    ((4 - (3 : ℚ)) / 4 = 1/4) ∧
    ((sbE1.candidates.lookup "C").map Candidate.tally) = some 1 ∧
    ((sbE1.candidates.lookup "D").map Candidate.tally) = some (1/2) ∧
    ((sbE1.candidates.lookup "C").map Candidate.status) = some Status.running ∧
    ((sbE1.candidates.lookup "D").map Candidate.status) = some Status.running ∧
    Election.run_round sbE1 = some sbE2 ∧
    Election.run_count sbE0 100 = some sbE2.log_event ∧
    sbE2.round_no = 2 ∧
    ((sbE2.candidates.lookup "C").map Candidate.status) = some Status.elected ∧
    ((sbE2.candidates.lookup "D").map Candidate.status) = some Status.eliminated ∧
    Status.eliminated ≠ Status.elected ∧
    sbE2.num_elected = 3 := by
  refine ⟨?_, ?_, ?_, ?_, ?_, ?_, ?_, ?_, ?_, ?_, ?_, ?_, ?_, ?_, ?_, ?_, ?_, ?_, ?_⟩
  · with_unfolding_all rfl
  · with_unfolding_all rfl
  · with_unfolding_all rfl
  · with_unfolding_all rfl
  · with_unfolding_all rfl
  · with_unfolding_all rfl
  · with_unfolding_all rfl
  · with_unfolding_all rfl
  · with_unfolding_all rfl
  · with_unfolding_all rfl
  · with_unfolding_all rfl
  · with_unfolding_all rfl
  · with_unfolding_all rfl
  · with_unfolding_all rfl
  · with_unfolding_all rfl
  · with_unfolding_all rfl
  · with_unfolding_all rfl
  · decide
  · with_unfolding_all rfl

/-- C1 (counterexample): after round 1 of Scenario B, ballot "1" (`AB`) has
a single slice of weight 3/4 — its 1/4 surplus share was exhausted because
`B` was already elected in the same batch — so the slice-weight sum does
not equal the ballot's original strength 1. -/
theorem conservation_equality_fails :
    Election.run_round sbE0 = some sbE1 ∧
    sbE1.ballots.lookup "1" = some ⟨"1", ["A", "B"], 1⟩ ∧
    (⟨"1", ["A", "B"], 1⟩ : Ballot).is_valid = true ∧
    ballotSum sbE1.slices "1" = 3/4 ∧
    (3 : ℚ)/4 ≠ 1 := by
  refine ⟨?_, ?_, ?_, ?_, ?_⟩
  · with_unfolding_all rfl
  · with_unfolding_all rfl
  · with_unfolding_all rfl
  · with_unfolding_all rfl
  · norm_num

/-- C1 (amended): weight is conserved up to exhaustion.  Registration
(`from_votes`, or explicit candidate/ballot registration) yields a
well-formed election, every counting round preserves well-formedness, and
in any well-formed state reached by rounds the sum of the weights of the
slices created for a valid registered ballot is at most — not always equal
to — the ballot's original strength; the difference is weight permanently
exhausted by transfers that found no eligible next preference. -/
theorem conservation_up_to_exhaustion :
    (∀ (votes : List (List String)) (ns : ℤ) (e : Election), 0 ≤ ns →
      Election.from_votes votes ns = some e → ElectionWF e) ∧
    (∀ (e e2 : Election) (c : Candidate), ElectionWF e →
      Election.register_candidate e c = some e2 → ElectionWF e2) ∧
    (∀ (e e2 : Election) (b : Ballot), ElectionWF e →
      Election.register_ballot e b = some e2 → ElectionWF e2) ∧
    (∀ (e : Election), ElectionWF e → ∀ (bid : String) (b : Ballot),
      e.ballots.lookup bid = some b → b.is_valid = true →
      ballotSum e.slices bid ≤ b.strength) ∧
    (∀ (n : ℕ) (e e2 : Election), ElectionWF e → Election.stepsN n e = some e2 →
      ElectionWF e2 ∧ ∀ (bid : String) (b : Ballot),
        e2.ballots.lookup bid = some b → b.is_valid = true →
        ballotSum e2.slices bid ≤ b.strength) := by
  refine ⟨?_, ?_, ?_, ?_, ?_⟩
  · exact fun votes ns e hns h => wf_from_votes hns h
  · exact fun e e2 c h hreg => wf_register_candidate h hreg
  · exact fun e e2 b h hreg => wf_register_ballot h hreg
  · exact fun e h bid b hb hv => h.cons bid b hb hv
  · intro n e e2 h hrun
    rcases wf_stepsN n h hrun with ⟨g1, _, _⟩
    exact ⟨g1, fun bid b hb hv => g1.cons bid b hb hv⟩

theorem conservation_up_to_exhaustion_witness :
    ballotSum sbE2.slices "1" ≤ (1 : ℚ) := by
  have h0 : Election.from_votes sbVotes 3 = some sbE0 := by with_unfolding_all rfl
  have hWF : ElectionWF sbE0 :=
    conservation_up_to_exhaustion.1 sbVotes 3 sbE0 (by norm_num) h0
  have h2 : Election.stepsN 2 sbE0 = some sbE2 := by with_unfolding_all rfl
  exact (conservation_up_to_exhaustion.2.2.2.2 2 sbE0 sbE2 hWF h2).2 "1"
    ⟨"1", ["A", "B"], 1⟩ (by with_unfolding_all rfl) (by with_unfolding_all rfl)

/-- C7 (counterexample): after round 1 of Scenario B, slice 9 sits in
candidate D's pile; round 2 eliminates D and *clears the pile completely*
(`self.piles[candidate.id] = []`), deleting slice 9 from it even though the
slice still exists and is still assigned to D.  Slices are therefore not
"never deleted from a pile". -/
theorem pile_clearing_counterexample :
    Election.run_round sbE0 = some sbE1 ∧
    Election.run_round sbE1 = some sbE2 ∧
    sbE1.piles.lookup "D" = some [9, 14] ∧
    sbE2.piles.lookup "D" = some [] ∧
    (sbE2.slices.lookup 9).isSome = true ∧
    ((sbE2.slices.lookup 9).map Slice.assigned_to) = some (some "D") := by
  refine ⟨?_, ?_, ?_, ?_, ?_, ?_⟩
  · with_unfolding_all rfl
  · with_unfolding_all rfl
  · with_unfolding_all rfl
  · with_unfolding_all rfl
  · with_unfolding_all rfl
  · with_unfolding_all rfl

/-- C8 (counterexample): candidate Z is registered but never first-ranked
and never receives a transfer, so it never owns a pile; after two completed
rounds (`round_no = 2`) its tally history is still the single dataclass
default entry `[0]` — not one entry per completed round. -/
theorem tally_history_shape_counterexample :
    Election.stepsN 2 z8E0 = some z8E2 ∧
    z8E2.round_idx = 1 ∧
    z8E2.round_no = 2 ∧
    ((z8E2.candidates.lookup "Z").map Candidate.status) = some Status.running ∧
    ((z8E2.candidates.lookup "Z").map (fun c => c.tallies)) = some [0] ∧
    z8E2.piles.lookup "Z" = none ∧
    ([(0 : ℚ)].length : ℕ) = 1 ∧ (1 : ℕ) ≠ 2 := by
  refine ⟨?_, ?_, ?_, ?_, ?_, ?_, ?_, ?_⟩
  · with_unfolding_all rfl
  · with_unfolding_all rfl
  · with_unfolding_all rfl
  · with_unfolding_all rfl
  · with_unfolding_all rfl
  · with_unfolding_all rfl
  · rfl
  · decide

/-- C10: stepping a round when all seats are already filled is a no-op on
the election state: candidates (hence statuses, tally histories and both
snapshots), slices and piles — indeed every counting component — are
unchanged; only the round counter advances, the round's event-log bucket is
seeded and a per-candidate round log entry is recorded. -/
theorem step_past_completion {e e2 : Election} (h : e.num_seats ≤ (e.num_elected : ℤ))
    (hrun : Election.run_round e = some e2) :
    e2.candidates = e.candidates ∧ e2.slices = e.slices ∧ e2.piles = e.piles ∧
    e2.ballots = e.ballots ∧ e2.ballot_slices = e.ballot_slices ∧
    e2.quota = e.quota ∧ e2.num_ballots = e.num_ballots ∧ e2.slice_id = e.slice_id ∧
    e2.round_idx = e.round_idx + 1 ∧
    (e2.candidate_logs.lookup (e.round_idx + 1)).isSome = true := by
  unfold Election.run_round Election.do_run_round at hrun
  dsimp only at hrun
  split at hrun
  · rw [Option.map_some'] at hrun
    rcases Option.some.inj hrun with h'
    rw [← h']
    unfold Election.collect_round_log
    refine ⟨rfl, rfl, rfl, rfl, rfl, rfl, rfl, rfl, rfl, ?_⟩
    rw [Dict.lookup_set_self]
    rfl
  · next hneg => exact absurd h hneg

theorem step_past_completion_witness :
    c10E1.candidates = c10E0.candidates ∧ c10E1.round_idx = c10E0.round_idx + 1 := by
  have h : c10E0.num_seats ≤ (c10E0.num_elected : ℤ) := by with_unfolding_all rfl
  have hrun : Election.run_round c10E0 = some c10E1 := by with_unfolding_all rfl
  rcases step_past_completion h hrun with ⟨h1, _, _, _, _, _, _, _, h9, _⟩
  exact ⟨h1, h9⟩

theorem round_idx_mark_elected (e : Election) (cid : String) :
    (Election.mark_elected e cid).round_idx = e.round_idx := by
  unfold Election.mark_elected
  split
  · rfl
  · rfl

/-- The election/elimination core never touches ballots, quota, the
valid-ballot count, the seat count or the round counter. -/
theorem countFrame_round_body {em e2 : Election}
    (hrun : Election.round_body em = some e2) :
    CountFrame em e2 ∧ e2.round_idx = em.round_idx := by
  have trans2 : ∀ {a b c : Election},
      (CountFrame a b ∧ b.round_idx = a.round_idx) →
      (CountFrame b c ∧ c.round_idx = b.round_idx) →
      (CountFrame a c ∧ c.round_idx = a.round_idx) :=
    fun h1 h2 => ⟨countFrame_trans h1.1 h2.1, h2.2.trans h1.2⟩
  unfold Election.round_body at hrun
  dsimp only at hrun
  split at hrun
  · cases hrun
  · next worst hworst =>
    split at hrun
    · split at hrun
      · rcases Option.some.inj hrun with h'
        rw [← h']
        exact trans2 (countFrame_eliminate em worst.id false) (countFrame_finish_run _)
      · split at hrun
        · rcases Option.some.inj hrun with h'
          rw [← h']
          exact countFrame_finish_run em
        · have helim := countFrame_foldl (fun e3 cid => countFrame_eliminate e3 cid true)
            (pyTake ((Election.num_running em : ℤ) - Election.num_to_elect em) (((Election.ranked_candidates em).reverse.filter (fun c => quantize c.tally == quantize worst.tally)).map (fun c => c.id))) em
          split at hrun
          all_goals rcases Option.some.inj hrun with h'
          · rw [← h']
            exact trans2 helim (countFrame_finish_run _)
          · rw [← h']
            exact trans2 helim (countFrame_run_tally _)
    · have hmark := countFrame_foldl (fun e3 cid =>
        ⟨countFrame_of_sameCount (sameCount_mark_elected e3 cid), round_idx_mark_elected e3 cid⟩)
        (((Election.ranked_candidates em).filter (fun c => c.is_running && decide (em.quotaQ ≤ c.tally))).map (fun c => c.id)) em
      have helect := countFrame_foldl (fun e3 cid => countFrame_elect e3 cid true)
        (((Election.ranked_candidates em).filter (fun c => c.is_running && decide (em.quotaQ ≤ c.tally))).map (fun c => c.id))
        ((((Election.ranked_candidates em).filter (fun c => c.is_running && decide (em.quotaQ ≤ c.tally))).map (fun c => c.id)).foldl Election.mark_elected em)
      split at hrun
      all_goals rcases Option.some.inj hrun with h'
      · rw [← h']
        exact trans2 (trans2 hmark helect) (countFrame_finish_run _)
      · rw [← h']
        exact trans2 (trans2 hmark helect) (countFrame_run_tally _)

theorem round1_init_frame (x : Election) :
    (Election.round1_init x).num_ballots = some (truncInt x.validStrengthSum) ∧
    (Election.round1_init x).quota =
      some (Int.fdiv (truncInt x.validStrengthSum) (x.num_seats + 1) + 1) ∧
    (Election.round1_init x).round_idx = x.round_idx ∧
    (Election.round1_init x).ballots = x.ballots ∧
    (Election.round1_init x).num_seats = x.num_seats := by
  unfold Election.round1_init
  dsimp only
  have hrt := countFrame_run_tally x.calc_num_ballots.calc_quota
  refine ⟨?_, ?_, ?_, ?_, ?_⟩
  · show (x.calc_num_ballots.calc_quota.run_tally).num_ballots = some (truncInt x.validStrengthSum)
    rw [hrt.1.2.2.1]
    rfl
  · show (x.calc_num_ballots.calc_quota.run_tally).quota = some (Int.fdiv (truncInt x.validStrengthSum) (x.num_seats + 1) + 1)
    rw [hrt.1.2.1]
    rfl
  · show (x.calc_num_ballots.calc_quota.run_tally).round_idx = x.round_idx
    rw [hrt.2]
    rfl
  · show (x.calc_num_ballots.calc_quota.run_tally).ballots = x.ballots
    rw [hrt.1.1]
    rfl
  · show (x.calc_num_ballots.calc_quota.run_tally).num_seats = x.num_seats
    rw [hrt.1.2.2.2]
    rfl

theorem do_run_round_round1 {e e2 : Election} (hidx : e.round_idx = -1)
    (hlt : (e.num_elected : ℤ) < e.num_seats) (hrun : Election.do_run_round e = some e2) :
    e2.num_ballots = some (truncInt e.validStrengthSum) ∧
    e2.quota = some (Int.fdiv (truncInt e.validStrengthSum) (e.num_seats + 1) + 1) := by
  unfold Election.do_run_round at hrun
  dsimp only at hrun
  split at hrun
  · next hcond => exact absurd hcond (not_le.mpr hlt)
  · split at hrun
    · rcases countFrame_round_body hrun with ⟨hcf, _⟩
      rcases round1_init_frame { e with round_idx := e.round_idx + 1, event_logs := Dict.setdefaultD e.event_logs (e.round_idx + 1) 0 } with ⟨f1, f2, _, _, _⟩
      constructor
      · rw [hcf.2.2.1, f1]
        rfl
      · rw [hcf.2.1, f2]
        rfl
    · next hr1 =>
      exfalso
      apply hr1
      show e.round_idx + 1 + 1 = 1
      rw [hidx]
      decide

theorem run_round_not_round1 {e e2 : Election} (hidx : e.round_idx ≠ -1)
    (hrun : Election.run_round e = some e2) :
    e2.quota = e.quota ∧ e2.num_ballots = e.num_ballots ∧ e2.ballots = e.ballots ∧
    e2.num_seats = e.num_seats ∧ e2.round_idx = e.round_idx + 1 := by
  unfold Election.run_round at hrun
  rcases hdo : Election.do_run_round e with _ | emid
  · rw [hdo] at hrun
    cases hrun
  · rw [hdo, Option.map_some'] at hrun
    rcases Option.some.inj hrun with h'
    have hmid : emid.quota = e.quota ∧ emid.num_ballots = e.num_ballots ∧
        emid.ballots = e.ballots ∧ emid.num_seats = e.num_seats ∧
        emid.round_idx = e.round_idx + 1 := by
      unfold Election.do_run_round at hdo
      dsimp only at hdo
      split at hdo
      · rcases Option.some.inj hdo with h2
        rw [← h2]
        exact ⟨rfl, rfl, rfl, rfl, rfl⟩
      · split at hdo
        · next hr1 =>
          exfalso
          have h2 : e.round_idx + 1 + 1 = 1 := hr1
          omega
        · rcases countFrame_round_body hdo with ⟨hcf, hri⟩
          exact ⟨hcf.2.1, hcf.2.2.1, hcf.1, hcf.2.2.2, hri⟩
    have hc := sameCount_collect emid
    rw [← h']
    exact ⟨(show (Election.collect_round_log emid).quota = emid.quota from rfl).trans hmid.1,
      (show (Election.collect_round_log emid).num_ballots = emid.num_ballots from rfl).trans hmid.2.1,
      (show (Election.collect_round_log emid).ballots = emid.ballots from rfl).trans hmid.2.2.1,
      (show (Election.collect_round_log emid).num_seats = emid.num_seats from rfl).trans hmid.2.2.2.1,
      (show (Election.collect_round_log emid).round_idx = emid.round_idx from rfl).trans hmid.2.2.2.2⟩

theorem stepsN_quota_frame : ∀ (n : ℕ) {e e2 : Election}, 0 ≤ e.round_idx →
    Election.stepsN n e = some e2 → e2.quota = e.quota ∧ e2.num_ballots = e.num_ballots := by
  intro n
  induction n with
  | zero =>
    intro e e2 _ hrun
    rcases Option.some.inj hrun with h'
    rw [← h']
    exact ⟨rfl, rfl⟩
  | succ m ih =>
    intro e e2 hidx hrun
    unfold Election.stepsN at hrun
    rcases hr : Election.run_round e with _ | emid
    · rw [hr] at hrun
      cases hrun
    · rw [hr] at hrun
      rcases run_round_not_round1 (by omega) hr with ⟨g1, g2, _, _, g5⟩
      rcases @ih emid e2 (by omega) hrun with ⟨k1, k2⟩
      exact ⟨k1.trans g1, k2.trans g2⟩

/-- C4: the valid-ballot weight is the truncated sum of the valid ballots'
strengths, the quota is exactly `floor(num_ballots / (seats + 1)) + 1`,
both are computed by the round-1 step (the only step entered with
`_round_idx = -1`), and no later round ever changes either value. -/
theorem quota_computed_once :
    (∀ (e e2 : Election), e.round_idx = -1 → (e.num_elected : ℤ) < e.num_seats →
      Election.do_run_round e = some e2 →
      e2.num_ballots = some (truncInt e.validStrengthSum) ∧
      e2.quota = some (Int.fdiv (truncInt e.validStrengthSum) (e.num_seats + 1) + 1)) ∧
    (∀ (e e2 : Election), e.round_idx ≠ -1 → Election.run_round e = some e2 →
      e2.quota = e.quota ∧ e2.num_ballots = e.num_ballots) ∧
    (∀ (n : ℕ) (e e2 : Election), 0 ≤ e.round_idx → Election.stepsN n e = some e2 →
      e2.quota = e.quota ∧ e2.num_ballots = e.num_ballots) := by
  refine ⟨?_, ?_, ?_⟩
  · exact fun e e2 hidx hlt hrun => do_run_round_round1 hidx hlt hrun
  · intro e e2 hidx hrun
    rcases run_round_not_round1 hidx hrun with ⟨g1, g2, _, _, _⟩
    exact ⟨g1, g2⟩
  · exact fun n e e2 hidx hrun => stepsN_quota_frame n hidx hrun

theorem optEqSomeGetD {A : Type} (x : Option A) (d : A) (h : x.isSome = true) :
    x = some (x.getD d) := by
  cases x with
  | none => cases h
  | some a => rfl

theorem sbE0_round_idx_eq : sbE0.round_idx = -1 := by with_unfolding_all rfl

theorem sbE0_do_run_round_eq : Election.do_run_round sbE0 = some sbD1 :=
  optEqSomeGetD _ _ (by with_unfolding_all rfl)

theorem sbE0_elected_lt_seats : decide ((sbE0.num_elected : ℤ) < sbE0.num_seats) = true := by
  with_unfolding_all rfl

theorem quota_computed_once_witness :
    sbD1.quota = some (Int.fdiv (truncInt sbE0.validStrengthSum) (sbE0.num_seats + 1) + 1) :=
  (quota_computed_once.1 sbE0 sbD1 sbE0_round_idx_eq
    (of_decide_eq_true sbE0_elected_lt_seats) sbE0_do_run_round_eq).2

theorem scan_prefs_stop (e : Election) (prefs : List String) (j : ℕ)
    (h : prefs.length ≤ j) : scan_prefs e prefs j = none := by
  unfold scan_prefs
  rw [List.drop_eq_nil_of_le (by simpa using h)]
  rfl

theorem scan_prefs_step (e : Election) (prefs : List String) (j : ℕ) (h : j < prefs.length) :
    scan_prefs e prefs j =
      if eligible e (prefs.get ⟨j, h⟩) then some (j, prefs.get ⟨j, h⟩)
      else scan_prefs e prefs (j + 1) := by
  unfold scan_prefs
  rw [List.drop_eq_getElem_cons (show j < prefs.enum.length by simpa using h)]
  simp only [scan_list, List.getElem_enum, List.get_eq_getElem]

theorem scan_prefs_none_aux (e : Election) (prefs : List String) :
    ∀ (n j : ℕ), prefs.length ≤ j + n →
      (scan_prefs e prefs j = none ↔
        ∀ i (h : i < prefs.length), j ≤ i → eligible e (prefs.get ⟨i, h⟩) = false) := by
  intro n
  induction n with
  | zero =>
    intro j hj
    rw [scan_prefs_stop e prefs j (by omega)]
    constructor
    · intro _ i h hi
      exact absurd h (by omega)
    · intro _
      rfl
  | succ m ih =>
    intro j hj
    by_cases hlt : j < prefs.length
    · rw [scan_prefs_step e prefs j hlt]
      by_cases helig : eligible e (prefs.get ⟨j, hlt⟩) = true
      · rw [if_pos helig]
        constructor
        · intro hcontra
          exact absurd hcontra (Option.some_ne_none _)
        · intro hall
          exact absurd (hall j hlt (le_refl j)) (by rw [helig]; exact fun hc => Bool.noConfusion hc)
      · rw [if_neg helig]
        rw [ih (j + 1) (by omega)]
        constructor
        · intro hall i h hi
          rcases Nat.eq_or_lt_of_le hi with heq | hi'
          · cases heq
            exact Bool.eq_false_iff.mpr helig
          · exact hall i h (by omega)
        · intro hall i h hi
          exact hall i h (by omega)
    · rw [scan_prefs_stop e prefs j (by omega)]
      constructor
      · intro _ i h hi
        exact absurd h (by omega)
      · intro _
        rfl

theorem scan_prefs_none_iff (e : Election) (prefs : List String) (j : ℕ) :
    scan_prefs e prefs j = none ↔
      ∀ i (h : i < prefs.length), j ≤ i → eligible e (prefs.get ⟨i, h⟩) = false :=
  scan_prefs_none_aux e prefs prefs.length j (by omega)

theorem scan_prefs_some_aux (e : Election) (prefs : List String) :
    ∀ (n j : ℕ), prefs.length ≤ j + n → ∀ (p : ℕ × String),
      (scan_prefs e prefs j = some p ↔
        ∃ h : p.1 < prefs.length, j ≤ p.1 ∧ p.2 = prefs.get ⟨p.1, h⟩ ∧
          eligible e p.2 = true ∧
          ∀ i (hi : i < prefs.length), j ≤ i → i < p.1 →
            eligible e (prefs.get ⟨i, hi⟩) = false) := by
  intro n
  induction n with
  | zero =>
    intro j hj p
    rw [scan_prefs_stop e prefs j (by omega)]
    constructor
    · intro hc
      exact absurd hc (by intro hc2; cases hc2)
    · rintro ⟨h, h1, -, -, -⟩
      exact absurd h (by omega)
  | succ m ih =>
    intro j hj p
    by_cases hlt : j < prefs.length
    · rw [scan_prefs_step e prefs j hlt]
      by_cases helig : eligible e (prefs.get ⟨j, hlt⟩) = true
      · rw [if_pos helig]
        constructor
        · intro hp
          cases Option.some.inj hp
          exact ⟨hlt, le_refl j, rfl, helig, fun i hi h1 h2 => absurd h1 (by omega)⟩
        · rintro ⟨h, h1, h2, h3, h4⟩
          rcases Nat.eq_or_lt_of_le h1 with heq | hi'
          · have hp2 : p.2 = prefs.get ⟨j, hlt⟩ := by
              rw [h2]
              congr 1
              exact (Fin.ext heq.symm)
            have : p = (j, p.2) := Prod.ext heq.symm rfl
            rw [this, hp2]
          · exact absurd (h4 j hlt (le_refl j) hi') (by rw [helig]; exact fun hc => Bool.noConfusion hc)
      · rw [if_neg helig]
        rw [ih (j + 1) (by omega) p]
        constructor
        · rintro ⟨h, h1, h2, h3, h4⟩
          exact ⟨h, by omega, h2, h3, fun i hi hi1 hi2 => by
            rcases Nat.eq_or_lt_of_le hi1 with heq | hi'
            · cases heq
              exact Bool.eq_false_iff.mpr helig
            · exact h4 i hi (by omega) hi2⟩
        · rintro ⟨h, h1, h2, h3, h4⟩
          refine ⟨h, ?_, h2, h3, fun i hi hi1 hi2 => h4 i hi (by omega) hi2⟩
          rcases Nat.eq_or_lt_of_le h1 with heq | hi'
          · cases heq
            rw [h2] at h3
            exact absurd h3 (by rw [Bool.eq_false_iff.mpr helig]; exact fun hc => Bool.noConfusion hc)
          · omega
    · rw [scan_prefs_stop e prefs j (by omega)]
      constructor
      · intro hc
        exact absurd hc (by intro hc2; cases hc2)
      · rintro ⟨h, h1, -, -, -⟩
        exact absurd h (by omega)

theorem scan_prefs_some_iff (e : Election) (prefs : List String) (j : ℕ) (p : ℕ × String) :
    scan_prefs e prefs j = some p ↔
      ∃ h : p.1 < prefs.length, j ≤ p.1 ∧ p.2 = prefs.get ⟨p.1, h⟩ ∧
        eligible e p.2 = true ∧
        ∀ i (hi : i < prefs.length), j ≤ i → i < p.1 →
          eligible e (prefs.get ⟨i, hi⟩) = false :=
  scan_prefs_some_aux e prefs prefs.length j (by omega) p

theorem eligible_iff (e : Election) (cid : String) :
    eligible e cid = true ↔
      ∃ c, e.candidates.lookup cid = some c ∧ c.status = Status.running ∧
        c.tally < e.quotaQ := by
  unfold eligible
  cases hc : e.candidates.lookup cid with
  | none =>
    simp
  | some c =>
    simp [Bool.and_eq_true, beq_iff_eq, decide_eq_true_iff]

/-- C5: when a slice's weight is transferred, `_build_next_slice` resolves
the destination as the first preference strictly after the source slice's
index whose candidate is running with current tally below quota (that is
exactly the `eligible` test, first conjunct); on success the new slice
records the current round in `last_transfer_round` and the transfer reason,
and lands in the destination's pile (third conjunct); if no preference
after the source index is eligible, no successor slice is created and the
election state is returned unchanged — the weight is permanently removed
from circulation (second conjunct). -/
theorem successor_slice_resolution :
    (∀ (e : Election) (cid : String),
        eligible e cid = true ↔
          ∃ c, e.candidates.lookup cid = some c ∧ c.status = Status.running ∧
            c.tally < e.quotaQ) ∧
    (∀ (e : Election) (s : Slice) (w : ℚ) (r : Reason) (ballot : Ballot),
        e.ballots.lookup s.ballot_id = some ballot →
        (∀ i (h : i < ballot.prefs.length), s.current_idx < i →
            eligible e (ballot.prefs.get ⟨i, h⟩) = false) →
        build_next_slice e s w r = (e, none)) ∧
    (∀ (e : Election) (s : Slice) (w : ℚ) (r : Reason) (ballot : Ballot) (j : ℕ)
        (h : j < ballot.prefs.length),
        e.ballots.lookup s.ballot_id = some ballot →
        s.current_idx < j →
        eligible e (ballot.prefs.get ⟨j, h⟩) = true →
        (∀ i (hi : i < ballot.prefs.length), s.current_idx < i → i < j →
            eligible e (ballot.prefs.get ⟨i, hi⟩) = false) →
        (build_next_slice e s w r).2 =
          some ⟨e.slice_id, ballot.id, j, w, some (ballot.prefs.get ⟨j, h⟩),
            some e.round_no, some r⟩ ∧
        (build_next_slice e s w r).1 = Election.log_event { e with
            slices := e.slices.set e.slice_id ⟨e.slice_id, ballot.id, j, w,
              some (ballot.prefs.get ⟨j, h⟩), some e.round_no, some r⟩,
            ballot_slices := e.ballot_slices.pushEntry ballot.id e.slice_id,
            piles := e.piles.pushEntry (ballot.prefs.get ⟨j, h⟩) e.slice_id,
            slice_id := e.slice_id + 1 }) := by
  refine ⟨eligible_iff, ?_, ?_⟩
  · intro e s w r ballot hb hnone
    have hscan : scan_prefs e ballot.prefs (s.current_idx + 1) = none := by
      rw [scan_prefs_none_iff]
      intro i h hi
      exact hnone i h (by omega)
    rcases build_next_slice_spec e s w r with ⟨h1, h2, _⟩ | ⟨b, j, cid, hb2, hs2, _, _⟩
    · exact Prod.ext_iff.mpr ⟨h1, h2⟩
    · rw [hb] at hb2
      cases Option.some.inj hb2
      rw [hscan] at hs2
      cases hs2
  · intro e s w r ballot j h hb hj helig hmin
    have hscan : scan_prefs e ballot.prefs (s.current_idx + 1) =
        some (j, ballot.prefs.get ⟨j, h⟩) := by
      rw [scan_prefs_some_iff]
      exact ⟨h, by omega, rfl, helig, fun i hi hi1 hi2 => hmin i hi (by omega) hi2⟩
    rcases build_next_slice_spec e s w r with ⟨_, _, h3⟩ | ⟨b, j2, cid, hb2, hs2, h2, h1⟩
    · rw [h3 ballot hb] at hscan
      cases hscan
    · rw [hb] at hb2
      cases Option.some.inj hb2
      rw [hscan] at hs2
      cases Option.some.inj hs2
      exact ⟨h2, h1⟩

theorem successor_slice_resolution_witness :
    (build_next_slice c5E c5S 1 Reason.elected).2 =
      some ⟨c5E.slice_id, "3", 1, 1, some "C", some c5E.round_no, some Reason.elected⟩ := by
  have hb : c5E.ballots.lookup c5S.ballot_id = some ⟨"3", ["A", "C"], 1⟩ := by
    with_unfolding_all rfl
  have helig : eligible c5E ((⟨"3", ["A", "C"], 1⟩ : Ballot).prefs.get ⟨1, by decide⟩) = true := by
    with_unfolding_all rfl
  exact (successor_slice_resolution.2.2 c5E c5S 1 Reason.elected ⟨"3", ["A", "C"], 1⟩ 1
    (by decide) hb (by decide) helig
    (fun i hi h1 h2 => absurd h1 (by omega))).1

theorem mem_getD_pushEntry {K : Type} [DecidableEq K] (d : Dict K (List ℕ)) (k k' : K)
    (x n : ℕ) (h : n ∈ (d.lookup k').getD []) :
    n ∈ ((d.pushEntry k x).lookup k').getD [] := by
  by_cases hk : k' = k
  · subst hk
    rw [Dict.lookup_pushEntry_self]
    simpa using Or.inl h
  · rw [Dict.lookup_pushEntry_ne d x hk]
    exact h

theorem eligible_congr {x y : Election} (hc : x.candidates = y.candidates)
    (hq : x.quota = y.quota) (cid : String) : eligible x cid = eligible y cid := by
  unfold eligible quotaQ
  rw [hc, hq]

theorem scan_list_congr {x y : Election} (h : ∀ cid, eligible x cid = eligible y cid) :
    ∀ l : List (ℕ × String), scan_list x l = scan_list y l := by
  intro l
  induction l with
  | nil => rfl
  | cons p rest ih =>
    unfold scan_list
    rw [h p.2, ih]

theorem scan_prefs_congr {x y : Election} (hc : x.candidates = y.candidates)
    (hq : x.quota = y.quota) (prefs : List String) (j : ℕ) :
    scan_prefs x prefs j = scan_prefs y prefs j := by
  unfold scan_prefs
  exact scan_list_congr (eligible_congr hc hq) _

theorem elect_loop_step_frame (tq rq : ℚ) (x : Election) (sid : ℕ) :
    x.slice_id ≤ (elect_loop_step tq rq x sid).slice_id ∧
    (∀ nid, nid ≠ sid → nid < x.slice_id →
      (elect_loop_step tq rq x sid).slices.lookup nid = x.slices.lookup nid) ∧
    (∀ d n, n ∈ ((x.piles.lookup d).getD []) →
      n ∈ (((elect_loop_step tq rq x sid).piles.lookup d).getD [])) := by
  unfold elect_loop_step
  cases hs : x.slices.lookup sid with
  | none => exact ⟨le_refl _, fun _ _ _ => rfl, fun _ _ h => h⟩
  | some s =>
    dsimp only
    rcases build_next_slice_spec { x with slices := x.slices.set sid { s with weight := s.weight * rq } }
        { s with weight := s.weight * rq } (tq * s.weight) Reason.elected with
      ⟨h1, _, _⟩ | ⟨b, j, dest, hb, hscan, h2, h1⟩
    · rw [h1]
      refine ⟨le_refl _, fun nid hne _ => ?_, fun _ _ h => h⟩
      exact Dict.lookup_set_ne _ _ (fun hh => hne hh)
    · rw [h1]
      refine ⟨?_, fun nid hne hlt => ?_, fun d n h => ?_⟩
      · exact Nat.le_succ _
      · show Dict.lookup (Dict.set (Dict.set x.slices sid { s with weight := s.weight * rq })
            x.slice_id _) nid = _
        rw [Dict.lookup_set_ne _ _ (fun hh : nid = x.slice_id => absurd (hh ▸ hlt) (lt_irrefl _)),
          Dict.lookup_set_ne _ _ (fun hh => hne hh)]
      · show n ∈ ((Dict.pushEntry x.piles dest x.slice_id).lookup d).getD []
        exact mem_getD_pushEntry _ _ _ _ _ h

theorem elect_fold_frame (tq rq : ℚ) :
    ∀ (l : List ℕ) (x : Election),
      x.slice_id ≤ (l.foldl (elect_loop_step tq rq) x).slice_id ∧
      (∀ nid, nid < x.slice_id → nid ∉ l →
        (l.foldl (elect_loop_step tq rq) x).slices.lookup nid = x.slices.lookup nid) ∧
      (∀ d n, n ∈ ((x.piles.lookup d).getD []) →
        n ∈ (((l.foldl (elect_loop_step tq rq) x).piles.lookup d).getD [])) := by
  intro l
  induction l with
  | nil => exact fun x => ⟨le_refl _, fun _ _ _ => rfl, fun _ _ h => h⟩
  | cons a rest ih =>
    intro x
    rcases elect_loop_step_frame tq rq x a with ⟨s1, s2, s3⟩
    rcases ih (elect_loop_step tq rq x a) with ⟨i1, i2, i3⟩
    refine ⟨le_trans s1 i1, fun nid hlt hmem => ?_, fun d n h => i3 d n (s3 d n h)⟩
    have hna : nid ≠ a := fun hh => hmem (hh ▸ List.mem_cons_self _ _)
    have hnr : nid ∉ rest := fun hh => hmem (List.mem_cons_of_mem _ hh)
    rw [show (a :: rest).foldl (elect_loop_step tq rq) x =
        rest.foldl (elect_loop_step tq rq) (elect_loop_step tq rq x a) from rfl]
    rw [i2 nid (lt_of_lt_of_le hlt s1) hnr, s2 nid hna hlt]

theorem elect_fold_congr_frame (tq rq : ℚ) :
    ∀ (l : List ℕ) (x : Election),
      (l.foldl (elect_loop_step tq rq) x).candidates = x.candidates ∧
      (l.foldl (elect_loop_step tq rq) x).ballots = x.ballots ∧
      (l.foldl (elect_loop_step tq rq) x).quota = x.quota ∧
      (l.foldl (elect_loop_step tq rq) x).round_idx = x.round_idx := by
  intro l
  induction l with
  | nil => exact fun x => ⟨rfl, rfl, rfl, rfl⟩
  | cons a rest ih =>
    intro x
    rcases countFrame_elect_loop_step tq rq x a with ⟨⟨b1, b2, b3, _⟩, b5, b6⟩
    rcases ih (elect_loop_step tq rq x a) with ⟨i1, i2, i3, i4⟩
    exact ⟨i1.trans b6, i2.trans b1, i3.trans b2, i4.trans b5⟩

theorem elect_fold_effect (tq rq : ℚ) :
    ∀ (l : List ℕ) (x : Election), l.Nodup → (∀ sid ∈ l, sid < x.slice_id) →
      ∀ sid ∈ l, ∀ s, x.slices.lookup sid = some s →
        ((l.foldl (elect_loop_step tq rq) x).slices.lookup sid =
          some { s with weight := s.weight * rq }) ∧
        (∀ b j dest, x.ballots.lookup s.ballot_id = some b →
          scan_prefs x b.prefs (s.current_idx + 1) = some (j, dest) →
          ∃ nid, x.slice_id ≤ nid ∧
            (l.foldl (elect_loop_step tq rq) x).slices.lookup nid =
              some ⟨nid, b.id, j, tq * s.weight, some dest, some x.round_no,
                some Reason.elected⟩ ∧
            nid ∈ (((l.foldl (elect_loop_step tq rq) x).piles.lookup dest).getD [])) := by
  intro l
  induction l with
  | nil =>
    intro x _ _ sid hmem
    exact absurd hmem (List.not_mem_nil sid)
  | cons a rest ih =>
    intro x hnd hlt sid hmem s hs
    have hfold : (a :: rest).foldl (elect_loop_step tq rq) x =
        rest.foldl (elect_loop_step tq rq) (elect_loop_step tq rq x a) := rfl
    rcases List.mem_cons.mp hmem with rfl | hmem2
    · -- sid is the head: it is processed now, then left alone by the rest
      have ha_lt : sid < x.slice_id := hlt sid (List.mem_cons_self _ _)
      have ha_notin : sid ∉ rest := (List.nodup_cons.mp hnd).1
      have hstep := elect_loop_step_frame tq rq x sid
      have hstep_eq : elect_loop_step tq rq x sid =
          (build_next_slice
            { x with slices := x.slices.set sid { s with weight := s.weight * rq } }
            { s with weight := s.weight * rq } (tq * s.weight) Reason.elected).1 := by
        unfold elect_loop_step
        rw [hs]
      constructor
      · rw [hfold]
        rw [(elect_fold_frame tq rq rest (elect_loop_step tq rq x sid)).2.1 sid
          (lt_of_lt_of_le ha_lt hstep.1) ha_notin]
        rw [hstep_eq]
        rcases build_next_slice_spec
            { x with slices := x.slices.set sid { s with weight := s.weight * rq } }
            { s with weight := s.weight * rq } (tq * s.weight) Reason.elected with
          ⟨h1, _, _⟩ | ⟨b, j, dest, hb, hscan, h2, h1⟩
        · rw [h1]
          exact Dict.lookup_set_self _ _ _
        · rw [h1]
          show Dict.lookup (Dict.set (Dict.set x.slices sid { s with weight := s.weight * rq })
              x.slice_id _) sid = _
          rw [Dict.lookup_set_ne _ _
            (fun hh : sid = x.slice_id => absurd (hh ▸ ha_lt) (lt_irrefl _))]
          exact Dict.lookup_set_self _ _ _
      · intro b j dest hb hscan
        rw [hfold]
        have hcands : ({ x with slices := x.slices.set sid { s with weight := s.weight * rq } } :
            Election).candidates = x.candidates := rfl
        have hquota : ({ x with slices := x.slices.set sid { s with weight := s.weight * rq } } :
            Election).quota = x.quota := rfl
        have hscan2 : scan_prefs
            { x with slices := x.slices.set sid { s with weight := s.weight * rq } }
            b.prefs (s.current_idx + 1) = some (j, dest) :=
          (scan_prefs_congr hcands hquota b.prefs (s.current_idx + 1)).trans hscan
        rcases build_next_slice_spec
            { x with slices := x.slices.set sid { s with weight := s.weight * rq } }
            { s with weight := s.weight * rq } (tq * s.weight) Reason.elected with
          ⟨_, _, h3⟩ | ⟨b2, j2, dest2, hb2, hscan3, h2, h1⟩
        · rw [h3 b hb] at hscan2
          cases hscan2
        · rw [show ({ x with slices := x.slices.set sid { s with weight := s.weight * rq } } :
              Election).ballots.lookup ({ s with weight := s.weight * rq } : Slice).ballot_id =
              x.ballots.lookup s.ballot_id from rfl, hb] at hb2
          cases Option.some.inj hb2
          rw [hscan2] at hscan3
          cases Option.some.inj hscan3
          have hsid_step : (elect_loop_step tq rq x sid).slice_id = x.slice_id + 1 := by
            rw [hstep_eq, h1]
            rfl
          have hmem3 : x.slice_id ∉ rest := by
            intro hh
            exact absurd (hlt _ (List.mem_cons_of_mem _ hh)) (lt_irrefl _)
          refine ⟨x.slice_id, le_refl _, ?_, ?_⟩
          · rw [(elect_fold_frame tq rq rest (elect_loop_step tq rq x sid)).2.1 x.slice_id
              (by rw [hsid_step]; exact Nat.lt_succ_self _) hmem3]
            rw [hstep_eq, h1]
            show Dict.lookup (Dict.set (Dict.set x.slices sid { s with weight := s.weight * rq })
                x.slice_id _) x.slice_id = _
            exact Dict.lookup_set_self _ _ _
          · refine (elect_fold_frame tq rq rest (elect_loop_step tq rq x sid)).2.2 dest
              x.slice_id ?_
            rw [hstep_eq, h1]
            show x.slice_id ∈ ((Dict.pushEntry x.piles dest x.slice_id).lookup dest).getD []
            rw [Dict.lookup_pushEntry_self]
            simp
    · -- sid is further down: the head step leaves its slice unchanged
      have hstep := elect_loop_step_frame tq rq x a
      have hcand := countFrame_elect_loop_step tq rq x a
      have hne : sid ≠ a := by
        intro hh
        exact absurd (hh ▸ hmem2) (List.nodup_cons.mp hnd).1
      have hs1 : (elect_loop_step tq rq x a).slices.lookup sid = some s := by
        rw [hstep.2.1 sid hne (hlt sid hmem)]
        exact hs
      rcases ih (elect_loop_step tq rq x a) (List.nodup_cons.mp hnd).2
        (fun sid2 hm => lt_of_lt_of_le (hlt sid2 (List.mem_cons_of_mem _ hm)) hstep.1)
        sid hmem2 s hs1 with ⟨g1, g2⟩
      refine ⟨by rw [hfold]; exact g1, ?_⟩
      intro b j dest hb hscan
      rw [hfold]
      have hb1 : (elect_loop_step tq rq x a).ballots.lookup s.ballot_id = some b := by
        rw [hcand.1.1]
        exact hb
      have hscan1 : scan_prefs (elect_loop_step tq rq x a) b.prefs (s.current_idx + 1) =
          some (j, dest) := by
        rw [scan_prefs_congr hcand.2.2 hcand.1.2.1]
        exact hscan
      rcases g2 b j dest hb1 hscan1 with ⟨nid, n1, n2, n3⟩
      have hrn : (elect_loop_step tq rq x a).round_no = x.round_no := by
        unfold Election.round_no
        rw [hcand.2.1]
      refine ⟨nid, le_trans hstep.1 n1, ?_, n3⟩
      rw [← hrn]
      exact n2

/-- C6: on electing a candidate, `elect` does no redistribution when the
surplus `tally - quota` is nonpositive or transfer was not requested (the
state is exactly the mark-elected/log step, which leaves every slice, pile
and counting field untouched); otherwise, with
`transfer_quotient = surplus / tally` and
`remaining_quotient = 1 - transfer_quotient`, every slice in the elected
candidate's pile is shrunk in place to `weight * remaining_quotient`
keeping all its other fields (so it stays assigned to the elected
candidate), and for each such slice whose ballot still has an eligible
next preference a successor slice carrying
`transfer_quotient * original_weight` is created there, tagged with the
current round and reason `elected`. -/
theorem surplus_transfer :
    (∀ (e : Election) (cid : String) (c : Candidate) (transfer : Bool),
        e.candidates.lookup cid = some c →
        transfer = false ∨ c.tally - e.quotaQ ≤ 0 →
        elect e cid transfer = elect_entry e cid ∧ SameCount e (elect_entry e cid)) ∧
    (∀ (e : Election) (cid : String) (c : Candidate), ElectionWF e →
        e.candidates.lookup cid = some c →
        0 < c.tally - e.quotaQ →
        ∀ sid ∈ (e.piles.lookup cid).getD [], ∀ s, e.slices.lookup sid = some s →
          ((elect e cid true).slices.lookup sid =
            some { s with weight := s.weight * (1 - (c.tally - e.quotaQ) / c.tally) }) ∧
          (∀ (b : Ballot) (j : ℕ) (h : j < b.prefs.length),
            e.ballots.lookup s.ballot_id = some b →
            s.current_idx < j →
            eligible (elect_entry e cid) (b.prefs.get ⟨j, h⟩) = true →
            (∀ i (hi : i < b.prefs.length), s.current_idx < i → i < j →
              eligible (elect_entry e cid) (b.prefs.get ⟨i, hi⟩) = false) →
            ∃ nid, e.slice_id ≤ nid ∧
              (elect e cid true).slices.lookup nid =
                some ⟨nid, b.id, j, ((c.tally - e.quotaQ) / c.tally) * s.weight,
                  some (b.prefs.get ⟨j, h⟩), some e.round_no, some Reason.elected⟩ ∧
              nid ∈ (((elect e cid true).piles.lookup (b.prefs.get ⟨j, h⟩)).getD []))) := by
  constructor
  · intro e cid c transfer hc hcond
    refine ⟨?_, sameCount_elect_entry e cid⟩
    have hcond2 : (!transfer || decide (c.tally - e.quotaQ ≤ 0)) = true := by
      rcases hcond with h | h
      · rw [h]
        rfl
      · rw [decide_eq_true h, Bool.or_true]
    unfold elect
    rw [hc]
    dsimp only
    rw [if_pos hcond2]
  · intro e cid c hw hc hpos sid hsid s hs
    have hcond2 : (!true || decide (c.tally - e.quotaQ ≤ 0)) = false := by
      rw [decide_eq_false (not_le.mpr hpos)]
      rfl
    have helect : elect e cid true =
        ((((elect_entry e cid).log_event).piles.lookup cid).getD []).foldl
          (elect_loop_step ((c.tally - e.quotaQ) / c.tally)
            (1 - (c.tally - e.quotaQ) / c.tally))
          ((elect_entry e cid).log_event) := by
      unfold elect
      rw [hc]
      dsimp only
      rw [if_neg (by rw [hcond2]; exact fun hh => Bool.noConfusion hh)]
    have hsc : SameCount e ((elect_entry e cid).log_event) :=
      sameCount_trans (sameCount_elect_entry e cid) (sameCount_log_event _)
    have hri : ((elect_entry e cid).log_event).round_idx = e.round_idx := by
      unfold elect_entry
      rw [hc]
      rfl
    have hrn : ((elect_entry e cid).log_event).round_no = e.round_no := by
      unfold Election.round_no
      rw [hri]
    have hpile : (((elect_entry e cid).log_event).piles.lookup cid).getD [] =
        (e.piles.lookup cid).getD [] := by
      rw [hsc.2.2.2.1]
    have hnodup : ((e.piles.lookup cid).getD []).Nodup := by
      cases hp : e.piles.lookup cid with
      | none => exact List.nodup_nil
      | some pl => exact hw.piles_nodup (cid, pl) (Dict.mem_of_lookup hp)
    have hbound : ∀ sid2 ∈ (e.piles.lookup cid).getD [],
        sid2 < ((elect_entry e cid).log_event).slice_id := by
      intro sid2 hm
      rw [hsc.2.2.2.2.2.2.2]
      cases hp : e.piles.lookup cid with
      | none =>
        rw [hp] at hm
        exact absurd hm (List.not_mem_nil sid2)
      | some pl =>
        rw [hp] at hm
        exact hw.piles_lt (cid, pl) (Dict.mem_of_lookup hp) sid2 hm
    have hs2 : ((elect_entry e cid).log_event).slices.lookup sid = some s := by
      rw [hsc.1]
      exact hs
    rcases elect_fold_effect ((c.tally - e.quotaQ) / c.tally)
        (1 - (c.tally - e.quotaQ) / c.tally) ((e.piles.lookup cid).getD [])
        ((elect_entry e cid).log_event) hnodup hbound sid hsid s hs2 with ⟨g1, g2⟩
    constructor
    · rw [helect, hpile]
      exact g1
    · intro b j h hb hj helig hmin
      have hcE : ((elect_entry e cid).log_event).candidates = (elect_entry e cid).candidates :=
        rfl
      have hqE : ((elect_entry e cid).log_event).quota = (elect_entry e cid).quota := rfl
      have hb2 : ((elect_entry e cid).log_event).ballots.lookup s.ballot_id = some b := by
        rw [hsc.2.1]
        exact hb
      have hscan : scan_prefs ((elect_entry e cid).log_event) b.prefs (s.current_idx + 1) =
          some (j, b.prefs.get ⟨j, h⟩) := by
        rw [scan_prefs_some_iff]
        refine ⟨h, by omega, rfl, ?_, ?_⟩
        · rw [eligible_congr hcE hqE]
          exact helig
        · intro i hi h1 h2
          rw [eligible_congr hcE hqE]
          exact hmin i hi (by omega) h2
      rcases g2 b j (b.prefs.get ⟨j, h⟩) hb2 hscan with ⟨nid, n1, n2, n3⟩
      refine ⟨nid, ?_, ?_, ?_⟩
      · rw [hsc.2.2.2.2.2.2.2] at n1
        exact n1
      · rw [helect, hpile, n2, hrn]
      · rw [helect, hpile]
        exact n3

theorem lookup_single {K V : Type} [DecidableEq K] {k : K} {v : V} {bid : K} {b : V}
    (h : Dict.lookup [(k, v)] bid = some b) : bid = k ∧ b = v := by
  by_cases hk : k = bid
  · refine ⟨hk.symm, ?_⟩
    have h2 := h
    rw [show Dict.lookup [(k, v)] bid = if k = bid then some v else none from rfl,
      if_pos hk] at h2
    exact (Option.some.inj h2).symm
  · rw [show Dict.lookup [(k, v)] bid = if k = bid then some v else none from rfl,
      if_neg hk] at h
    cases h

theorem c6E_wf : ElectionWF c6E := by
  refine ⟨?_, ?_, ?_, ?_, ?_, ?_, ?_, ?_, ?_, ?_, ?_⟩
  · exact of_decide_eq_true (by with_unfolding_all rfl)
  · intro q hq
    rw [← Option.some.inj hq]
    exact of_decide_eq_true (by with_unfolding_all rfl)
  · exact of_decide_eq_true (by with_unfolding_all rfl)
  · intro p hp
    rcases List.mem_singleton.mp hp with rfl
    exact of_decide_eq_true (by with_unfolding_all rfl)
  · intro p hp
    rcases List.mem_singleton.mp hp with rfl
    exact of_decide_eq_true (by with_unfolding_all rfl)
  · intro p hp
    rcases List.mem_singleton.mp hp with rfl
    with_unfolding_all rfl
  · intro bid b h
    rcases lookup_single h with ⟨h1, h2⟩
    rw [h2, h1]
  · intro q hq
    rcases List.mem_singleton.mp hq with rfl
    exact of_decide_eq_true (by with_unfolding_all rfl)
  · intro q hq sid hsid
    rcases List.mem_singleton.mp hq with rfl
    rcases List.mem_singleton.mp hsid with rfl
    exact of_decide_eq_true (by with_unfolding_all rfl)
  · exact of_decide_eq_true (by with_unfolding_all rfl)
  · intro bid b h hv
    rcases lookup_single h with ⟨h1, h2⟩
    rw [h1, h2]
    exact of_decide_eq_true (by with_unfolding_all rfl)

theorem surplus_transfer_witness :
    (elect c6E "A" true).slices.lookup 1 =
      some ⟨1, "1", 0, 4 * (1 - (4 - c6E.quotaQ) / 4), some "A", none, none⟩ ∧
    ∃ nid, c6E.slice_id ≤ nid ∧
      (elect c6E "A" true).slices.lookup nid =
        some ⟨nid, "1", 1, ((4 - c6E.quotaQ) / 4) * 4, some "B", some c6E.round_no,
          some Reason.elected⟩ ∧
      nid ∈ (((elect c6E "A" true).piles.lookup "B").getD []) := by
  have hc : c6E.candidates.lookup "A" = some ⟨"A", Status.running, [4], 0, 0⟩ := by
    with_unfolding_all rfl
  have hpos : 0 < (⟨"A", Status.running, [4], 0, 0⟩ : Candidate).tally - c6E.quotaQ :=
    of_decide_eq_true (by with_unfolding_all rfl)
  have hsid : 1 ∈ (c6E.piles.lookup "A").getD [] :=
    of_decide_eq_true (by with_unfolding_all rfl)
  have hs : c6E.slices.lookup 1 = some ⟨1, "1", 0, 4, some "A", none, none⟩ := by
    with_unfolding_all rfl
  have hb : c6E.ballots.lookup (⟨1, "1", 0, 4, some "A", none, none⟩ : Slice).ballot_id =
      some ⟨"1", ["A", "B"], 4⟩ := by
    with_unfolding_all rfl
  have helig : eligible (elect_entry c6E "A")
      ((⟨"1", ["A", "B"], 4⟩ : Ballot).prefs.get ⟨1, by decide⟩) = true := by
    with_unfolding_all rfl
  rcases surplus_transfer.2 c6E "A" ⟨"A", Status.running, [4], 0, 0⟩ c6E_wf hc hpos 1 hsid
      ⟨1, "1", 0, 4, some "A", none, none⟩ hs with ⟨g1, g2⟩
  refine ⟨g1, ?_⟩
  exact g2 ⟨"1", ["A", "B"], 4⟩ 1 (by decide) hb (by decide) helig
    (fun i hi h1 h2 => absurd h1 (by omega))

theorem foldl_pile_forward {g : Election → ℕ → Election}
    (hg : ∀ x a d n, n ∈ ((x.piles.lookup d).getD []) →
      n ∈ (((g x a).piles.lookup d).getD [])) :
    ∀ (l : List ℕ) (x : Election) (d : String) (n : ℕ),
      n ∈ ((x.piles.lookup d).getD []) →
      n ∈ (((l.foldl g x).piles.lookup d).getD []) := by
  intro l
  induction l with
  | nil => exact fun x d n h => h
  | cons a rest ih => exact fun x d n h => ih (g x a) d n (hg x a d n h)

theorem foldl_pile_reverse {g : Election → ℕ → Election}
    (hmono : ∀ x a, x.slice_id ≤ (g x a).slice_id)
    (hg : ∀ x a d n, n ∈ (((g x a).piles.lookup d).getD []) →
      n ∈ ((x.piles.lookup d).getD []) ∨ n = x.slice_id) :
    ∀ (l : List ℕ) (x : Election) (d : String) (n : ℕ),
      n ∈ (((l.foldl g x).piles.lookup d).getD []) →
      n ∈ ((x.piles.lookup d).getD []) ∨ x.slice_id ≤ n := by
  intro l
  induction l with
  | nil => exact fun x d n h => Or.inl h
  | cons a rest ih =>
    intro x d n h
    rcases ih (g x a) d n h with h2 | h2
    · rcases hg x a d n h2 with h3 | h3
      · exact Or.inl h3
      · exact Or.inr (le_of_eq h3.symm)
    · exact Or.inr (le_trans (hmono x a) h2)

theorem foldl_slices_persist {g : Election → ℕ → Election}
    (hmono : ∀ x a, x.slice_id ≤ (g x a).slice_id)
    (hg : ∀ x a sid s, sid < x.slice_id → x.slices.lookup sid = some s →
      ∃ w, (g x a).slices.lookup sid = some { s with weight := w }) :
    ∀ (l : List ℕ) (x : Election) (sid : ℕ) (s : Slice),
      sid < x.slice_id → x.slices.lookup sid = some s →
      ∃ w, (l.foldl g x).slices.lookup sid = some { s with weight := w } := by
  intro l
  induction l with
  | nil => exact fun x sid s _ h => ⟨s.weight, h⟩
  | cons a rest ih =>
    intro x sid s hlt h
    rcases hg x a sid s hlt h with ⟨w, hw⟩
    rcases ih (g x a) sid { s with weight := w } (lt_of_lt_of_le hlt (hmono x a)) hw
      with ⟨w2, hw2⟩
    exact ⟨w2, hw2⟩

theorem elect_loop_step_reverse (tq rq : ℚ) (x : Election) (a : ℕ) (d : String) (n : ℕ)
    (h : n ∈ (((elect_loop_step tq rq x a).piles.lookup d).getD [])) :
    n ∈ ((x.piles.lookup d).getD []) ∨ n = x.slice_id := by
  revert h
  unfold elect_loop_step
  cases hs : x.slices.lookup a with
  | none => exact fun h => Or.inl h
  | some s =>
    dsimp only
    rcases build_next_slice_spec
        { x with slices := x.slices.set a { s with weight := s.weight * rq } }
        { s with weight := s.weight * rq } (tq * s.weight) Reason.elected with
      ⟨h1, _, _⟩ | ⟨b, j, dest, hb, hscan, h2, h1⟩
    · rw [h1]
      exact fun h => Or.inl h
    · rw [h1]
      intro h
      by_cases hd : d = dest
      · subst hd
        have h2 : n ∈ ((Dict.pushEntry x.piles d x.slice_id).lookup d).getD [] := h
        rw [Dict.lookup_pushEntry_self] at h2
        simpa using h2
      · have h2 : n ∈ ((Dict.pushEntry x.piles dest x.slice_id).lookup d).getD [] := h
        rw [Dict.lookup_pushEntry_ne _ _ hd] at h2
        exact Or.inl h2

theorem elect_loop_step_persist (tq rq : ℚ) (x : Election) (a sid : ℕ) (s : Slice)
    (hlt : sid < x.slice_id) (hs : x.slices.lookup sid = some s) :
    ∃ w, (elect_loop_step tq rq x a).slices.lookup sid = some { s with weight := w } := by
  by_cases ha : sid = a
  · subst ha
    have hstep_eq : elect_loop_step tq rq x sid =
        (build_next_slice
          { x with slices := x.slices.set sid { s with weight := s.weight * rq } }
          { s with weight := s.weight * rq } (tq * s.weight) Reason.elected).1 := by
      unfold elect_loop_step
      rw [hs]
    refine ⟨s.weight * rq, ?_⟩
    rw [hstep_eq]
    rcases build_next_slice_spec
        { x with slices := x.slices.set sid { s with weight := s.weight * rq } }
        { s with weight := s.weight * rq } (tq * s.weight) Reason.elected with
      ⟨h1, _, _⟩ | ⟨b, j, dest, hb, hscan, h2, h1⟩
    · rw [h1]
      exact Dict.lookup_set_self _ _ _
    · rw [h1]
      show Dict.lookup (Dict.set (Dict.set x.slices sid { s with weight := s.weight * rq })
          x.slice_id _) sid = _
      rw [Dict.lookup_set_ne _ _
        (fun hh : sid = x.slice_id => absurd (hh ▸ hlt) (lt_irrefl _))]
      exact Dict.lookup_set_self _ _ _
  · refine ⟨s.weight, ?_⟩
    rw [(elect_loop_step_frame tq rq x a).2.1 sid ha hlt]
    exact hs

theorem elim_loop_step_frame (x : Election) (a : ℕ) :
    x.slice_id ≤ (elim_loop_step x a).slice_id ∧
    (∀ nid, nid ≠ a → nid < x.slice_id →
      (elim_loop_step x a).slices.lookup nid = x.slices.lookup nid) ∧
    (∀ d n, n ∈ ((x.piles.lookup d).getD []) →
      n ∈ (((elim_loop_step x a).piles.lookup d).getD [])) := by
  unfold elim_loop_step
  cases hs : x.slices.lookup a with
  | none => exact ⟨le_refl _, fun _ _ _ => rfl, fun _ _ h => h⟩
  | some s =>
    dsimp only
    rcases build_next_slice_spec { x with slices := x.slices.set a { s with weight := 0 } }
        { s with weight := 0 } s.weight Reason.eliminated with
      ⟨h1, _, _⟩ | ⟨b, j, dest, hb, hscan, h2, h1⟩
    · rw [h1]
      refine ⟨le_refl _, fun nid hne _ => ?_, fun _ _ h => h⟩
      exact Dict.lookup_set_ne _ _ (fun hh => hne hh)
    · rw [h1]
      refine ⟨Nat.le_succ _, fun nid hne hlt => ?_, fun d n h => ?_⟩
      · show Dict.lookup (Dict.set (Dict.set x.slices a { s with weight := 0 })
            x.slice_id _) nid = _
        rw [Dict.lookup_set_ne _ _ (fun hh : nid = x.slice_id => absurd (hh ▸ hlt) (lt_irrefl _)),
          Dict.lookup_set_ne _ _ (fun hh => hne hh)]
      · show n ∈ ((Dict.pushEntry x.piles dest x.slice_id).lookup d).getD []
        exact mem_getD_pushEntry _ _ _ _ _ h

theorem elim_loop_step_reverse (x : Election) (a : ℕ) (d : String) (n : ℕ)
    (h : n ∈ (((elim_loop_step x a).piles.lookup d).getD [])) :
    n ∈ ((x.piles.lookup d).getD []) ∨ n = x.slice_id := by
  revert h
  unfold elim_loop_step
  cases hs : x.slices.lookup a with
  | none => exact fun h => Or.inl h
  | some s =>
    dsimp only
    rcases build_next_slice_spec { x with slices := x.slices.set a { s with weight := 0 } }
        { s with weight := 0 } s.weight Reason.eliminated with
      ⟨h1, _, _⟩ | ⟨b, j, dest, hb, hscan, h2, h1⟩
    · rw [h1]
      exact fun h => Or.inl h
    · rw [h1]
      intro h
      by_cases hd : d = dest
      · subst hd
        have h2 : n ∈ ((Dict.pushEntry x.piles d x.slice_id).lookup d).getD [] := h
        rw [Dict.lookup_pushEntry_self] at h2
        simpa using h2
      · have h2 : n ∈ ((Dict.pushEntry x.piles dest x.slice_id).lookup d).getD [] := h
        rw [Dict.lookup_pushEntry_ne _ _ hd] at h2
        exact Or.inl h2

theorem elim_loop_step_persist (x : Election) (a sid : ℕ) (s : Slice)
    (hlt : sid < x.slice_id) (hs : x.slices.lookup sid = some s) :
    ∃ w, (elim_loop_step x a).slices.lookup sid = some { s with weight := w } := by
  by_cases ha : sid = a
  · subst ha
    have hstep_eq : elim_loop_step x sid =
        (build_next_slice { x with slices := x.slices.set sid { s with weight := 0 } }
          { s with weight := 0 } s.weight Reason.eliminated).1 := by
      unfold elim_loop_step
      rw [hs]
    refine ⟨0, ?_⟩
    rw [hstep_eq]
    rcases build_next_slice_spec { x with slices := x.slices.set sid { s with weight := 0 } }
        { s with weight := 0 } s.weight Reason.eliminated with
      ⟨h1, _, _⟩ | ⟨b, j, dest, hb, hscan, h2, h1⟩
    · rw [h1]
      exact Dict.lookup_set_self _ _ _
    · rw [h1]
      show Dict.lookup (Dict.set (Dict.set x.slices sid { s with weight := 0 })
          x.slice_id _) sid = _
      rw [Dict.lookup_set_ne _ _
        (fun hh : sid = x.slice_id => absurd (hh ▸ hlt) (lt_irrefl _))]
      exact Dict.lookup_set_self _ _ _
  · refine ⟨s.weight, ?_⟩
    rw [(elim_loop_step_frame x a).2.1 sid ha hlt]
    exact hs

theorem elect_shape (e : Election) (cid : String) (t : Bool) :
    ∃ (tq rq : ℚ) (l : List ℕ) (x : Election),
      elect e cid t = l.foldl (elect_loop_step tq rq) x ∧
      x.piles = e.piles ∧ x.slices = e.slices ∧ x.slice_id = e.slice_id := by
  have hsc := sameCount_elect_entry e cid
  unfold elect
  cases hc : e.candidates.lookup cid with
  | none => exact ⟨0, 0, [], e, rfl, rfl, rfl, rfl⟩
  | some c =>
    dsimp only
    by_cases hcond : (!t || decide (c.tally - e.quotaQ ≤ 0)) = true
    · rw [if_pos hcond]
      exact ⟨0, 0, [], elect_entry e cid, rfl, hsc.2.2.2.1, hsc.1, hsc.2.2.2.2.2.2.2⟩
    · rw [if_neg hcond]
      have hsc2 : SameCount e ((elect_entry e cid).log_event) :=
        sameCount_trans hsc (sameCount_log_event _)
      exact ⟨(c.tally - e.quotaQ) / c.tally, 1 - (c.tally - e.quotaQ) / c.tally,
        (((elect_entry e cid).log_event).piles.lookup cid).getD [],
        (elect_entry e cid).log_event, rfl, hsc2.2.2.2.1, hsc2.1, hsc2.2.2.2.2.2.2.2⟩

theorem eliminate_shape (e : Election) (cid : String) (t : Bool) :
    (eliminate e cid t = e.log_event ∧ e.candidates.lookup cid = none) ∨
    ∃ (l : List ℕ) (x : Election),
      eliminate e cid t = l.foldl elim_loop_step x ∧
      x.piles = e.piles.set cid [] ∧ x.slices = e.slices ∧ x.slice_id = e.slice_id := by
  unfold eliminate
  dsimp only
  cases hc : (Election.log_event e).candidates.lookup cid with
  | none => exact Or.inl ⟨rfl, hc⟩
  | some c =>
    right
    dsimp only
    cases t with
    | false =>
      rw [if_pos (by decide)]
      exact ⟨[], _, rfl, rfl, rfl, rfl⟩
    | true =>
      rw [if_neg (by decide)]
      exact ⟨_, _, rfl, rfl, rfl, rfl⟩

/-- C7 (amended): slice ids never move between piles and slice records are
never deleted.  For `elect`: every pile keeps all its ids (first conjunct),
any id present afterwards was already in that same pile or is a freshly
created slice (second conjunct), and every pre-existing slice survives with
every field except possibly its weight intact (third conjunct).  For
`eliminate`: every pile other than the eliminated candidate's keeps its
ids (fourth), any id present afterwards came from the same pile or is
fresh (fifth), the eliminated candidate's own pile retains no pre-existing
ids — it is cleared, the divergence the counterexample exhibits (sixth) —
while the slice records themselves persist, weight aside, unchanged in the
global slice arena (seventh). -/
theorem pile_membership_persistence :
    (∀ (e : Election) (cid : String) (t : Bool) (d : String) (n : ℕ),
        n ∈ ((e.piles.lookup d).getD []) →
        n ∈ (((elect e cid t).piles.lookup d).getD [])) ∧
    (∀ (e : Election) (cid : String) (t : Bool) (d : String) (n : ℕ),
        n ∈ (((elect e cid t).piles.lookup d).getD []) →
        n ∈ ((e.piles.lookup d).getD []) ∨ e.slice_id ≤ n) ∧
    (∀ (e : Election) (cid : String) (t : Bool) (sid : ℕ) (s : Slice),
        e.slices.lookup sid = some s → sid < e.slice_id →
        ∃ w, (elect e cid t).slices.lookup sid = some { s with weight := w }) ∧
    (∀ (e : Election) (cid : String) (t : Bool) (d : String) (n : ℕ), d ≠ cid →
        n ∈ ((e.piles.lookup d).getD []) →
        n ∈ (((eliminate e cid t).piles.lookup d).getD [])) ∧
    (∀ (e : Election) (cid : String) (t : Bool) (d : String) (n : ℕ),
        n ∈ (((eliminate e cid t).piles.lookup d).getD []) →
        n ∈ ((e.piles.lookup d).getD []) ∨ e.slice_id ≤ n) ∧
    (∀ (e : Election) (cid : String) (t : Bool) (n : ℕ),
        (e.candidates.lookup cid).isSome = true →
        n ∈ (((eliminate e cid t).piles.lookup cid).getD []) →
        e.slice_id ≤ n) ∧
    (∀ (e : Election) (cid : String) (t : Bool) (sid : ℕ) (s : Slice),
        e.slices.lookup sid = some s → sid < e.slice_id →
        ∃ w, (eliminate e cid t).slices.lookup sid = some { s with weight := w }) := by
  refine ⟨?_, ?_, ?_, ?_, ?_, ?_, ?_⟩
  · intro e cid t d n h
    rcases elect_shape e cid t with ⟨tq, rq, l, x, he, hp, hsl, hsid⟩
    rw [he]
    refine foldl_pile_forward (fun x a => (elect_loop_step_frame tq rq x a).2.2) l x d n ?_
    rw [hp]
    exact h
  · intro e cid t d n h
    rcases elect_shape e cid t with ⟨tq, rq, l, x, he, hp, hsl, hsid⟩
    rw [he] at h
    rcases foldl_pile_reverse (fun x a => (elect_loop_step_frame tq rq x a).1)
        (elect_loop_step_reverse tq rq) l x d n h with h2 | h2
    · rw [hp] at h2
      exact Or.inl h2
    · rw [hsid] at h2
      exact Or.inr h2
  · intro e cid t sid s hs hlt
    rcases elect_shape e cid t with ⟨tq, rq, l, x, he, hp, hsl, hsid⟩
    rw [he]
    refine foldl_slices_persist (fun x a => (elect_loop_step_frame tq rq x a).1)
      (elect_loop_step_persist tq rq) l x sid s (by rw [hsid]; exact hlt) ?_
    rw [hsl]
    exact hs
  · intro e cid t d n hd h
    rcases eliminate_shape e cid t with ⟨he, _⟩ | ⟨l, x, he, hp, hsl, hsid⟩
    · rw [he]
      exact h
    · rw [he]
      refine foldl_pile_forward (fun x a => (elim_loop_step_frame x a).2.2) l x d n ?_
      rw [hp, Dict.lookup_set_ne _ _ hd]
      exact h
  · intro e cid t d n h
    rcases eliminate_shape e cid t with ⟨he, _⟩ | ⟨l, x, he, hp, hsl, hsid⟩
    · rw [he] at h
      exact Or.inl h
    · rw [he] at h
      rcases foldl_pile_reverse (fun x a => (elim_loop_step_frame x a).1)
          elim_loop_step_reverse l x d n h with h2 | h2
      · rw [hp] at h2
        by_cases hd : d = cid
        · subst hd
          rw [Dict.lookup_set_self] at h2
          exact absurd (by simpa using h2) (List.not_mem_nil n)
        · rw [Dict.lookup_set_ne _ _ hd] at h2
          exact Or.inl h2
      · rw [hsid] at h2
        exact Or.inr h2
  · intro e cid t n hsome h
    rcases eliminate_shape e cid t with ⟨_, hnone⟩ | ⟨l, x, he, hp, hsl, hsid⟩
    · rw [hnone] at hsome
      cases hsome
    · rw [he] at h
      rcases foldl_pile_reverse (fun x a => (elim_loop_step_frame x a).1)
          elim_loop_step_reverse l x cid n h with h2 | h2
      · rw [hp, Dict.lookup_set_self] at h2
        exact absurd (by simpa using h2) (List.not_mem_nil n)
      · rw [hsid] at h2
        exact h2
  · intro e cid t sid s hs hlt
    rcases eliminate_shape e cid t with ⟨he, _⟩ | ⟨l, x, he, hp, hsl, hsid⟩
    · refine ⟨s.weight, ?_⟩
      rw [he]
      exact hs
    · rw [he]
      refine foldl_slices_persist (fun x a => (elim_loop_step_frame x a).1)
        elim_loop_step_persist l x sid s (by rw [hsid]; exact hlt) ?_
      rw [hsl]
      exact hs

theorem pile_membership_persistence_witness :
    (1 ∈ (((elect c6E "A" true).piles.lookup "A").getD [])) ∧
    (∃ w, (eliminate c6E "A" true).slices.lookup 1 =
      some ⟨1, "1", 0, w, some "A", none, none⟩) := by
  constructor
  · exact pile_membership_persistence.1 c6E "A" true "A" 1
      (of_decide_eq_true (by with_unfolding_all rfl))
  · exact pile_membership_persistence.2.2.2.2.2.2 c6E "A" true 1
      ⟨1, "1", 0, 4, some "A", none, none⟩ (by with_unfolding_all rfl) (by decide)

theorem tally_step_lookup_ne (x : Election) (p : String × List ℕ) (cid : String)
    (h : p.1 ≠ cid) :
    (tally_step x p).candidates.lookup cid = x.candidates.lookup cid := by
  unfold tally_step
  cases hc : x.candidates.lookup p.1 with
  | none => rfl
  | some c =>
    dsimp only
    exact Dict.lookup_set_ne _ _ (Ne.symm h)

theorem tally_fold_untouched :
    ∀ (l : List (String × List ℕ)) (x : Election) (cid : String),
      (∀ p ∈ l, p.1 ≠ cid) →
      (l.foldl tally_step x).candidates.lookup cid = x.candidates.lookup cid := by
  intro l
  induction l with
  | nil => exact fun x cid _ => rfl
  | cons p rest ih =>
    intro x cid hne
    rw [show ((p :: rest).foldl tally_step x) = rest.foldl tally_step (tally_step x p)
      from rfl]
    rw [ih (tally_step x p) cid (fun q hq => hne q (List.mem_cons_of_mem _ hq))]
    exact tally_step_lookup_ne x p cid (hne p (List.mem_cons_self _ _))

theorem tally_fold_lookup :
    ∀ (l : List (String × List ℕ)) (x : Election) (cid : String) (pile : List ℕ)
      (c : Candidate), (Dict.keys l).Nodup → (cid, pile) ∈ l →
      x.candidates.lookup cid = some c →
      (l.foldl tally_step x).candidates.lookup cid =
        some (tallyUpd x.round_no x.round_idx (pileSum x.slices pile) c) := by
  intro l
  induction l with
  | nil =>
    intro x cid pile c _ hm _
    exact absurd hm (List.not_mem_nil _)
  | cons p rest ih =>
    intro x cid pile c hnd hm hx
    rcases List.mem_cons.mp hm with heq | hm2
    · cases heq
      have hstep : tally_step x (cid, pile) =
          { x with candidates := x.candidates.set cid (tallyUpd x.round_no x.round_idx (pileSum x.slices pile) c) } := by
        unfold tally_step
        dsimp only
        rw [hx]
      have hrest : ∀ q ∈ rest, q.1 ≠ cid := by
        intro q hq hqc
        have hk : cid ∈ Dict.keys rest := by
          rw [← hqc]
          exact Dict.mem_keys.mpr ⟨q.2, hq⟩
        exact (List.nodup_cons.mp hnd).1 hk
      rw [show (((cid, pile) :: rest).foldl tally_step x) =
        rest.foldl tally_step (tally_step x (cid, pile)) from rfl]
      rw [tally_fold_untouched rest _ cid hrest, hstep]
      exact Dict.lookup_set_self _ _ _
    · have hp1 : p.1 ≠ cid := by
        intro hh
        have hk : cid ∈ Dict.keys rest := Dict.mem_keys.mpr ⟨pile, hm2⟩
        rw [← hh] at hk
        exact (List.nodup_cons.mp hnd).1 hk
      have hx1 : (tally_step x p).candidates.lookup cid = some c := by
        rw [tally_step_lookup_ne x p cid hp1]
        exact hx
      have hsc := sameCount_tally_step x p
      have hri := round_idx_tally_step x p
      rw [show ((p :: rest).foldl tally_step x) = rest.foldl tally_step (tally_step x p)
        from rfl]
      rw [ih (tally_step x p) cid pile c (List.nodup_cons.mp hnd).2 hm2 hx1]
      rw [hsc.1, hri, show (tally_step x p).round_no = x.round_no from by
        unfold Election.round_no; rw [hri]]

/-- C8 (amended): `run_tally` touches exactly the pile-owning candidates.
A candidate with no pile keeps its candidate record — and hence its
initial one-entry `[0]` history — unchanged (first conjunct, the shape the
counterexample exhibits after two rounds).  A pile owner's record becomes
exactly `tallyUpd round_no _round_idx (sum of its pile's weights)` of its
previous record (second conjunct).  `tallyUpd` appends when the history
has one entry per completed round, placing round `r`'s entry at index
`r - 1` (third conjunct), and once the entry for the current round exists
it overwrites index `_round_idx` in place, so recomputation within a round
is idempotent (fourth conjunct). -/
theorem tally_history_update :
    (∀ (e : Election) (cid : String), e.piles.lookup cid = none →
        (run_tally e).candidates.lookup cid = e.candidates.lookup cid) ∧
    (∀ (e : Election) (cid : String) (pile : List ℕ) (c : Candidate),
        e.piles.keys.Nodup → e.piles.lookup cid = some pile →
        e.candidates.lookup cid = some c →
        (run_tally e).candidates.lookup cid =
          some (tallyUpd e.round_no e.round_idx (pileSum e.slices pile) c)) ∧
    (∀ (rnd_idx : ℤ) (t : ℚ) (c : Candidate),
        (c.tallies.length : ℤ) = rnd_idx →
        tallyUpd (rnd_idx + 1) rnd_idx t c = { c with tallies := c.tallies ++ [t] }) ∧
    (∀ (rnd_idx : ℤ) (t : ℚ) (c : Candidate), 0 ≤ rnd_idx →
        (c.tallies.length : ℤ) = rnd_idx + 1 →
        tallyUpd (rnd_idx + 1) rnd_idx t c =
          { c with tallies := c.tallies.set rnd_idx.toNat t } ∧
        tallyUpd (rnd_idx + 1) rnd_idx t (tallyUpd (rnd_idx + 1) rnd_idx t c) =
          tallyUpd (rnd_idx + 1) rnd_idx t c) := by
  refine ⟨?_, ?_, ?_, ?_⟩
  · intro e cid h
    refine tally_fold_untouched e.piles e cid ?_
    intro p hp hh
    have hk : cid ∈ e.piles.keys := by
      rw [← hh]
      exact Dict.mem_keys.mpr ⟨p.2, hp⟩
    exact Dict.lookup_eq_none_iff.mp h hk
  · intro e cid pile c hnd hp hc
    exact tally_fold_lookup e.piles e cid pile c hnd (Dict.mem_of_lookup hp) hc
  · intro rnd_idx t c hlen
    unfold tallyUpd
    rw [if_pos (by rw [decide_eq_true (show (c.tallies.length : ℤ) < rnd_idx + 1 by omega),
      Bool.or_true])]
  · intro rnd_idx t c h0 hlen
    have hne : c.tallies.isEmpty = false := by
      cases hl : c.tallies with
      | nil =>
        rw [hl] at hlen
        simp at hlen
        omega
      | cons a as => rfl
    have hcond : (c.tallies.isEmpty ||
        decide ((c.tallies.length : ℤ) < rnd_idx + 1)) = false := by
      rw [hne, decide_eq_false (show ¬((c.tallies.length : ℤ) < rnd_idx + 1) by omega)]
      rfl
    have h1 : tallyUpd (rnd_idx + 1) rnd_idx t c =
        { c with tallies := c.tallies.set rnd_idx.toNat t } := by
      unfold tallyUpd
      rw [if_neg (by rw [hcond]; exact fun hh => Bool.noConfusion hh)]
      unfold pySetIdx
      rw [if_pos h0]
    refine ⟨h1, ?_⟩
    rw [h1]
    have hne2 : (c.tallies.set rnd_idx.toNat t).isEmpty = false := by
      cases hl : c.tallies with
      | nil =>
        rw [hl] at hlen
        simp at hlen
        omega
      | cons a as =>
        cases rnd_idx.toNat with
        | zero => rfl
        | succ m => rfl
    have hcond2 : ((c.tallies.set rnd_idx.toNat t).isEmpty ||
        decide (((c.tallies.set rnd_idx.toNat t).length : ℤ) < rnd_idx + 1)) = false := by
      rw [hne2, decide_eq_false (show ¬(((c.tallies.set rnd_idx.toNat t).length : ℤ) <
        rnd_idx + 1) by rw [List.length_set]; omega)]
      rfl
    unfold tallyUpd
    rw [if_neg (by rw [hcond2]; exact fun hh => Bool.noConfusion hh)]
    unfold pySetIdx
    rw [if_pos h0, List.set_set]

theorem tally_history_update_witness :
    (run_tally c6E).candidates.lookup "A" =
      some (tallyUpd c6E.round_no c6E.round_idx (pileSum c6E.slices [1])
        ⟨"A", Status.running, [4], 0, 0⟩) ∧
    tallyUpd 1 0 7 ⟨"A", Status.running, [4], 0, 0⟩ =
      ⟨"A", Status.running, [(4 : ℚ)].set 0 7, 0, 0⟩ := by
  constructor
  · exact tally_history_update.2.1 c6E "A" [1] ⟨"A", Status.running, [4], 0, 0⟩
      (of_decide_eq_true (by with_unfolding_all rfl)) (by with_unfolding_all rfl)
      (by with_unfolding_all rfl)
  · exact (tally_history_update.2.2.2 0 7 ⟨"A", Status.running, [4], 0, 0⟩ (by decide)
      (by decide)).1

theorem listLtB_asymm : ∀ (x y : List ℚ), listLtB x y = true → listLtB y x = false := by
  intro x
  induction x with
  | nil =>
    intro y h
    cases y with
    | nil => cases h
    | cons b bs => rfl
  | cons a as ih =>
    intro y h
    cases y with
    | nil => cases h
    | cons b bs =>
      unfold listLtB at h ⊢
      by_cases hab : a < b
      · rw [if_neg (asymm hab), if_pos hab]
      · rw [if_neg hab] at h
        by_cases hba : b < a
        · rw [if_pos hba] at h
          cases h
        · rw [if_neg hba] at h ⊢
          rw [if_neg hab]
          exact ih bs h

theorem listLtB_trans : ∀ (x y z : List ℚ), listLtB x y = true → listLtB y z = true →
    listLtB x z = true := by
  intro x
  induction x with
  | nil =>
    intro y z h1 h2
    cases y with
    | nil => cases h1
    | cons b bs =>
      cases z with
      | nil => cases h2
      | cons c cs => rfl
  | cons a as ih =>
    intro y z h1 h2
    cases y with
    | nil => cases h1
    | cons b bs =>
      cases z with
      | nil => cases h2
      | cons c cs =>
        unfold listLtB at h1 h2 ⊢
        by_cases hab : a < b
        · by_cases hbc : b < c
          · rw [if_pos (lt_trans hab hbc)]
          · rw [if_neg hbc] at h2
            by_cases hcb : c < b
            · rw [if_pos hcb] at h2
              cases h2
            · have : b = c := le_antisymm (not_lt.mp hcb) (not_lt.mp hbc)
              rw [if_pos (this ▸ hab)]
        · rw [if_neg hab] at h1
          by_cases hba : b < a
          · rw [if_pos hba] at h1
            cases h1
          · rw [if_neg hba] at h1
            have hab2 : a = b := le_antisymm (not_lt.mp hba) (not_lt.mp hab)
            by_cases hbc : b < c
            · rw [if_pos (hab2 ▸ hbc)]
            · rw [if_neg hbc] at h2
              by_cases hcb : c < b
              · rw [if_pos hcb] at h2
                cases h2
              · rw [if_neg hcb] at h2
                rw [if_neg (hab2 ▸ hbc), if_neg (hab2 ▸ hcb)]
                exact ih bs cs h1 h2

theorem listLtB_eq_of_both_false : ∀ (x y : List ℚ), listLtB x y = false →
    listLtB y x = false → x = y := by
  intro x
  induction x with
  | nil =>
    intro y h1 _
    cases y with
    | nil => rfl
    | cons b bs => cases h1
  | cons a as ih =>
    intro y h1 h2
    cases y with
    | nil => cases h2
    | cons b bs =>
      unfold listLtB at h1 h2
      by_cases hab : a < b
      · rw [if_pos hab] at h1
        cases h1
      · rw [if_neg hab] at h1
        by_cases hba : b < a
        · rw [if_pos hba] at h2
          cases h2
        · rw [if_neg hba] at h1
          rw [if_neg hba, if_neg hab] at h2
          rw [le_antisymm (not_lt.mp hba) (not_lt.mp hab), ih bs h1 h2]

theorem listLtB_irrefl (x : List ℚ) : listLtB x x = false := by
  cases hv : listLtB x x with
  | false => rfl
  | true =>
    have h2 := listLtB_asymm x x hv
    rw [hv] at h2
    exact h2

theorem mapNeg_inj : ∀ (x y : List ℚ), x.map (fun t => -t) = y.map (fun t => -t) → x = y := by
  intro x
  induction x with
  | nil =>
    intro y h
    cases y with
    | nil => rfl
    | cons b bs => cases h
  | cons a as ih =>
    intro y h
    cases y with
    | nil => cases h
    | cons b bs =>
      rcases List.cons.inj h with ⟨h1, h2⟩
      rw [neg_inj.mp h1, ih bs h2]

theorem keyLtB_both_false (a b : Candidate) (h1 : Key.keyLtB a b = false)
    (h2 : Key.keyLtB b a = false) :
    negRev a.tallies = negRev b.tallies ∧ a.id = b.id := by
  unfold Key.keyLtB at h1 h2
  by_cases hx : listLtB (negRev a.tallies) (negRev b.tallies) = true
  · rw [if_pos hx] at h1
    cases h1
  · by_cases hy : listLtB (negRev b.tallies) (negRev a.tallies) = true
    · rw [if_pos hy] at h2
      cases h2
    · rw [if_neg hx, if_neg hy] at h1
      rw [if_neg hy, if_neg hx] at h2
      refine ⟨listLtB_eq_of_both_false _ _ (Bool.eq_false_iff.mpr hx) (Bool.eq_false_iff.mpr hy), ?_⟩
      have ha : ¬ a.id < b.id := fun hh => Bool.noConfusion ((decide_eq_true hh).symm.trans h1)
      have hb : ¬ b.id < a.id := fun hh => Bool.noConfusion ((decide_eq_true hh).symm.trans h2)
      exact le_antisymm (not_lt.mp hb) (not_lt.mp ha)

theorem keyLtB_congr (a b a2 b2 : Candidate) (ha : a.tallies = a2.tallies)
    (hai : a.id = a2.id) (hb : b.tallies = b2.tallies) (hbi : b.id = b2.id) :
    Key.keyLtB a b = Key.keyLtB a2 b2 := by
  unfold Key.keyLtB
  rw [ha, hai, hb, hbi]

theorem keyLtB_asymm (a b : Candidate) (h : Key.keyLtB a b = true) :
    Key.keyLtB b a = false := by
  unfold Key.keyLtB at h ⊢
  by_cases hx : listLtB (negRev a.tallies) (negRev b.tallies) = true
  · rw [if_neg (by rw [listLtB_asymm _ _ hx]; exact fun hh => Bool.noConfusion hh), if_pos hx]
  · rw [if_neg hx] at h
    by_cases hy : listLtB (negRev b.tallies) (negRev a.tallies) = true
    · rw [if_pos hy] at h
      cases h
    · rw [if_neg hy] at h
      rw [if_neg hy, if_neg hx]
      have hid : a.id < b.id := of_decide_eq_true h
      exact decide_eq_false (asymm hid)

theorem keyLtB_trans (a b c : Candidate) (h1 : Key.keyLtB a b = true)
    (h2 : Key.keyLtB b c = true) : Key.keyLtB a c = true := by
  by_cases hab : listLtB (negRev a.tallies) (negRev b.tallies) = true
  · by_cases hbc : listLtB (negRev b.tallies) (negRev c.tallies) = true
    · unfold Key.keyLtB
      rw [if_pos (listLtB_trans _ _ _ hab hbc)]
    · unfold Key.keyLtB at h2
      rw [if_neg hbc] at h2
      by_cases hcb : listLtB (negRev c.tallies) (negRev b.tallies) = true
      · rw [if_pos hcb] at h2
        cases h2
      · have heq := listLtB_eq_of_both_false _ _ (Bool.eq_false_iff.mpr hbc)
          (Bool.eq_false_iff.mpr hcb)
        unfold Key.keyLtB
        rw [if_pos (heq ▸ hab)]
  · unfold Key.keyLtB at h1
    rw [if_neg hab] at h1
    by_cases hba : listLtB (negRev b.tallies) (negRev a.tallies) = true
    · rw [if_pos hba] at h1
      cases h1
    · rw [if_neg hba] at h1
      have heq := listLtB_eq_of_both_false _ _ (Bool.eq_false_iff.mpr hab)
        (Bool.eq_false_iff.mpr hba)
      have hid1 : a.id < b.id := of_decide_eq_true h1
      unfold Key.keyLtB at h2 ⊢
      rw [← heq] at h2
      by_cases hac : listLtB (negRev a.tallies) (negRev c.tallies) = true
      · rw [if_pos hac]
      · rw [if_neg hac] at h2 ⊢
        by_cases hca : listLtB (negRev c.tallies) (negRev a.tallies) = true
        · rw [if_pos hca] at h2
          cases h2
        · rw [if_neg hca] at h2 ⊢
          exact decide_eq_true (lt_trans hid1 (of_decide_eq_true h2))

theorem mapNeg_histBetter : ∀ (x y : List ℚ), x.length = y.length →
    listLtB (x.map (fun t => -t)) (y.map (fun t => -t)) = histBetterB x y := by
  intro x
  induction x with
  | nil =>
    intro y h
    cases y with
    | nil => rfl
    | cons b bs => exact absurd h (by simp)
  | cons a as ih =>
    intro y h
    cases y with
    | nil => exact absurd h (by simp)
    | cons b bs =>
      show listLtB (-a :: as.map _) (-b :: bs.map _) = histBetterB (a :: as) (b :: bs)
      unfold listLtB histBetterB
      by_cases hba : b < a
      · rw [if_pos (neg_lt_neg hba), if_pos hba]
      · rw [if_neg (fun hh => hba (neg_lt_neg_iff.mp hh)), if_neg hba]
        by_cases hab : a < b
        · rw [if_pos (neg_lt_neg hab), if_pos hab]
        · rw [if_neg (fun hh => hab (neg_lt_neg_iff.mp hh)), if_neg hab]
          exact ih bs (by simpa using h)

theorem negRev_cons (l : List ℚ) (h : l ≠ []) :
    negRev l = -(l.getLast h) :: ((l.dropLast.reverse).map (fun t => -t)) := by
  unfold negRev
  conv_lhs => rw [← List.dropLast_append_getLast h]
  rw [List.reverse_append]
  simp

theorem tally_eq_getLast (c : Candidate) (h : c.tallies ≠ []) :
    c.tally = c.tallies.getLast h := by
  unfold Candidate.tally
  rw [List.getLast?_eq_getLast c.tallies h]

theorem keyLtB_iff_spec (a b : Candidate) (ha : a.tallies ≠ []) (hb : b.tallies ≠ [])
    (hlen : a.tallies.length = b.tallies.length) :
    Key.keyLtB a b = true ↔ specRankLt a b := by
  have hplen : (priorHist a).length = (priorHist b).length := by
    unfold priorHist
    simp [hlen]
  have hA : negRev a.tallies =
      -a.tally :: ((priorHist a).map (fun t => -t)) := by
    rw [negRev_cons a.tallies ha, tally_eq_getLast a ha]
    rfl
  have hB : negRev b.tallies =
      -b.tally :: ((priorHist b).map (fun t => -t)) := by
    rw [negRev_cons b.tallies hb, tally_eq_getLast b hb]
    rfl
  unfold Key.keyLtB specRankLt
  rw [hA, hB]
  by_cases h1 : b.tally < a.tally
  · have hlt : listLtB (-a.tally :: ((priorHist a).map (fun t => -t)))
        (-b.tally :: ((priorHist b).map (fun t => -t))) = true := by
      unfold listLtB
      rw [if_pos (neg_lt_neg h1)]
    rw [if_pos hlt]
    exact iff_of_true rfl (Or.inl h1)
  · by_cases h2 : a.tally < b.tally
    · have hlt1 : listLtB (-a.tally :: ((priorHist a).map (fun t => -t)))
          (-b.tally :: ((priorHist b).map (fun t => -t))) = false := by
        unfold listLtB
        rw [if_neg (fun hh => h1 (neg_lt_neg_iff.mp hh)), if_pos (neg_lt_neg h2)]
      have hlt2 : listLtB (-b.tally :: ((priorHist b).map (fun t => -t)))
          (-a.tally :: ((priorHist a).map (fun t => -t))) = true := by
        unfold listLtB
        rw [if_pos (neg_lt_neg h2)]
      rw [if_neg (by rw [hlt1]; exact fun hh => Bool.noConfusion hh), if_pos hlt2]
      refine iff_of_false (fun hh => Bool.noConfusion hh) ?_
      rintro (hh | ⟨hh, -⟩)
      · exact h1 hh
      · exact absurd h2 (by rw [hh]; exact lt_irrefl _)
    · have heq : a.tally = b.tally := le_antisymm (not_lt.mp h1) (not_lt.mp h2)
      have hfirst : listLtB (-a.tally :: ((priorHist a).map (fun t => -t)))
          (-b.tally :: ((priorHist b).map (fun t => -t))) =
          histBetterB (priorHist a) (priorHist b) := by
        unfold listLtB
        rw [if_neg (fun hh => h1 (neg_lt_neg_iff.mp hh)),
          if_neg (fun hh => h2 (neg_lt_neg_iff.mp hh))]
        exact mapNeg_histBetter _ _ hplen
      have hsecond : listLtB (-b.tally :: ((priorHist b).map (fun t => -t)))
          (-a.tally :: ((priorHist a).map (fun t => -t))) =
          histBetterB (priorHist b) (priorHist a) := by
        unfold listLtB
        rw [if_neg (fun hh => h2 (neg_lt_neg_iff.mp hh)),
          if_neg (fun hh => h1 (neg_lt_neg_iff.mp hh))]
        exact mapNeg_histBetter _ _ hplen.symm
      by_cases h3 : histBetterB (priorHist a) (priorHist b) = true
      · rw [if_pos (by rw [hfirst]; exact h3)]
        exact iff_of_true rfl (Or.inr ⟨heq, Or.inl h3⟩)
      · rw [if_neg (by rw [hfirst]; exact h3)]
        by_cases h4 : histBetterB (priorHist b) (priorHist a) = true
        · rw [if_pos (by rw [hsecond]; exact h4)]
          refine iff_of_false (fun hh => Bool.noConfusion hh) ?_
          rintro (hh | ⟨-, hh | ⟨hh, -⟩⟩)
          · exact h1 hh
          · exact h3 hh
          · rw [hh, ← mapNeg_histBetter _ _ rfl, listLtB_irrefl] at h4
            cases h4
        · rw [if_neg (by rw [hsecond]; exact h4)]
          have hPa : priorHist a = priorHist b := by
            refine mapNeg_inj _ _ (listLtB_eq_of_both_false _ _ ?_ ?_)
            · rw [mapNeg_histBetter _ _ hplen]
              exact Bool.eq_false_iff.mpr h3
            · rw [mapNeg_histBetter _ _ hplen.symm]
              exact Bool.eq_false_iff.mpr h4
          constructor
          · intro hh
            exact Or.inr ⟨heq, Or.inr ⟨hPa, of_decide_eq_true hh⟩⟩
          · rintro (hh | ⟨-, hh | ⟨-, hh⟩⟩)
            · exact absurd hh h1
            · exact absurd hh h3
            · exact decide_eq_true hh

theorem negRev_inj (x y : List ℚ) (h : negRev x = negRev y) : x = y := by
  unfold negRev at h
  exact List.reverse_injective (mapNeg_inj _ _ h)

theorem keyLe_total (a b : Candidate) : Key.keyLe a b ∨ Key.keyLe b a := by
  unfold Key.keyLe Key.keyLeB
  cases hv : Key.keyLtB b a with
  | false => exact Or.inl rfl
  | true =>
    refine Or.inr ?_
    rw [keyLtB_asymm b a hv]
    rfl

theorem keyLe_trans (a b c : Candidate) (h1 : Key.keyLe a b) (h2 : Key.keyLe b c) :
    Key.keyLe a c := by
  unfold Key.keyLe Key.keyLeB at h1 h2 ⊢
  have hba : Key.keyLtB b a = false := by
    cases hv : Key.keyLtB b a with
    | false => rfl
    | true =>
      rw [hv] at h1
      cases h1
  have hcb : Key.keyLtB c b = false := by
    cases hv : Key.keyLtB c b with
    | false => rfl
    | true =>
      rw [hv] at h2
      cases h2
  cases hv : Key.keyLtB c a with
  | false => rfl
  | true =>
    exfalso
    by_cases hbc : Key.keyLtB b c = true
    · have hh := keyLtB_trans b c a hbc hv
      rw [hba] at hh
      cases hh
    · have hboth := keyLtB_both_false b c (Bool.eq_false_iff.mpr hbc) hcb
      have htal : b.tallies = c.tallies := negRev_inj _ _ hboth.1
      have hcongr : Key.keyLtB c a = Key.keyLtB b a :=
        keyLtB_congr c a b a htal.symm hboth.2.symm rfl rfl
      rw [hv, hba] at hcongr
      cases hcongr

/-- C3: `_get_candidates_by_tally` returns the candidates sorted by
`Key.by_tally_desc_then_id`, and the round's ranking is its
`running`-filtered sublist (first conjunct: sortedness of both lists,
permutation of the candidate set, and every ranked candidate running).
For histories with one entry per computed round (equal-length, nonempty
`tallies`), the comparator is exactly the spec's rule: current tally
descending, then prior-round history most recent first, then identifier
ascending (second conjunct, against the spec-side `specRankLt`).  The
comparison depends only on the candidates' recorded `tallies` and `id` —
it cannot reference a round that has not been computed, because such a
round has no entry in any history it reads (third conjunct). -/
theorem ranking_rule :
    (∀ e : Election,
        List.Sorted Key.keyLe (e.get_candidates_by_tally) ∧
        List.Perm (e.get_candidates_by_tally) (e.candidates.values) ∧
        List.Sorted Key.keyLe (e.ranked_candidates) ∧
        ∀ c ∈ e.ranked_candidates, c.is_running = true) ∧
    (∀ a b : Candidate, a.tallies ≠ [] → b.tallies ≠ [] →
        a.tallies.length = b.tallies.length →
        (Key.keyLtB a b = true ↔ specRankLt a b)) ∧
    (∀ a b a2 b2 : Candidate, a.tallies = a2.tallies → a.id = a2.id →
        b.tallies = b2.tallies → b.id = b2.id →
        Key.keyLtB a b = Key.keyLtB a2 b2) := by
  haveI htot : IsTotal Candidate Key.keyLe := ⟨keyLe_total⟩
  haveI htr : IsTrans Candidate Key.keyLe := ⟨keyLe_trans⟩
  refine ⟨?_, keyLtB_iff_spec, keyLtB_congr⟩
  intro e
  refine ⟨List.sorted_insertionSort Key.keyLe _, List.perm_insertionSort Key.keyLe _,
    ?_, ?_⟩
  · exact List.Pairwise.filter _ (List.sorted_insertionSort Key.keyLe _)
  · intro c hc
    exact (List.mem_filter.mp hc).2

theorem ranking_rule_witness :
    Key.keyLtB ⟨"A", Status.running, [3, 4], 0, 0⟩ ⟨"B", Status.running, [3, 4], 0, 0⟩ =
      true := by
  refine (ranking_rule.2.1 ⟨"A", Status.running, [3, 4], 0, 0⟩
    ⟨"B", Status.running, [3, 4], 0, 0⟩ (List.cons_ne_nil _ _) (List.cons_ne_nil _ _)
    rfl).mpr ?_
  exact Or.inr ⟨rfl, Or.inr ⟨rfl, of_decide_eq_true (by with_unfolding_all rfl)⟩⟩
